import Mathlib

/-!
# IP fragment reassembly table (lib/librte_ip_frag/rte_ip_frag_common.c)

A shallow embedding of the table life-cycle code of the DPDK IP
fragmentation library: `rte_ip_frag_free_death_row`,
`rte_ip_frag_table_create`, `rte_ip_frag_table_destroy`,
`rte_ip_frag_table_iterate` and `rte_ip_frag_table_statistics_dump`, with
the helpers they call.

Conventions
* `uint32_t` and `uint64_t` values are natural numbers; every operation
  that can wrap in C is reduced modulo `2 ^ 32` or `2 ^ 64` explicitly.
* A pointer argument that may be `NULL` is an `Option`.
* The slot array `tbl->pkt[]` is a list, a slot is named by its index,
  and the intrusive LRU `TAILQ` is the list of the indices of the slots
  linked on it, head first.
* Calls into the environment (allocator, time-stamp counter) are explicit
  arguments, and the calls made are recorded in the result.
-/

namespace IpFrag

/-! ## Constants and machine arithmetic -/

/-- Largest value of a `uint32_t`. -/
def UINT32_MAX : Nat := 2 ^ 32 - 1

/-- Number of hash functions, `#define IP_FRAG_HASH_FNUM 2`. -/
def IP_FRAG_HASH_FNUM : Nat := 2

/-- The errno value `EINVAL`. -/
def EINVAL : Int := 22

/-- Subtraction of `uint32_t` values, wrapping modulo `2 ^ 32`: the
difference when there is no borrow, and `2 ^ 32` less the shortfall when
there is. -/
def sub32 (a b : Nat) : Nat :=
  if b % 2 ^ 32 ≤ a % 2 ^ 32 then a % 2 ^ 32 - b % 2 ^ 32
  else 2 ^ 32 - (b % 2 ^ 32 - a % 2 ^ 32)

/-- Bitwise complement `~a` of a `uint32_t`. -/
def not32 (a : Nat) : Nat := 2 ^ 32 - (a % 2 ^ 32 + 1)

/-- Modelled from the spec: `rte_combine32ms1b` of `rte_common.h`, a header
that is not part of the sources at hand. It smears the most significant set
bit of a 32-bit value into every lower position, the first half of rounding
up to a power of two. -/
def rte_combine32ms1b (x : Nat) : Nat :=
  let x := x ||| (x >>> 1)
  let x := x ||| (x >>> 2)
  let x := x ||| (x >>> 4)
  let x := x ||| (x >>> 8)
  let x := x ||| (x >>> 16)
  x

/-- Modelled from the spec: `rte_align32pow2` of `rte_common.h`, a header
that is not part of the sources at hand. The spec calls it "rounded up to a
power of two"; the computation is done on a `uint32_t`
(`x--; x = rte_combine32ms1b(x); return x + 1;`), so both the decrement and
the final increment wrap modulo `2 ^ 32`. -/
def rte_align32pow2 (x : Nat) : Nat :=
  let x := sub32 x 1
  let x := rte_combine32ms1b x
  (x + 1) % 2 ^ 32

/-- Modelled from the spec: `rte_is_power_of_2` of `rte_common.h`, a header
that is not part of the sources at hand: `n && !(n & (n - 1))`, the test
behind the spec's "must be a power of two". The result is a C truth value,
`1` or `0`. -/
def rte_is_power_of_2 (n : Nat) : Nat :=
  if n ≠ 0 ∧ (n &&& sub32 n 1) = 0 then 1 else 0

/-- The spec's "rounded up to a power of two", over the unbounded natural
numbers: the least power of two that is at least `n`. -/
def round_up_pow2 (n : Nat) : Nat := 2 ^ Nat.clog 2 n

/-! ## Data model -/

/-- Modelled from the spec: the group key (`struct ip_frag_key` of the
absent `rte_ip_frag.h`): addresses, datagram id, and the key length that
discriminates the protocol. A key of length `0` is the empty key. -/
structure ip_frag_key where
  src_dst : List Nat
  id : Nat
  key_len : Nat
deriving DecidableEq, Repr

/-- Modelled from the spec: one stored fragment (`struct ip_frag`): byte
offset, length and the handle of the buffer that holds it. -/
structure ip_frag where
  ofs : Nat
  len : Nat
  mb : Nat
deriving DecidableEq, Repr

/-- Modelled from the spec: a slot of the table (`struct ip_frag_pkt`): key,
creation time stamp `start`, size bookkeeping, and the fragments stored so
far. The LRU linkage is kept in the table, as the list of linked slots. -/
structure ip_frag_pkt where
  key : ip_frag_key
  start : Nat
  total_size : Nat
  frag_size : Nat
  last_idx : Nat
  frags : List ip_frag
deriving DecidableEq, Repr

/-- Modelled from the spec: the statistics counters
(`struct ip_frag_tbl_stat`), all `uint64_t`. -/
structure ip_frag_tbl_stat where
  find_num : Nat
  add_num : Nat
  del_num : Nat
  reuse_num : Nat
  fail_total : Nat
  fail_nospace : Nat
deriving DecidableEq, Repr

/-- Modelled from the spec: the table (`struct rte_ip_frag_tbl`). The field
names are those the source assigns to. `lru` lists the indices of the slots
on the LRU list; `pkt` is the slot array. -/
structure rte_ip_frag_tbl where
  max_cycles : Nat
  entry_mask : Nat
  max_entries : Nat
  use_entries : Nat
  bucket_entries : Nat
  nb_entries : Nat
  nb_buckets : Nat
  lru : List Nat
  stat : ip_frag_tbl_stat
  pkt : List ip_frag_pkt
deriving DecidableEq, Repr

/-- Modelled from the spec: the death row (`struct rte_ip_frag_death_row`):
`cnt` handles are held in `row[0 .. cnt)`; what lies beyond is stale. -/
structure rte_ip_frag_death_row where
  cnt : Nat
  row : List Nat
deriving DecidableEq, Repr

/-- The all-zero key. -/
def zero_key : ip_frag_key := { src_dst := [], id := 0, key_len := 0 }

/-- A slot of zeroed memory. -/
def zero_pkt : ip_frag_pkt :=
  { key := zero_key, start := 0, total_size := 0, frag_size := 0, last_idx := 0, frags := [] }

/-- Zeroed statistics. -/
def zero_stat : ip_frag_tbl_stat :=
  { find_num := 0, add_num := 0, del_num := 0, reuse_num := 0, fail_total := 0, fail_nospace := 0 }

/-- The table as `rte_zmalloc_socket` hands it out: every byte zero, with
room for `n` slots. -/
def zero_tbl (n : Nat) : rte_ip_frag_tbl :=
  { max_cycles := 0, entry_mask := 0, max_entries := 0, use_entries := 0,
    bucket_entries := 0, nb_entries := 0, nb_buckets := 0, lru := [],
    stat := zero_stat, pkt := List.replicate n zero_pkt }

/-! ## rte_ip_frag_table_create -/

/-- What the environment contributes to `rte_ip_frag_table_create`: the
sizes `sizeof(*tbl)` and `sizeof(tbl->pkt[0])`, and whether a call of
`rte_zmalloc_socket` for a given size on a given socket succeeds. -/
structure alloc_env where
  sizeof_tbl : Nat
  sizeof_pkt : Nat
  zmalloc_ok : Nat → Int → Bool

/-- Outcome of `rte_ip_frag_table_create`: the returned pointer (`none` is
`NULL`) and the calls of `rte_zmalloc_socket` made, each with its size and
socket. -/
structure create_result where
  tbl : Option rte_ip_frag_tbl
  allocs : List (Nat × Int)
deriving DecidableEq

/-- The 64-bit local `nb_entries` of `rte_ip_frag_table_create` after
lines 49-51. -/
def create_nb_entries (bucket_num bucket_entries : Nat) : Nat :=
  let nb_entries := rte_align32pow2 bucket_num
  let nb_entries := (nb_entries * bucket_entries) % 2 ^ 64
  let nb_entries := (nb_entries * IP_FRAG_HASH_FNUM) % 2 ^ 64
  nb_entries

/-- The function `rte_ip_frag_table_create`. -/
def rte_ip_frag_table_create (env : alloc_env) (bucket_num bucket_entries max_entries
    max_cycles : Nat) (socket_id : Int) : create_result :=
  let nb_entries := create_nb_entries bucket_num bucket_entries
  if rte_is_power_of_2 bucket_entries = 0 ∨ nb_entries > UINT32_MAX ∨ nb_entries = 0 ∨
      nb_entries < max_entries then
    { tbl := none, allocs := [] }
  else
    let sz := (env.sizeof_tbl + nb_entries * env.sizeof_pkt) % 2 ^ 64
    if env.zmalloc_ok sz socket_id = false then
      { tbl := none, allocs := [(sz, socket_id)] }
    else
      let tbl := zero_tbl nb_entries
      let tbl := { tbl with max_cycles := max_cycles }
      let tbl := { tbl with max_entries := max_entries }
      let tbl := { tbl with nb_entries := nb_entries % 2 ^ 32 }
      let tbl := { tbl with nb_buckets := bucket_num }
      let tbl := { tbl with bucket_entries := bucket_entries }
      let tbl := { tbl with
        entry_mask := sub32 tbl.nb_entries 1 &&& not32 (sub32 tbl.bucket_entries 1) }
      let tbl := { tbl with lru := [] }
      { tbl := some tbl, allocs := [(sz, socket_id)] }

/-- The table that `rte_ip_frag_table_create` returns for the given
arguments when its checks pass and the allocation succeeds, field by field. -/
def created_tbl (bn be me mc : Nat) : rte_ip_frag_tbl :=
  { max_cycles := mc,
    entry_mask := sub32 (create_nb_entries bn be % 2 ^ 32) 1 &&& not32 (sub32 be 1),
    max_entries := me, use_entries := 0, bucket_entries := be,
    nb_entries := create_nb_entries bn be % 2 ^ 32, nb_buckets := bn, lru := [],
    stat := zero_stat, pkt := List.replicate (create_nb_entries bn be) zero_pkt }

/-- An environment in which every allocation succeeds, with `sizeof(*tbl)`
taken as 128 bytes and `sizeof(tbl->pkt[0])` as 192 bytes. -/
def env_ok : alloc_env := { sizeof_tbl := 128, sizeof_pkt := 192, zmalloc_ok := fun _ _ => true }

/-- A table in use, for concrete checks: the layout of `create(2, 4, 8, 100)`
(16 slots in runs of 4) with one live entry in slot 5, created at time 10 and
holding one fragment in buffer 77, and one in slot 9, created at time 500
and holding two fragments in buffers 78 and 79. -/
def demo_tbl : rte_ip_frag_tbl :=
  { created_tbl 2 4 8 100 with
    use_entries := 2
    lru := [5, 9]
    stat := { zero_stat with add_num := 2, find_num := 3 }
    pkt := ((List.replicate 16 zero_pkt).set 5
        { key := { src_dst := [1, 2], id := 7, key_len := 1 }, start := 10, total_size := 0,
          frag_size := 8, last_idx := 1, frags := [{ ofs := 0, len := 8, mb := 77 }] }).set 9
        { key := { src_dst := [3, 4], id := 8, key_len := 1 }, start := 500, total_size := 0,
          frag_size := 16, last_idx := 2,
          frags := [{ ofs := 0, len := 8, mb := 78 }, { ofs := 8, len := 8, mb := 79 }] } }

/-- An empty death row with room for eight handles. -/
def demo_dr : rte_ip_frag_death_row := { cnt := 0, row := List.replicate 8 0 }

/-! ## Deleting an entry -/

/-- Modelled from the spec: `ip_frag_free` of the absent `ip_frag_common.h`.
Ownership of the buffers a slot holds passes to the death row: the handles
are stored at `row[cnt]`, `row[cnt + 1]`, ... and the slot holds no fragment
afterwards. -/
def ip_frag_free (fp : ip_frag_pkt) (dr : rte_ip_frag_death_row) :
    ip_frag_pkt × rte_ip_frag_death_row :=
  let mbs := fp.frags.map (fun f => f.mb)
  ({ fp with frags := [], last_idx := 0 },
   { cnt := (dr.cnt + mbs.length) % 2 ^ 32,
     row := dr.row.take dr.cnt ++ mbs ++ dr.row.drop (dr.cnt + mbs.length) })

/-- Modelled from the spec: `ip_frag_tbl_del` of the absent
`ip_frag_common.h`, the table's delete operation. The buffers of slot `idx`
go to the death row, the slot's key becomes the empty key, the slot leaves
the LRU list, the count of live entries drops by one and the delete counter
goes up by one. -/
def ip_frag_tbl_del (tbl : rte_ip_frag_tbl) (dr : rte_ip_frag_death_row) (idx : Nat) :
    rte_ip_frag_tbl × rte_ip_frag_death_row :=
  let freed := ip_frag_free (tbl.pkt.getD idx zero_pkt) dr
  let fp := { freed.1 with key := { freed.1.key with key_len := 0 } }
  ({ tbl with
      pkt := tbl.pkt.set idx fp
      lru := tbl.lru.erase idx
      use_entries := sub32 tbl.use_entries 1
      stat := { tbl.stat with del_num := (tbl.stat.del_num + 1) % 2 ^ 64 } },
   freed.2)

/-! ## rte_ip_frag_table_iterate -/

/-- State threaded through the loop of `rte_ip_frag_table_iterate`: the
table, the death row, and two logs: the slots whose `start` field was read
and the slots handed to `ip_frag_tbl_del`, both in program order. -/
structure sweep_state where
  tbl : rte_ip_frag_tbl
  dr : rte_ip_frag_death_row
  examined : List Nat
  deleted : List Nat
deriving DecidableEq

/-- One pass of the loop body at lines 112-113, for loop counter `i`; `base`
is the index of `pkt[0]`, the first slot of the bucket. A slot index past
the end of the array reads as a zeroed slot. -/
def iterate_body (base cur_tsc : Nat) (s : sweep_state) (i : Nat) : sweep_state :=
  let idx := base + i
  let start := (s.tbl.pkt.getD idx zero_pkt).start
  let s := { s with examined := s.examined ++ [idx] }
  if (s.tbl.max_cycles + start) % 2 ^ 64 < cur_tsc then
    let r := ip_frag_tbl_del s.tbl s.dr idx
    { s with tbl := r.1, dr := r.2, deleted := s.deleted ++ [idx] }
  else
    s

/-- Outcome of `rte_ip_frag_table_iterate`: the return value, the objects
behind the three pointers after the call, and the two logs of the loop. -/
structure iterate_result where
  ret : Int
  tbl : Option rte_ip_frag_tbl
  dr : Option rte_ip_frag_death_row
  next : Option Nat
  examined : List Nat
  deleted : List Nat
deriving DecidableEq

/-- The function `rte_ip_frag_table_iterate`. The reading `cur_tsc` of the
time-stamp counter (`rte_rdtsc()`) is an argument. The loop runs `i` over
`0 .. bucket_entries`; the bound is read once because `ip_frag_tbl_del`
never writes `bucket_entries`. -/
def rte_ip_frag_table_iterate (tbl : Option rte_ip_frag_tbl)
    (dr : Option rte_ip_frag_death_row) (next : Option Nat) (cur_tsc : Nat) : iterate_result :=
  match tbl, dr, next with
  | some t, some d, some n =>
    if (n * t.bucket_entries) % 2 ^ 32 ≥ t.nb_entries then
      { ret := -EINVAL, tbl := tbl, dr := dr, next := next, examined := [], deleted := [] }
    else
      let base := (n * t.bucket_entries) % 2 ^ 32
      let s := (List.range t.bucket_entries).foldl (iterate_body base cur_tsc)
        { tbl := t, dr := d, examined := [], deleted := [] }
      let n1 := (n + 1) % 2 ^ 32
      let next1 := if (n1 * s.tbl.bucket_entries) % 2 ^ 32 = s.tbl.nb_entries then 0 else n1
      { ret := 0, tbl := some s.tbl, dr := some s.dr, next := some next1,
        examined := s.examined, deleted := s.deleted }
  | _, _, _ =>
    { ret := -EINVAL, tbl := tbl, dr := dr, next := next, examined := [], deleted := [] }

/-- The caller's side of an incremental sweep: the table, the death row and
the cursor variable handed to successive calls of
`rte_ip_frag_table_iterate`, with the return values obtained, the cursor
value each call started from and the slots read, all in call order. -/
structure sweep_run where
  tbl : rte_ip_frag_tbl
  dr : rte_ip_frag_death_row
  next : Nat
  rets : List Int
  cursors : List Nat
  examined : List Nat
deriving DecidableEq

/-- One call of `rte_ip_frag_table_iterate` on the objects of a sweep in
progress, at time-stamp reading `cur_tsc`. -/
def sweep_call (s : sweep_run) (cur_tsc : Nat) : sweep_run :=
  let r := rte_ip_frag_table_iterate (some s.tbl) (some s.dr) (some s.next) cur_tsc
  { tbl := r.tbl.getD s.tbl, dr := r.dr.getD s.dr, next := r.next.getD s.next,
    rets := s.rets ++ [r.ret], cursors := s.cursors ++ [s.next],
    examined := s.examined ++ r.examined }

/-- Successive calls of `rte_ip_frag_table_iterate`, one per time-stamp
reading in `tscs`, starting with table `t`, death row `d` and cursor `c`. -/
def sweep_calls (t : rte_ip_frag_tbl) (d : rte_ip_frag_death_row) (c : Nat)
    (tscs : List Nat) : sweep_run :=
  tscs.foldl sweep_call
    { tbl := t, dr := d, next := c, rets := [], cursors := [], examined := [] }

/-! ## rte_ip_frag_free_death_row -/

/-- A call made by `rte_ip_frag_free_death_row` on a handle read from
`row[idx]`: `rte_prefetch0` or `rte_pktmbuf_free`. -/
inductive mbuf_event where
  | prefetch (idx : Nat) (mb : Nat)
  | free (idx : Nat) (mb : Nat)
deriving DecidableEq, Repr

/-- Upper bound on the number of passes of a loop `for (...; i != stop;
i++)` over a `uint32_t` counter: the counter takes every 32-bit value within
`2 ^ 32` steps. -/
def LOOP_FUEL : Nat := 2 ^ 32

/-- A loop `for (; i != stop; i++) body(i)` over a `uint32_t` counter. The
calls made by the body are appended to `ev`. The result is the counter and
the calls when the loop is left, and `none` when `fuel` passes do not
suffice. -/
def loop_until (body : Nat → List mbuf_event) :
    Nat → Nat → Nat → List mbuf_event → Option (Nat × List mbuf_event)
  | 0, _, _, _ => none
  | fuel + 1, i, stop, ev =>
    if i = stop then some (i, ev)
    else loop_until body fuel ((i + 1) % 2 ^ 32) stop (ev ++ body i)

/-- Outcome of `rte_ip_frag_free_death_row`: the death row after the call
and the calls of `rte_prefetch0` and `rte_pktmbuf_free` made, in order. -/
structure drain_result where
  dr : rte_ip_frag_death_row
  events : List mbuf_event
deriving DecidableEq, Repr

/-- The function `rte_ip_frag_free_death_row`. A read of `row[i]` past
the end of the list yields handle `0`. The result is `none` if one of the
three loops does not terminate. -/
def rte_ip_frag_free_death_row (dr : rte_ip_frag_death_row) (prefetch : Nat) :
    Option drain_result :=
  let k := min prefetch dr.cnt
  let n := dr.cnt
  match loop_until (fun i => [mbuf_event.prefetch i (dr.row.getD i 0)]) LOOP_FUEL 0 k [] with
  | none => none
  | some r1 =>
    match loop_until
        (fun i => [mbuf_event.prefetch ((i + k) % 2 ^ 32) (dr.row.getD ((i + k) % 2 ^ 32) 0),
          mbuf_event.free i (dr.row.getD i 0)])
        LOOP_FUEL 0 (sub32 n k) r1.2 with
    | none => none
    | some r2 =>
      match loop_until (fun i => [mbuf_event.free i (dr.row.getD i 0)]) LOOP_FUEL r2.1 n r2.2 with
      | none => none
      | some r3 => some { dr := { dr with cnt := 0 }, events := r3.2 }

/-- The handles freed, as pairs of row index and handle, in call order. -/
def freed_handles (events : List mbuf_event) : List (Nat × Nat) :=
  events.filterMap (fun e =>
    match e with
    | mbuf_event.free idx mb => some (idx, mb)
    | mbuf_event.prefetch _ _ => none)

/-- The handles prefetched, as pairs of row index and handle, in call
order. -/
def prefetched_handles (events : List mbuf_event) : List (Nat × Nat) :=
  events.filterMap (fun e =>
    match e with
    | mbuf_event.prefetch idx mb => some (idx, mb)
    | mbuf_event.free _ _ => none)

/-- The row index an `mbuf_event` read its handle from. -/
def mbuf_event.index : mbuf_event → Nat
  | mbuf_event.prefetch idx _ => idx
  | mbuf_event.free idx _ => idx

/-- A death row holding the three handles 77, 78 and 79. -/
def demo_dr3 : rte_ip_frag_death_row := { cnt := 3, row := [77, 78, 79, 0, 0, 0, 0, 0] }

/-! ## rte_ip_frag_table_destroy -/

/-- Modelled from the spec: `ip_frag_free_immediate` of the absent
`ip_frag_common.h`. The buffers a slot holds are released on the spot; the
result is the slot afterwards, holding no fragment, and the handles
released. -/
def ip_frag_free_immediate (fp : ip_frag_pkt) : ip_frag_pkt × List Nat :=
  ({ fp with frags := [], last_idx := 0 }, fp.frags.map (fun f => f.mb))

/-- A call made by `rte_ip_frag_table_destroy`: `ip_frag_free_immediate` on
slot `idx`, which releases the handles `mbs`, or `rte_free` on the table. -/
inductive destroy_event where
  | free_immediate (idx : Nat) (mbs : List Nat)
  | rte_free_tbl
deriving DecidableEq, Repr

/-- Outcome of `rte_ip_frag_table_destroy`: the content of the table at the
moment its storage is handed to `rte_free`, and the calls made, in order. -/
structure destroy_result where
  tbl : rte_ip_frag_tbl
  events : List destroy_event
deriving DecidableEq

/-- One pass of `TAILQ_FOREACH` in `rte_ip_frag_table_destroy`, for the
slot `idx`. -/
def destroy_body (s : destroy_result) (idx : Nat) : destroy_result :=
  let r := ip_frag_free_immediate (s.tbl.pkt.getD idx zero_pkt)
  { tbl := { s.tbl with pkt := s.tbl.pkt.set idx r.1 },
    events := s.events ++ [destroy_event.free_immediate idx r.2] }

/-- The function `rte_ip_frag_table_destroy`. `TAILQ_FOREACH` follows the
links of the LRU list, which the body does not write, so it visits the slots
of `tbl.lru` in order. -/
def rte_ip_frag_table_destroy (tbl : rte_ip_frag_tbl) : destroy_result :=
  let s := tbl.lru.foldl destroy_body { tbl := tbl, events := [] }
  { tbl := s.tbl, events := s.events ++ [destroy_event.rte_free_tbl] }

/-- The slots `ip_frag_free_immediate` was applied to, in call order. -/
def released_slots (events : List destroy_event) : List Nat :=
  events.filterMap (fun e =>
    match e with
    | destroy_event.free_immediate idx _ => some idx
    | destroy_event.rte_free_tbl => none)

/-- The handles released, in call order. -/
def released_handles (events : List destroy_event) : List Nat :=
  events.flatMap (fun e =>
    match e with
    | destroy_event.free_immediate _ mbs => mbs
    | destroy_event.rte_free_tbl => [])

/-! ## rte_ip_frag_table_statistics_dump -/

/-- Subtraction of `uint64_t` values, wrapping modulo `2 ^ 64`. -/
def sub64 (a b : Nat) : Nat :=
  if b % 2 ^ 64 ≤ a % 2 ^ 64 then a % 2 ^ 64 - b % 2 ^ 64
  else 2 ^ 64 - (b % 2 ^ 64 - a % 2 ^ 64)

/-- The function `rte_ip_frag_table_statistics_dump`. The file `f` is the
list of the lines written to it so far, a line being its label and the
number printed after it; the call appends nine lines. The table is passed
by `const` pointer and comes back as it went in. -/
def rte_ip_frag_table_statistics_dump (f : List (String × Nat)) (tbl : rte_ip_frag_tbl) :
    List (String × Nat) × rte_ip_frag_tbl :=
  let fail_total := tbl.stat.fail_total
  let fail_nospace := tbl.stat.fail_nospace
  (f ++ [("max entries", tbl.max_entries),
         ("entries in use", tbl.use_entries),
         ("finds/inserts", tbl.stat.find_num),
         ("entries added", tbl.stat.add_num),
         ("entries deleted by timeout", tbl.stat.del_num),
         ("entries reused by timeout", tbl.stat.reuse_num),
         ("total add failures", fail_total),
         ("add no-space failures", fail_nospace),
         ("add hash-collisions failures", sub64 fail_total fail_nospace)],
   tbl)

/-- The table `demo_tbl` with the largest timeout budget a `uint64_t`
holds. -/
def demo_tbl_max_budget : rte_ip_frag_tbl := { demo_tbl with max_cycles := 2 ^ 64 - 1 }

/-! ## The find-or-create operation and sequences of operations -/

/-- Modelled from the spec: a slot holds a live entry when its key is not
the empty key. -/
def slot_live (p : ip_frag_pkt) : Bool := p.key.key_len != 0

/-- Modelled from the spec: the entry a slot receives when it is created
for `key` at time `now`: keyed, time-stamped, without fragments. -/
def new_entry (key : ip_frag_key) (now : Nat) : ip_frag_pkt :=
  { key := key, start := now, total_size := 0, frag_size := 0, last_idx := 0, frags := [] }

/-- Modelled from the spec: the outcomes of find-or-create: the slot found,
added to or reused, or one of the two failures. -/
inductive find_outcome where
  | found (idx : Nat)
  | added (idx : Nat)
  | reused (idx : Nat)
  | table_full
  | bucket_collision
deriving DecidableEq, Repr

/-- Outcome of find-or-create together with the table and the death row
after the call. -/
structure find_result where
  tbl : rte_ip_frag_tbl
  dr : rte_ip_frag_death_row
  outcome : find_outcome
deriving DecidableEq

/-- Modelled from the spec: the failure branch of find-or-create. Both
failures count in `fail_total`; `TableFull`, when the table is at
`max_entries`, also counts in `fail_nospace`. -/
def find_fail (t : rte_ip_frag_tbl) (d : rte_ip_frag_death_row) : find_result :=
  if t.max_entries ≤ t.use_entries then
    { tbl := { t with stat := { t.stat with
          fail_total := (t.stat.fail_total + 1) % 2 ^ 64
          fail_nospace := (t.stat.fail_nospace + 1) % 2 ^ 64 } },
      dr := d, outcome := find_outcome.table_full }
  else
    { tbl := { t with stat := { t.stat with fail_total := (t.stat.fail_total + 1) % 2 ^ 64 } },
      dr := d, outcome := find_outcome.bucket_collision }

/-- Modelled from the spec: find-or-create of section 4.1 (`ip_frag_find`
of the absent `ip_frag_internal.c`), with the hash function as a parameter.
The bucket is the slot run starting at `hash key & entry_mask`. A slot of
the bucket that holds `key` is a find and becomes the most recent entry of
the LRU list (its tail). Otherwise the first empty slot of the bucket
receives a new entry. Otherwise the least recently used slot of the bucket
is reused if its age `now - start` exceeds `max_cycles`, its buffers going
to the death row. Otherwise the call fails. -/
def find_or_create (hash : ip_frag_key → Nat) (t : rte_ip_frag_tbl)
    (d : rte_ip_frag_death_row) (key : ip_frag_key) (now : Nat) : find_result :=
  let base := hash key &&& t.entry_mask
  let run := List.range' base t.bucket_entries
  match run.find? (fun i => slot_live (t.pkt.getD i zero_pkt) &&
      decide ((t.pkt.getD i zero_pkt).key = key)) with
  | some i =>
    { tbl := { t with
          lru := t.lru.erase i ++ [i]
          stat := { t.stat with find_num := (t.stat.find_num + 1) % 2 ^ 64 } },
      dr := d, outcome := find_outcome.found i }
  | none =>
    match run.find? (fun i => !slot_live (t.pkt.getD i zero_pkt)) with
    | some i =>
      { tbl := { t with
            pkt := t.pkt.set i (new_entry key now)
            lru := t.lru ++ [i]
            use_entries := (t.use_entries + 1) % 2 ^ 32
            stat := { t.stat with add_num := (t.stat.add_num + 1) % 2 ^ 64 } },
        dr := d, outcome := find_outcome.added i }
    | none =>
      match t.lru.find? (fun i => decide (i ∈ run)) with
      | some j =>
        if t.max_cycles < now - (t.pkt.getD j zero_pkt).start then
          { tbl := { t with
                pkt := t.pkt.set j (new_entry key now)
                lru := t.lru.erase j ++ [j]
                stat := { t.stat with reuse_num := (t.stat.reuse_num + 1) % 2 ^ 64 } },
            dr := (ip_frag_free (t.pkt.getD j zero_pkt) d).2,
            outcome := find_outcome.reused j }
        else find_fail t d
      | none => find_fail t d

/-- An operation on a table: find-or-create for a key at a time, delete of
a slot, or a sweep with a cursor value at a time. -/
inductive table_op where
  | find_or_create (key : ip_frag_key) (now : Nat)
  | delete (idx : Nat)
  | sweep (cursor : Nat) (now : Nat)
deriving DecidableEq, Repr

/-- The effect of one operation on the table and the death row. Delete is
`ip_frag_tbl_del`, sweep is `rte_ip_frag_table_iterate`. -/
def apply_op (hash : ip_frag_key → Nat) (s : rte_ip_frag_tbl × rte_ip_frag_death_row) :
    table_op → rte_ip_frag_tbl × rte_ip_frag_death_row
  | table_op.find_or_create key now =>
    ((find_or_create hash s.1 s.2 key now).tbl, (find_or_create hash s.1 s.2 key now).dr)
  | table_op.delete idx => ip_frag_tbl_del s.1 s.2 idx
  | table_op.sweep cursor now =>
    ((rte_ip_frag_table_iterate (some s.1) (some s.2) (some cursor) now).tbl.getD s.1,
     (rte_ip_frag_table_iterate (some s.1) (some s.2) (some cursor) now).dr.getD s.2)

/-- A sequence of operations applied to one table, in order. -/
def run_ops (hash : ip_frag_key → Nat) (t : rte_ip_frag_tbl) (d : rte_ip_frag_death_row)
    (ops : List table_op) : rte_ip_frag_tbl × rte_ip_frag_death_row :=
  ops.foldl (apply_op hash) (t, d)

/-- At most one live entry per key: two slots that hold live entries with
the same key are the same slot. -/
def keys_unique (t : rte_ip_frag_tbl) : Prop :=
  ∀ (i j : Nat) (p q : ip_frag_pkt), t.pkt[i]? = some p → t.pkt[j]? = some q →
    slot_live p = true →
    slot_live q = true → p.key = q.key → i = j

/-- Every live entry sits in the bucket its key hashes to. -/
def in_own_bucket (hash : ip_frag_key → Nat) (t : rte_ip_frag_tbl) : Prop :=
  ∀ (i : Nat) (p : ip_frag_pkt), t.pkt[i]? = some p → slot_live p = true →
    (hash p.key &&& t.entry_mask) ≤ i ∧ i < (hash p.key &&& t.entry_mask) + t.bucket_entries

/-- A hash function for concrete checks: four times the datagram id. -/
def demo_hash (key : ip_frag_key) : Nat := 4 * key.id

/-- Two keys for concrete checks. -/
def demo_key (id : Nat) : ip_frag_key := { src_dst := [10, 20], id := id, key_len := 1 }

end IpFrag

/-!
## The txgbe network driver (drivers/net/txgbe/txgbe_ethdev.c)

Four functions of the driver: `txgbe_vlan_filter_set`,
`txgbe_dev_queue_stats_mapping_set`, `txgbe_uc_hash_table_set` with
`txgbe_uc_all_hash_table_set`, and `txgbe_set_vf_rate_limit`. Device
registers that are read back as written (`rd32` after `wr32`) are lists of
32-bit words; constants of headers that are not at hand are parameters.
-/

namespace Txgbe

/-- The errno value `EINVAL`. -/
def EINVAL : Int := 22

/-- The errno value `EIO`. -/
def EIO : Int := 5

/-- The errno value `ENOSYS`. -/
def ENOSYS : Int := 38

/-- The errno value `ENOTSUP`. -/
def ENOTSUP : Int := 95

/-- The value of the enumerator `txgbe_mac_raptor`, the PF MAC type; the
enumeration starts with `txgbe_mac_unknown = 0`. -/
def txgbe_mac_raptor : Nat := 1

/-- Bitwise complement `~a` of a `uint32_t`. -/
def not32 (a : Nat) : Nat := 2 ^ 32 - (a % 2 ^ 32 + 1)

/-! ### txgbe_vlan_filter_set -/

/-- The VLAN filter table: the hardware registers `TXGBE_VLANTBL(i)` and
the driver's shadow copy `shadow_vfta->vfta[i]`. -/
structure vlan_state where
  vlantbl : List Nat
  shadow_vfta : List Nat
deriving DecidableEq, Repr

/-- The function `txgbe_vlan_filter_set`: the return value and the state
after the call. -/
def txgbe_vlan_filter_set (s : vlan_state) (vlan_id : Nat) (on_ : Int) : Int × vlan_state :=
  let vid_idx := ((vlan_id >>> 5) &&& 0x7F) % 2 ^ 32
  let vid_bit := (1 <<< (vlan_id &&& 0x1F)) % 2 ^ 32
  let vfta := s.vlantbl.getD vid_idx 0 % 2 ^ 32
  let vfta := if on_ ≠ 0 then vfta ||| vid_bit else vfta &&& not32 vid_bit
  (0, { vlantbl := s.vlantbl.set vid_idx vfta, shadow_vfta := s.shadow_vfta.set vid_idx vfta })

/-- A VLAN table of 128 zero words, except word 3, which holds `0x5`. -/
def demo_vlan : vlan_state :=
  { vlantbl := (List.replicate 128 0).set 3 5, shadow_vfta := (List.replicate 128 0).set 3 5 }

/-! ### txgbe_dev_queue_stats_mapping_set -/

/-- The constants of the queue statistics mapping, from a header that is
not at hand. -/
structure qmap_consts where
  QMAP_FIELD_RESERVED_BITS_MASK : Nat
  NB_QMAP_FIELDS_PER_QSM_REG : Nat
  TXGBE_NB_STAT_MAPPING : Nat
  QSM_REG_NB_BITS_PER_QMAP_FIELD : Nat

/-- The values the driver is built with: a 4-bit field mask, four 8-bit
fields per register, 32 registers. -/
def txgbe_qmap : qmap_consts :=
  { QMAP_FIELD_RESERVED_BITS_MASK := 0x0f, NB_QMAP_FIELDS_PER_QSM_REG := 4,
    TXGBE_NB_STAT_MAPPING := 32, QSM_REG_NB_BITS_PER_QMAP_FIELD := 8 }

/-- The shadow registers `struct txgbe_stat_mappings`. -/
structure txgbe_stat_mappings where
  tqsm : List Nat
  rqsm : List Nat
deriving DecidableEq, Repr

/-- The C operator `!` on an integer. -/
def lnot (a : Nat) : Nat := if a = 0 then 1 else 0

/-- The function `txgbe_dev_queue_stats_mapping_set`: the return value and
the mappings after the call. The test of line 302 is written with the
logical `!`, as in the source. -/
def txgbe_dev_queue_stats_mapping_set (k : qmap_consts) (mac_type : Nat)
    (sm : txgbe_stat_mappings) (queue_id stat_idx is_rx : Nat) : Int × txgbe_stat_mappings :=
  let clearing_mask := k.QMAP_FIELD_RESERVED_BITS_MASK % 2 ^ 32
  if mac_type ≠ txgbe_mac_raptor then (-ENOSYS, sm)
  else if stat_idx &&& lnot k.QMAP_FIELD_RESERVED_BITS_MASK ≠ 0 then (- EIO, sm)
  else
    let n := (queue_id / k.NB_QMAP_FIELDS_PER_QSM_REG) % 2 ^ 8
    if n ≥ k.TXGBE_NB_STAT_MAPPING then (- EIO, sm)
    else
      let offset := (queue_id % k.NB_QMAP_FIELDS_PER_QSM_REG) % 2 ^ 8
      let clearing_mask :=
        (clearing_mask <<< (k.QSM_REG_NB_BITS_PER_QMAP_FIELD * offset)) % 2 ^ 32
      let sm1 : txgbe_stat_mappings :=
        if is_rx = 0 then
          { sm with tqsm := sm.tqsm.set n (sm.tqsm.getD n 0 &&& not32 clearing_mask) }
        else
          { sm with rqsm := sm.rqsm.set n (sm.rqsm.getD n 0 &&& not32 clearing_mask) }
      let q_map := stat_idx % 2 ^ 32
      let q_map := q_map &&& k.QMAP_FIELD_RESERVED_BITS_MASK
      let qsmr_mask := (q_map <<< (k.QSM_REG_NB_BITS_PER_QMAP_FIELD * offset)) % 2 ^ 32
      let sm2 : txgbe_stat_mappings :=
        if is_rx = 0 then
          { sm1 with tqsm := sm1.tqsm.set n (sm1.tqsm.getD n 0 ||| qsmr_mask) }
        else
          { sm1 with rqsm := sm1.rqsm.set n (sm1.rqsm.getD n 0 ||| qsmr_mask) }
      (0, sm2)

/-- Mappings in which RX queue 0 is mapped to statistics counter 5. -/
def demo_mappings : txgbe_stat_mappings :=
  { tqsm := List.replicate 32 0, rqsm := (List.replicate 32 0).set 0 5 }

/-! ### txgbe_uta_vector, txgbe_uc_hash_table_set, txgbe_uc_all_hash_table_set -/

/-- Size of the unicast hash table, `ETH_VMDQ_NUM_UC_HASH_ARRAY`. -/
def ETH_VMDQ_NUM_UC_HASH_ARRAY : Nat := 128

/-- The constants of the `TXGBE_PSRCTL` register, from a header that is not
at hand: the enable bit, the field mask and the field encoding
`TXGBE_PSRCTL_ADHF12(v)`. -/
structure psrctl_consts where
  UCHFENA : Nat
  ADHF12_MASK : Nat
  ADHF12 : Nat → Nat

/-- The unicast hash table: the bookkeeping of `struct txgbe_uta_info` (a
16-bit count of entries in use and the shadow of the table), the hardware
registers `TXGBE_UCADDRTBL(i)` and the register `TXGBE_PSRCTL`. -/
structure uta_state where
  uta_in_use : Nat
  uta_shadow : List Nat
  ucaddrtbl : List Nat
  psrctl : Nat
deriving DecidableEq, Repr

/-- The function `txgbe_uta_vector`, on the bytes 4 and 5 of the
address. -/
def txgbe_uta_vector (mc_filter_type : Nat) (addr_bytes : List Nat) : Nat :=
  let b4 := addr_bytes.getD 4 0 % 2 ^ 8
  let b5 := addr_bytes.getD 5 0 % 2 ^ 8
  let vector :=
    if mc_filter_type = 0 then (b4 >>> 4) ||| (b5 <<< 4)
    else if mc_filter_type = 1 then (b4 >>> 3) ||| (b5 <<< 5)
    else if mc_filter_type = 2 then (b4 >>> 2) ||| (b5 <<< 6)
    else if mc_filter_type = 3 then b4 ||| (b5 <<< 8)
    else 0
  vector &&& 0xFFF

/-- The common tail of both functions: the update of `TXGBE_PSRCTL`. -/
def psrctl_update (k : psrctl_consts) (mc_filter_type : Nat) (enable : Bool) (psrctl : Nat) :
    Nat :=
  let psrctl := if enable then psrctl ||| k.UCHFENA else psrctl &&& not32 k.UCHFENA
  let psrctl := psrctl &&& not32 k.ADHF12_MASK
  (psrctl ||| k.ADHF12 mc_filter_type) % 2 ^ 32

/-- The function `txgbe_uc_hash_table_set`. -/
def txgbe_uc_hash_table_set (k : psrctl_consts) (mac_type mc_filter_type : Nat)
    (s : uta_state) (mac_addr : List Nat) (on_ : Nat) : Int × uta_state :=
  if mac_type < txgbe_mac_raptor then (-ENOTSUP, s)
  else
    let vector := txgbe_uta_vector mc_filter_type mac_addr
    let uta_idx := (vector >>> 5) &&& 0x7F
    let uta_mask := (1 <<< (vector &&& 0x1F)) % 2 ^ 32
    if lnot (lnot on_) = lnot (lnot (s.uta_shadow.getD uta_idx 0 &&& uta_mask)) then (0, s)
    else
      let reg_val := s.ucaddrtbl.getD uta_idx 0 % 2 ^ 32
      let s1 : uta_state :=
        if on_ ≠ 0 then
          { s with
            uta_in_use := (s.uta_in_use + 1) % 2 ^ 16
            ucaddrtbl := s.ucaddrtbl.set uta_idx (reg_val ||| uta_mask)
            uta_shadow := s.uta_shadow.set uta_idx (s.uta_shadow.getD uta_idx 0 ||| uta_mask) }
        else
          { s with
            uta_in_use := if s.uta_in_use = 0 then 2 ^ 16 - 1 else s.uta_in_use - 1
            ucaddrtbl := s.ucaddrtbl.set uta_idx (reg_val &&& not32 uta_mask)
            uta_shadow := s.uta_shadow.set uta_idx
              (s.uta_shadow.getD uta_idx 0 &&& not32 uta_mask) }
      (0, { s1 with
        psrctl := psrctl_update k mc_filter_type (decide (s1.uta_in_use > 0)) (s1.psrctl % 2 ^ 32) })

/-- The function `txgbe_uc_all_hash_table_set`. -/
def txgbe_uc_all_hash_table_set (k : psrctl_consts) (mac_type mc_filter_type : Nat)
    (s : uta_state) (on_ : Nat) : Int × uta_state :=
  if mac_type < txgbe_mac_raptor then (-ENOTSUP, s)
  else
    let word := if on_ ≠ 0 then 2 ^ 32 - 1 else 0
    let s1 : uta_state :=
      (List.range ETH_VMDQ_NUM_UC_HASH_ARRAY).foldl
        (fun (st : uta_state) i =>
          { st with uta_shadow := st.uta_shadow.set i word,
                    ucaddrtbl := st.ucaddrtbl.set i word }) s
    (0, { s1 with
      psrctl := psrctl_update k mc_filter_type (decide (on_ ≠ 0)) (s1.psrctl % 2 ^ 32) })

/-- Number of bits set in a 32-bit word. -/
def popcount32 (w : Nat) : Nat := (List.range 32).countP (fun b => w.testBit b)

/-- Number of bits set in the shadow of the unicast hash table. -/
def uta_bits_set (s : uta_state) : Nat := (s.uta_shadow.map popcount32).sum

/-- The state the driver starts from: nothing in use, all words zero. -/
def uta_init : uta_state :=
  { uta_in_use := 0, uta_shadow := List.replicate 128 0, ucaddrtbl := List.replicate 128 0,
    psrctl := 0 }

/-- Register constants for concrete checks. -/
def demo_psrctl : psrctl_consts :=
  { UCHFENA := 0x200, ADHF12_MASK := 0x60, ADHF12 := fun v => (v <<< 5) &&& 0x60 }

/-! ### txgbe_set_vf_rate_limit -/

/-- What `txgbe_set_vf_rate_limit` reads from the device and its
environment: the result of `rte_eth_link_get_nowait` and the link speed it
reports, `dev->data->dev_link.link_speed`, `pci_dev->max_vfs`, the SR-IOV
fields `nb_q_per_pool` and `active`, `hw->mac.max_tx_queues`, and the
constants `TXGBE_MAX_RX_QUEUE_NUM` and `RTE_DIM(vfinfo[0].tx_rate)`. -/
structure vf_rate_env where
  link_get_ret : Int
  link_speed : Nat
  dev_link_speed : Nat
  max_vfs : Nat
  nb_q_per_pool : Nat
  active : Nat
  max_tx_queues : Nat
  TXGBE_MAX_RX_QUEUE_NUM : Nat
  tx_rate_dim : Nat

/-- Outcome of `txgbe_set_vf_rate_limit`: the return value, the array
`vfinfo[vf].tx_rate[idx]` after the call (`none` is a `NULL` `vfinfo`), and
the calls of `txgbe_set_queue_rate_limit` made, each with queue and rate. -/
structure vf_rate_result where
  ret : Int
  vfinfo : Option (List (List Nat))
  rate_calls : List (Nat × Nat)
deriving DecidableEq, Repr

/-- The running sum over the other VFs, lines 1260-1266, in the 16-bit
`total_rate`. -/
def others_total (e : vf_rate_env) (v : List (List Nat)) (vf : Nat) : Nat :=
  (List.range e.max_vfs).foldl
    (fun total vf_idx =>
      if vf_idx = vf then total
      else (List.range e.tx_rate_dim).foldl
        (fun total idx => (total + (v.getD vf_idx []).getD idx 0) % 2 ^ 16) total)
    0

/-- The loop of lines 1272-1278: store `tx_rate` for the queues selected by
`q_msk` and add it to the 16-bit `total_rate` once per selected queue. -/
def store_rates (nb_q_per_pool vf tx_rate q_msk : Nat) (v : List (List Nat)) (total : Nat) :
    List (List Nat) × Nat :=
  (List.range nb_q_per_pool).foldl
    (fun (st : List (List Nat) × Nat) idx =>
      if ((1 <<< idx) % 2 ^ 64) &&& q_msk ≠ 0 then
        ((if (st.1.getD vf []).getD idx 0 ≠ tx_rate then
            st.1.set vf ((st.1.getD vf []).set idx tx_rate)
          else st.1),
         (st.2 + tx_rate) % 2 ^ 16)
      else st)
    (v, total)

/-- The loop of lines 1289-1293: one call of `txgbe_set_queue_rate_limit`
for each queue of the pool whose bit of `q_msk` is set. -/
def rate_calls_of (queue_idx queue_end tx_rate q_msk : Nat) : List (Nat × Nat) :=
  ((List.range' queue_idx (queue_end + 1 - queue_idx)).foldl
    (fun (st : List (Nat × Nat) × Nat) q =>
      ((if 1 &&& st.2 ≠ 0 then st.1 ++ [(q, tx_rate)] else st.1), st.2 >>> 1))
    ([], q_msk)).1

/-- The function `txgbe_set_vf_rate_limit`. -/
def txgbe_set_vf_rate_limit (e : vf_rate_env) (vfinfo : Option (List (List Nat)))
    (vf tx_rate q_msk : Nat) : vf_rate_result :=
  if e.link_get_ret < 0 then { ret := e.link_get_ret, vfinfo := vfinfo, rate_calls := [] }
  else if vf ≥ e.max_vfs then { ret := -EINVAL, vfinfo := vfinfo, rate_calls := [] }
  else if tx_rate > e.link_speed then { ret := -EINVAL, vfinfo := vfinfo, rate_calls := [] }
  else if q_msk = 0 then { ret := 0, vfinfo := vfinfo, rate_calls := [] }
  else
    let nb_q_per_pool := e.nb_q_per_pool % 2 ^ 8
    let queue_stride := e.TXGBE_MAX_RX_QUEUE_NUM / e.active
    let queue_idx := (vf * queue_stride) % 2 ^ 32
    let queue_end :=
      if queue_idx + nb_q_per_pool = 0 then 2 ^ 32 - 1
      else (queue_idx + nb_q_per_pool - 1) % 2 ^ 32
    if queue_end ≥ e.max_tx_queues then { ret := -EINVAL, vfinfo := vfinfo, rate_calls := [] }
    else
      match vfinfo with
      | none => { ret := -EINVAL, vfinfo := none, rate_calls := [] }
      | some v =>
        let total_rate := others_total e v vf
        let stored := store_rates nb_q_per_pool vf tx_rate q_msk v total_rate
        if stored.2 > e.dev_link_speed then
          { ret := -EINVAL,
            vfinfo := some (stored.1.set vf (List.replicate e.tx_rate_dim 0)),
            rate_calls := [] }
        else
          { ret := 0, vfinfo := some stored.1,
            rate_calls := rate_calls_of queue_idx queue_end tx_rate q_msk }

/-- The sum of all stored rates, over the natural numbers. -/
def stored_total (v : List (List Nat)) : Nat := (v.map List.sum).sum

/-- A 10 Gb/s port with two VFs and pools of 8 queues. -/
def demo_rate_env : vf_rate_env :=
  { link_get_ret := 0, link_speed := 10000, dev_link_speed := 10000, max_vfs := 2,
    nb_q_per_pool := 8, active := 16, max_tx_queues := 128, TXGBE_MAX_RX_QUEUE_NUM := 128,
    tx_rate_dim := 8 }

/-- No rate stored for any queue of the two VFs. -/
def demo_vfinfo : List (List Nat) := [List.replicate 8 0, List.replicate 8 0]

end Txgbe

namespace IpFrag

/-! ## Auxiliary notions for the proofs -/

/-- The test of line 112 for slot `idx` of table `t` when the time-stamp
counter reads `cur_tsc`: `tbl->max_cycles + pkt[i].start < cur_tsc` in
64-bit unsigned arithmetic. -/
def slot_expired (t : rte_ip_frag_tbl) (cur_tsc idx : Nat) : Bool :=
  decide ((t.max_cycles + (t.pkt.getD idx zero_pkt).start) % 2 ^ 64 < cur_tsc)

/-- Two tables have the same layout: the six fields fixed by
`rte_ip_frag_table_create` agree. -/
def same_layout (a b : rte_ip_frag_tbl) : Prop :=
  a.nb_entries = b.nb_entries ∧ a.nb_buckets = b.nb_buckets ∧
  a.bucket_entries = b.bucket_entries ∧ a.entry_mask = b.entry_mask ∧
  a.max_entries = b.max_entries ∧ a.max_cycles = b.max_cycles

/-- The delete operation applied to a list of slots in turn. -/
def del_all (t : rte_ip_frag_tbl) (d : rte_ip_frag_death_row) (slots : List Nat) :
    rte_ip_frag_tbl × rte_ip_frag_death_row :=
  slots.foldl (fun p idx => ip_frag_tbl_del p.1 p.2 idx) (t, d)

/-- Bit `i` of `z` is set exactly when `y` has a set bit among the `m`
positions from `i` upwards. -/
def smeared (m y z : Nat) : Prop :=
  ∀ i, z.testBit i = true ↔ ∃ j, j < m ∧ y.testBit (i + j) = true

/-! # Theorems -/

/-! ## Rounding up to a power of two -/

theorem smeared_one (y : Nat) : smeared 1 y y := by
  intro i
  constructor
  · intro h
    exact ⟨0, by omega, by simpa using h⟩
  · rintro ⟨j, hj, h⟩
    have : j = 0 := by omega
    subst this
    simpa using h

theorem smeared_step {m y z : Nat} (h : smeared m y z) :
    smeared (2 * m) y (z ||| (z >>> m)) := by
  intro i
  rw [Nat.testBit_lor, Bool.or_eq_true, Nat.testBit_shiftRight, h i, h (m + i)]
  constructor
  · rintro (⟨j, hj, hb⟩ | ⟨j, hj, hb⟩)
    · exact ⟨j, by omega, hb⟩
    · refine ⟨m + j, by omega, ?_⟩
      have e : i + (m + j) = m + i + j := by omega
      rw [e]; exact hb
  · rintro ⟨j, hj, hb⟩
    by_cases hjm : j < m
    · exact Or.inl ⟨j, hjm, hb⟩
    · refine Or.inr ⟨j - m, by omega, ?_⟩
      have e : m + i + (j - m) = i + j := by omega
      rw [e]; exact hb

theorem smeared_combine (y : Nat) : smeared 32 y (rte_combine32ms1b y) := by
  have h1 := smeared_step (smeared_one y)
  have h2 := smeared_step h1
  have h3 := smeared_step h2
  have h4 := smeared_step h3
  have h5 := smeared_step h4
  exact h5

theorem testBit_size_pred {y : Nat} (hy : y ≠ 0) : y.testBit (Nat.size y - 1) = true := by
  have hpos : 0 < Nat.size y := Nat.size_pos.mpr (Nat.pos_of_ne_zero hy)
  have hlo : 2 ^ (Nat.size y - 1) ≤ y := Nat.lt_size.mp (by omega)
  have hhi : y < 2 ^ (Nat.size y - 1 + 1) := by
    have := Nat.lt_size_self y
    have e : Nat.size y - 1 + 1 = Nat.size y := by omega
    rw [e]; exact this
  rw [Nat.testBit_to_div_mod]
  have hdiv : y / 2 ^ (Nat.size y - 1) = 1 := by
    apply Nat.div_eq_of_lt_le
    · simpa using hlo
    · rw [pow_succ] at hhi; omega
  simp [hdiv]

theorem rte_combine32ms1b_eq {y : Nat} (hy : y < 2 ^ 32) :
    rte_combine32ms1b y = 2 ^ Nat.size y - 1 := by
  apply Nat.eq_of_testBit_eq
  intro i
  rw [Nat.testBit_two_pow_sub_one]
  have hs : Nat.size y ≤ 32 := Nat.size_le.mpr hy
  by_cases hi : i < Nat.size y
  · have hy0 : y ≠ 0 := by
      intro h0; subst h0; simp at hi
    have : (rte_combine32ms1b y).testBit i = true := by
      rw [smeared_combine y i]
      refine ⟨Nat.size y - 1 - i, by omega, ?_⟩
      have e : i + (Nat.size y - 1 - i) = Nat.size y - 1 := by omega
      rw [e]; exact testBit_size_pred hy0
    simp [this, hi]
  · have : (rte_combine32ms1b y).testBit i = false := by
      rw [Bool.eq_false_iff]
      intro h
      rw [smeared_combine y i] at h
      obtain ⟨j, _, hb⟩ := h
      have hlt : y < 2 ^ (i + j) :=
        lt_of_lt_of_le (Nat.lt_size_self y) (Nat.pow_le_pow_right (by decide) (by omega))
      rw [Nat.testBit_lt_two_pow hlt] at hb
      exact Bool.noConfusion hb
    simp [this, hi]

theorem rte_align32pow2_eq {x : Nat} (h0 : 0 < x) (hx : x < 2 ^ 32) :
    rte_align32pow2 x = 2 ^ Nat.size (x - 1) % 2 ^ 32 := by
  have hs : sub32 x 1 = x - 1 := by
    unfold sub32
    rw [Nat.mod_eq_of_lt hx, Nat.mod_eq_of_lt (by norm_num : 1 < 2 ^ 32),
      if_pos (show 1 ≤ x from h0)]
  have hpos : 0 < 2 ^ Nat.size (x - 1) := Nat.pow_pos (by decide)
  unfold rte_align32pow2
  simp only [hs]
  rw [rte_combine32ms1b_eq (lt_of_le_of_lt (Nat.sub_le x 1) hx), Nat.sub_add_cancel hpos]

theorem rte_align32pow2_zero : rte_align32pow2 0 = 0 := by decide

theorem rte_align32pow2_wrap {x : Nat} (h0 : 2 ^ 31 < x) (hx : x < 2 ^ 32) :
    rte_align32pow2 x = 0 := by
  rw [rte_align32pow2_eq (by omega) hx]
  have h1 : Nat.size (x - 1) = 32 := by
    apply le_antisymm
    · exact Nat.size_le.mpr (lt_of_le_of_lt (Nat.sub_le x 1) hx)
    · exact Nat.lt_size.mpr (by omega)
  rw [h1, Nat.mod_self]

theorem rte_align32pow2_round_up {x : Nat} (h0 : 0 < x) (hx : x ≤ 2 ^ 31) :
    rte_align32pow2 x = round_up_pow2 x := by
  have hx32 : x < 2 ^ 32 := lt_of_le_of_lt hx (by norm_num)
  rw [rte_align32pow2_eq h0 hx32]
  have hs : Nat.size (x - 1) ≤ 31 := Nat.size_le.mpr (by omega)
  have hlt : 2 ^ Nat.size (x - 1) < 2 ^ 32 :=
    Nat.pow_lt_pow_right (by decide) (by omega)
  rw [Nat.mod_eq_of_lt hlt]
  unfold round_up_pow2
  congr 1
  apply le_antisymm
  · apply Nat.size_le.mpr
    have := Nat.le_pow_clog (by decide : 1 < 2) x
    omega
  · apply (Nat.le_pow_iff_clog_le (by decide : 1 < 2)).mp
    have := Nat.lt_size_self (x - 1)
    omega

/-! ## The power-of-two test -/

theorem sub32_one {n : Nat} (h0 : n ≠ 0) (hn : n < 2 ^ 32) : sub32 n 1 = n - 1 := by
  unfold sub32
  rw [Nat.mod_eq_of_lt hn, Nat.mod_eq_of_lt (by norm_num : 1 < 2 ^ 32),
    if_pos (show 1 ≤ n from Nat.pos_of_ne_zero h0)]

theorem pow_land_pred (k : Nat) : 2 ^ k &&& (2 ^ k - 1) = 0 := by
  apply Nat.eq_of_testBit_eq
  intro i
  rw [Nat.testBit_land, Nat.testBit_two_pow, Nat.testBit_two_pow_sub_one]
  by_cases h : k = i
  · subst h; simp
  · simp [h]

theorem rte_is_power_of_2_pow {k : Nat} (hk : k < 32) : rte_is_power_of_2 (2 ^ k) = 1 := by
  have hpos : 0 < 2 ^ k := Nat.pow_pos (by decide)
  have hlt : 2 ^ k < 2 ^ 32 := Nat.pow_lt_pow_right (by decide) hk
  unfold rte_is_power_of_2
  rw [sub32_one (by omega) hlt, pow_land_pred]
  simp

theorem pow2_of_land_pred {n : Nat} (h0 : n ≠ 0) (h : n &&& (n - 1) = 0) :
    n = 2 ^ (Nat.size n - 1) := by
  have hpos : 0 < Nat.size n := Nat.size_pos.mpr (Nat.pos_of_ne_zero h0)
  have hlo : 2 ^ (Nat.size n - 1) ≤ n := Nat.lt_size.mp (by omega)
  by_contra hne
  have hlo1 : 2 ^ (Nat.size n - 1) ≤ n - 1 := by omega
  have hs : Nat.size (n - 1) = Nat.size n := by
    apply le_antisymm
    · exact Nat.size_le_size (Nat.sub_le n 1)
    · have := Nat.lt_size.mpr hlo1
      omega
  have hp : 0 < 2 ^ (Nat.size n - 1) := Nat.pow_pos (by decide)
  have b1 := testBit_size_pred h0
  have b2 := testBit_size_pred (y := n - 1) (by omega)
  rw [hs] at b2
  have := Nat.testBit_land n (n - 1) (Nat.size n - 1)
  rw [h, b1, b2] at this
  simp at this

theorem rte_is_power_of_2_ne_zero {n : Nat} (hn : n < 2 ^ 32) (h : rte_is_power_of_2 n ≠ 0) :
    ∃ k, k < 32 ∧ n = 2 ^ k := by
  unfold rte_is_power_of_2 at h
  split at h
  · rename_i hc
    obtain ⟨h0, hl⟩ := hc
    rw [sub32_one h0 hn] at hl
    have e := pow2_of_land_pred h0 hl
    refine ⟨Nat.size n - 1, ?_, e⟩
    have := Nat.size_le.mpr hn
    have hpos : 0 < Nat.size n := Nat.size_pos.mpr (Nat.pos_of_ne_zero h0)
    omega
  · exact absurd rfl h

theorem rte_is_power_of_2_eq_zero {n : Nat} (hn : n < 2 ^ 32) (h : ¬ ∃ k, n = 2 ^ k) :
    rte_is_power_of_2 n = 0 := by
  by_contra hne
  obtain ⟨k, _, e⟩ := rte_is_power_of_2_ne_zero hn hne
  exact h ⟨k, e⟩

/-- The round-up of a 32-bit value is zero or a power of two. -/
theorem rte_align32pow2_cases {x : Nat} (hx : x < 2 ^ 32) :
    (rte_align32pow2 x = 0 ∧ (x = 0 ∨ 2 ^ 31 < x)) ∨
    (rte_align32pow2 x = round_up_pow2 x ∧ 0 < x ∧ x ≤ 2 ^ 31 ∧
      ∃ k, k ≤ 31 ∧ rte_align32pow2 x = 2 ^ k) := by
  by_cases h0 : x = 0
  · subst h0; exact Or.inl ⟨rte_align32pow2_zero, Or.inl rfl⟩
  · by_cases h1 : 2 ^ 31 < x
    · exact Or.inl ⟨rte_align32pow2_wrap h1 hx, Or.inr h1⟩
    · right
      have hpos : 0 < x := Nat.pos_of_ne_zero h0
      have hle : x ≤ 2 ^ 31 := Nat.le_of_not_lt h1
      refine ⟨rte_align32pow2_round_up hpos hle, hpos, hle, Nat.clog 2 x, ?_, ?_⟩
      · exact (Nat.le_pow_iff_clog_le (by decide : 1 < 2)).mp hle
      · rw [rte_align32pow2_round_up hpos hle]; rfl

theorem create_nb_entries_eq {bn be : Nat} (hbn : bn < 2 ^ 32) (hbe : be < 2 ^ 32) :
    create_nb_entries bn be = rte_align32pow2 bn * be * IP_FRAG_HASH_FNUM ∧
    rte_align32pow2 bn * be * IP_FRAG_HASH_FNUM < 2 ^ 64 := by
  have ha : rte_align32pow2 bn ≤ 2 ^ 31 := by
    rcases rte_align32pow2_cases hbn with ⟨h, _⟩ | ⟨_, _, _, k, hk, h⟩
    · rw [h]; exact Nat.zero_le _
    · rw [h]; exact Nat.pow_le_pow_right (by decide) hk
  have h1 : rte_align32pow2 bn * be ≤ 2 ^ 31 * 2 ^ 32 :=
    Nat.mul_le_mul ha (Nat.le_of_lt hbe)
  have h2 : rte_align32pow2 bn * be * IP_FRAG_HASH_FNUM < 2 ^ 64 := by
    unfold IP_FRAG_HASH_FNUM
    have hz : rte_align32pow2 bn * be < 2 ^ 31 * 2 ^ 32 := by
      rcases Nat.eq_zero_or_pos (rte_align32pow2 bn) with h | h
      · rw [h]; norm_num
      · calc rte_align32pow2 bn * be < rte_align32pow2 bn * 2 ^ 32 :=
              Nat.mul_lt_mul_of_pos_left hbe h
          _ ≤ 2 ^ 31 * 2 ^ 32 := Nat.mul_le_mul_right _ ha
    norm_num at hz ⊢
    omega
  refine ⟨?_, h2⟩
  unfold create_nb_entries
  simp only
  rw [Nat.mod_eq_of_lt (a := rte_align32pow2 bn * be), Nat.mod_eq_of_lt h2]
  norm_num at h1 ⊢
  omega

/-! ## rte_ip_frag_table_create: accepted and rejected arguments -/

/-- The table `rte_ip_frag_table_create` fills in once the checks and the
allocation have succeeded. -/
theorem create_some {env : alloc_env} {bn be me mc : Nat} {sock : Int} {t : rte_ip_frag_tbl}
    (h : (rte_ip_frag_table_create env bn be me mc sock).tbl = some t) :
    rte_is_power_of_2 be ≠ 0 ∧ create_nb_entries bn be ≤ UINT32_MAX ∧
    create_nb_entries bn be ≠ 0 ∧ me ≤ create_nb_entries bn be ∧
    t = created_tbl bn be me mc := by
  unfold rte_ip_frag_table_create at h
  simp only at h
  split at h
  · simp at h
  · rename_i hg
    split at h
    · simp at h
    · simp only [Option.some.injEq, zero_tbl] at h
      unfold created_tbl
      refine ⟨?_, ?_, ?_, ?_, h.symm⟩
      · intro h0; exact hg (Or.inl h0)
      · by_contra h1; exact hg (Or.inr (Or.inl (by omega)))
      · intro h0; exact hg (Or.inr (Or.inr (Or.inl h0)))
      · by_contra h1; exact hg (Or.inr (Or.inr (Or.inr (by omega))))

theorem create_reject {env : alloc_env} {bn be me mc : Nat} {sock : Int}
    (h : rte_is_power_of_2 be = 0 ∨ create_nb_entries bn be > UINT32_MAX ∨
      create_nb_entries bn be = 0 ∨ create_nb_entries bn be < me) :
    rte_ip_frag_table_create env bn be me mc sock = { tbl := none, allocs := [] } := by
  unfold rte_ip_frag_table_create
  simp only
  rw [if_pos h]

theorem create_accept {env : alloc_env} {bn be me mc : Nat} {sock : Int}
    (h1 : rte_is_power_of_2 be ≠ 0) (h2 : create_nb_entries bn be ≤ UINT32_MAX)
    (h3 : create_nb_entries bn be ≠ 0) (h4 : me ≤ create_nb_entries bn be)
    (hal : env.zmalloc_ok ((env.sizeof_tbl + create_nb_entries bn be * env.sizeof_pkt) % 2 ^ 64)
      sock = true) :
    (rte_ip_frag_table_create env bn be me mc sock).tbl =
      some (created_tbl bn be me mc) := by
  unfold rte_ip_frag_table_create
  simp only
  have hg : ¬ (rte_is_power_of_2 be = 0 ∨ create_nb_entries bn be > UINT32_MAX ∨
      create_nb_entries bn be = 0 ∨ create_nb_entries bn be < me) := by
    rintro (h | h | h | h)
    · exact h1 h
    · omega
    · exact h3 h
    · omega
  rw [if_neg hg, hal]
  simp [zero_tbl, created_tbl]

/-! ## Layout of a created table -/

theorem not32_pow_pred_testBit {b : Nat} (hb : b ≤ 32) (j : Nat) :
    (not32 (2 ^ b - 1)).testBit j = (decide (j < 32) && !decide (j < b)) := by
  have hlt : 2 ^ b - 1 < 2 ^ 32 := by
    have : 2 ^ b ≤ 2 ^ 32 := Nat.pow_le_pow_right (by decide) hb
    have hp : 0 < 2 ^ b := Nat.pow_pos (by decide)
    omega
  unfold not32
  rw [Nat.mod_eq_of_lt hlt, Nat.testBit_two_pow_sub_succ hlt, Nat.testBit_two_pow_sub_one]

/-- The bucket mask keeps exactly the bits `b .. n - 1` of a hash value. -/
theorem entry_mask_bucket {b n : Nat} (hbn : b ≤ n) (hn : n ≤ 32) (h : Nat) :
    2 ^ b ∣ (h &&& ((2 ^ n - 1) &&& not32 (2 ^ b - 1))) ∧
    (h &&& ((2 ^ n - 1) &&& not32 (2 ^ b - 1))) + 2 ^ b ≤ 2 ^ n := by
  set i := h &&& ((2 ^ n - 1) &&& not32 (2 ^ b - 1)) with hi
  have hmod : i % 2 ^ b = 0 := by
    apply Nat.eq_of_testBit_eq
    intro j
    rw [Nat.testBit_mod_two_pow, hi, Nat.testBit_land, Nat.testBit_land,
      not32_pow_pred_testBit (le_trans hbn hn)]
    by_cases hj : j < b
    · simp [hj]
    · simp [hj]
  have hdvd : 2 ^ b ∣ i := Nat.dvd_of_mod_eq_zero hmod
  have hlt : i < 2 ^ n := by
    have h1 : i ≤ (2 ^ n - 1) &&& not32 (2 ^ b - 1) := Nat.and_le_right
    have h2 : (2 ^ n - 1) &&& not32 (2 ^ b - 1) ≤ 2 ^ n - 1 := Nat.and_le_left
    have hp : 0 < 2 ^ n := Nat.pow_pos (by decide)
    omega
  refine ⟨hdvd, ?_⟩
  obtain ⟨q, hq⟩ := hdvd
  have hsplit : (2 : Nat) ^ n = 2 ^ b * 2 ^ (n - b) := by
    rw [← pow_add]; congr 1; omega
  rw [hq, hsplit] at hlt ⊢
  have hp : 0 < 2 ^ b := Nat.pow_pos (by decide)
  have hq1 : q < 2 ^ (n - b) := Nat.lt_of_mul_lt_mul_left hlt
  calc 2 ^ b * q + 2 ^ b = 2 ^ b * (q + 1) := by ring
    _ ≤ 2 ^ b * 2 ^ (n - b) := Nat.mul_le_mul_left _ hq1

/-- Shape of the layout of a created table: with `bucket_entries = 2 ^ b`
and the round-up of `bucket_num` equal to `2 ^ a`, the table has
`2 ^ (a + b + 1)` slots, fewer than `2 ^ 32`. -/
theorem create_layout {env : alloc_env} {bn be me mc : Nat} {sock : Int} {t : rte_ip_frag_tbl}
    (hbn : bn < 2 ^ 32) (hbe : be < 2 ^ 32)
    (h : (rte_ip_frag_table_create env bn be me mc sock).tbl = some t) :
    t = created_tbl bn be me mc ∧ 0 < bn ∧ bn ≤ 2 ^ 31 ∧ me ≤ create_nb_entries bn be ∧
    ∃ a b, a + b + 1 ≤ 31 ∧ rte_align32pow2 bn = 2 ^ a ∧ be = 2 ^ b ∧
      create_nb_entries bn be = 2 ^ (a + b + 1) := by
  obtain ⟨h1, h2, h3, h4, ht⟩ := create_some h
  obtain ⟨b, hb, hbe2⟩ := rte_is_power_of_2_ne_zero hbe h1
  obtain ⟨hnb, _⟩ := create_nb_entries_eq hbn hbe
  rcases rte_align32pow2_cases hbn with ⟨hz, _⟩ | ⟨_, hpos, hle, a, ha, hal⟩
  · rw [hnb, hz] at h3
    simp at h3
  · have hnb2 : create_nb_entries bn be = 2 ^ (a + b + 1) := by
      rw [hnb, hal, hbe2]
      unfold IP_FRAG_HASH_FNUM
      ring
    refine ⟨ht, hpos, hle, h4, a, b, ?_, hal, hbe2, hnb2⟩
    rw [hnb2] at h2
    unfold UINT32_MAX at h2
    by_contra hc
    have : 2 ^ 32 ≤ 2 ^ (a + b + 1) := Nat.pow_le_pow_right (by decide) (by omega)
    omega

/-! ## Claims about rte_ip_frag_table_create -/

theorem le_round_up_pow2 (n : Nat) : n ≤ round_up_pow2 n :=
  Nat.le_pow_clog (by decide) n

theorem not_pow2_six : ¬ ∃ k, 6 = 2 ^ k := by
  rintro ⟨k, hk⟩
  rcases k with _ | _ | _ | k
  · simp at hk
  · simp at hk
  · simp at hk
  · have : 2 ^ 3 ≤ 2 ^ (k + 1 + 1 + 1) := Nat.pow_le_pow_right (by decide) (by omega)
    omega

theorem not_pow2_three : ¬ ∃ k, 3 = 2 ^ k := by
  rintro ⟨k, hk⟩
  rcases k with _ | _ | k
  · simp at hk
  · simp at hk
  · have : 2 ^ 2 ≤ 2 ^ (k + 1 + 1) := Nat.pow_le_pow_right (by decide) (by omega)
    omega

/-- C1: if `bucket_entries` (a 32-bit value) is not a power of two, zero
included, `rte_ip_frag_table_create` returns `NULL` whatever the other
arguments are, and it has not called `rte_zmalloc_socket`. -/
theorem create_rejects_non_power_of_two (env : alloc_env)
    (bucket_num bucket_entries max_entries max_cycles : Nat) (socket_id : Int)
    (hbe : bucket_entries < 2 ^ 32) (hnp : ¬ ∃ k, bucket_entries = 2 ^ k) :
    (rte_ip_frag_table_create env bucket_num bucket_entries max_entries max_cycles
      socket_id).tbl = none ∧
    (rte_ip_frag_table_create env bucket_num bucket_entries max_entries max_cycles
      socket_id).allocs = [] := by
  rw [create_reject (Or.inl (rte_is_power_of_2_eq_zero hbe hnp))]
  exact ⟨rfl, rfl⟩

theorem create_rejects_non_power_of_two_witness :
    ((rte_ip_frag_table_create env_ok 2 6 8 100 0).tbl = none ∧
      (rte_ip_frag_table_create env_ok 2 6 8 100 0).allocs = []) ∧
    ((rte_ip_frag_table_create env_ok 2 0 0 100 0).tbl = none ∧
      (rte_ip_frag_table_create env_ok 2 0 0 100 0).allocs = []) :=
  ⟨create_rejects_non_power_of_two env_ok 2 6 8 100 0 (by norm_num) not_pow2_six,
   create_rejects_non_power_of_two env_ok 2 0 0 100 0 (by norm_num)
     (fun ⟨k, hk⟩ => absurd hk.symm (Nat.pos_iff_ne_zero.mp (Nat.pow_pos (by decide))))⟩

/-- C2: for 32-bit `bucket_num` and `bucket_entries`, if the slot count
computed over the natural numbers, `round_up_pow2 bucket_num * bucket_entries
* 2`, exceeds `2 ^ 32 - 1`, the call returns `NULL` and allocates nothing. The
64-bit product `nb_entries` of the code never wraps, and every `bucket_num`
above `2 ^ 31`, where the 32-bit round-up wraps to zero, is rejected. -/
theorem create_rejects_oversized (env : alloc_env)
    (bucket_num bucket_entries max_entries max_cycles : Nat) (socket_id : Int)
    (hbn : bucket_num < 2 ^ 32) (hbe : bucket_entries < 2 ^ 32) :
    (2 ^ 32 - 1 < round_up_pow2 bucket_num * bucket_entries * 2 →
      rte_ip_frag_table_create env bucket_num bucket_entries max_entries max_cycles socket_id
        = { tbl := none, allocs := [] }) ∧
    (create_nb_entries bucket_num bucket_entries =
        rte_align32pow2 bucket_num * bucket_entries * IP_FRAG_HASH_FNUM ∧
      rte_align32pow2 bucket_num * bucket_entries * IP_FRAG_HASH_FNUM < 2 ^ 64) ∧
    (2 ^ 31 < bucket_num →
      rte_ip_frag_table_create env bucket_num bucket_entries max_entries max_cycles socket_id
        = { tbl := none, allocs := [] }) := by
  have hnb := create_nb_entries_eq hbn hbe
  refine ⟨?_, hnb, ?_⟩
  · intro hbig
    rcases rte_align32pow2_cases hbn with ⟨hz, _⟩ | ⟨hr, _, _, _⟩
    · apply create_reject
      right; right; left
      rw [hnb.1, hz]; simp
    · apply create_reject
      right; left
      rw [hnb.1, hr]
      unfold UINT32_MAX IP_FRAG_HASH_FNUM
      exact hbig
  · intro hbig
    apply create_reject
    right; right; left
    rw [hnb.1, rte_align32pow2_wrap hbig hbn]; simp

theorem create_rejects_oversized_witness :
    rte_ip_frag_table_create env_ok 65536 65536 0 100 0 = { tbl := none, allocs := [] } ∧
    rte_ip_frag_table_create env_ok (2 ^ 31 + 1) 1 0 100 0 = { tbl := none, allocs := [] } :=
  ⟨(create_rejects_oversized env_ok 65536 65536 0 100 0 (by norm_num) (by norm_num)).1
      (by have := le_round_up_pow2 65536; omega),
   (create_rejects_oversized env_ok (2 ^ 31 + 1) 1 0 100 0 (by norm_num) (by norm_num)).2.2
      (by norm_num)⟩

theorem create_two_four :
    (rte_ip_frag_table_create env_ok 2 4 8 100 0).tbl = some (created_tbl 2 4 8 100) :=
  create_accept (by decide) (by decide) (by decide) (by decide) rfl

theorem create_three_four :
    (rte_ip_frag_table_create env_ok 3 4 8 100 0).tbl = some (created_tbl 3 4 8 100) :=
  create_accept (by decide) (by decide) (by decide) (by decide) rfl

/-- C3: if `max_entries` exceeds the derived slot count, whether that count
is taken over the natural numbers (`round_up_pow2 bucket_num * bucket_entries
* 2`) or as the code computes it, `rte_ip_frag_table_create` returns `NULL`
without allocating; hence every table it returns has
`max_entries <= nb_entries`. -/
theorem create_rejects_max_entries_above_capacity (env : alloc_env)
    (bucket_num bucket_entries max_entries max_cycles : Nat) (socket_id : Int)
    (hbn : bucket_num < 2 ^ 32) (hbe : bucket_entries < 2 ^ 32) :
    (round_up_pow2 bucket_num * bucket_entries * 2 < max_entries →
      rte_ip_frag_table_create env bucket_num bucket_entries max_entries max_cycles socket_id
        = { tbl := none, allocs := [] }) ∧
    (rte_align32pow2 bucket_num * bucket_entries * IP_FRAG_HASH_FNUM < max_entries →
      rte_ip_frag_table_create env bucket_num bucket_entries max_entries max_cycles socket_id
        = { tbl := none, allocs := [] }) ∧
    (∀ t, (rte_ip_frag_table_create env bucket_num bucket_entries max_entries max_cycles
        socket_id).tbl = some t → t.max_entries ≤ t.nb_entries) := by
  have hnb := (create_nb_entries_eq hbn hbe).1
  refine ⟨?_, ?_, ?_⟩
  · intro hlt
    rcases rte_align32pow2_cases hbn with ⟨hz, _⟩ | ⟨hr, _, _, _⟩
    · apply create_reject
      right; right; left
      rw [hnb, hz]; simp
    · apply create_reject
      right; right; right
      rw [hnb, hr]
      unfold IP_FRAG_HASH_FNUM
      exact hlt
  · intro hlt
    apply create_reject
    right; right; right
    rw [hnb]; exact hlt
  · intro t ht
    obtain ⟨_, h2, _, h4, e⟩ := create_some ht
    subst e
    unfold UINT32_MAX at h2
    show max_entries ≤ create_nb_entries bucket_num bucket_entries % 2 ^ 32
    rw [Nat.mod_eq_of_lt (by omega)]
    exact h4

theorem create_rejects_max_entries_above_capacity_witness :
    rte_ip_frag_table_create env_ok 2 4 17 100 0 = { tbl := none, allocs := [] } ∧
    (created_tbl 2 4 8 100).max_entries ≤ (created_tbl 2 4 8 100).nb_entries :=
  ⟨(create_rejects_max_entries_above_capacity env_ok 2 4 17 100 0 (by norm_num)
      (by norm_num)).2.1 (by decide),
   (create_rejects_max_entries_above_capacity env_ok 2 4 8 100 0 (by norm_num)
      (by norm_num)).2.2 _ create_two_four⟩

/-- C4: when `bucket_entries` is a power of two, the slot count
`T = rte_align32pow2 bucket_num * bucket_entries * 2` satisfies
`0 < T <= 2 ^ 32 - 1` and `max_entries <= T`, and the allocation succeeds,
`rte_ip_frag_table_create` returns a table with `nb_entries = T` and with
`max_entries`, `max_cycles` and `bucket_entries` as passed. Under these
conditions `T` is also the slot count over the natural numbers,
`round_up_pow2 bucket_num * bucket_entries * 2`. -/
theorem create_succeeds (env : alloc_env)
    (bucket_num bucket_entries max_entries max_cycles : Nat) (socket_id : Int)
    (hbn : bucket_num < 2 ^ 32) (hbe : bucket_entries < 2 ^ 32)
    (hpow : ∃ k, bucket_entries = 2 ^ k)
    (hpos : 0 < rte_align32pow2 bucket_num * bucket_entries * IP_FRAG_HASH_FNUM)
    (hfit : rte_align32pow2 bucket_num * bucket_entries * IP_FRAG_HASH_FNUM ≤ 2 ^ 32 - 1)
    (hmax : max_entries ≤ rte_align32pow2 bucket_num * bucket_entries * IP_FRAG_HASH_FNUM)
    (hal : env.zmalloc_ok ((env.sizeof_tbl +
      rte_align32pow2 bucket_num * bucket_entries * IP_FRAG_HASH_FNUM * env.sizeof_pkt) % 2 ^ 64)
      socket_id = true) :
    ∃ t, (rte_ip_frag_table_create env bucket_num bucket_entries max_entries max_cycles
        socket_id).tbl = some t ∧
      t.nb_entries = rte_align32pow2 bucket_num * bucket_entries * IP_FRAG_HASH_FNUM ∧
      t.nb_entries = round_up_pow2 bucket_num * bucket_entries * 2 ∧
      t.max_entries = max_entries ∧ t.max_cycles = max_cycles ∧
      t.bucket_entries = bucket_entries := by
  have hnb := (create_nb_entries_eq hbn hbe).1
  obtain ⟨k, hk⟩ := hpow
  have hk32 : k < 32 := by
    by_contra hc
    have : 2 ^ 32 ≤ 2 ^ k := Nat.pow_le_pow_right (by decide) (by omega)
    omega
  have h1 : rte_is_power_of_2 bucket_entries ≠ 0 := by
    rw [hk, rte_is_power_of_2_pow hk32]; decide
  have hround : rte_align32pow2 bucket_num = round_up_pow2 bucket_num := by
    rcases rte_align32pow2_cases hbn with ⟨hz, _⟩ | ⟨hr, _, _, _⟩
    · rw [hz] at hpos; simp at hpos
    · exact hr
  refine ⟨created_tbl bucket_num bucket_entries max_entries max_cycles, ?_, ?_, ?_,
    rfl, rfl, rfl⟩
  · apply create_accept h1
    · rw [hnb]; exact hfit
    · rw [hnb]; omega
    · rw [hnb]; exact hmax
    · rw [hnb]; exact hal
  · show create_nb_entries bucket_num bucket_entries % 2 ^ 32 = _
    rw [hnb, Nat.mod_eq_of_lt (by omega)]
  · show create_nb_entries bucket_num bucket_entries % 2 ^ 32 = _
    rw [hnb, Nat.mod_eq_of_lt (by omega), hround]
    rfl

theorem create_succeeds_witness :
    ∃ t, (rte_ip_frag_table_create env_ok 2 4 8 100 0).tbl = some t ∧
      t.nb_entries = 16 ∧ t.nb_entries = round_up_pow2 2 * 4 * 2 ∧
      t.max_entries = 8 ∧ t.max_cycles = 100 ∧ t.bucket_entries = 4 :=
  create_succeeds env_ok 2 4 8 100 0 (by norm_num) (by norm_num) ⟨2, by norm_num⟩
    (by decide) (by decide) (by decide) rfl

/-- C5: a table returned by `rte_ip_frag_table_create` has `nb_entries`
slots, each of them zeroed (empty key, `start = 0`, no fragment), an empty
LRU list, `use_entries = 0` and all six statistics counters at zero. -/
theorem create_starts_empty (env : alloc_env)
    (bucket_num bucket_entries max_entries max_cycles : Nat) (socket_id : Int)
    (t : rte_ip_frag_tbl)
    (h : (rte_ip_frag_table_create env bucket_num bucket_entries max_entries max_cycles
      socket_id).tbl = some t) :
    t.pkt.length = t.nb_entries ∧
    (∀ p ∈ t.pkt, p = zero_pkt ∧ p.key.key_len = 0 ∧ p.start = 0 ∧ p.frags = []) ∧
    t.lru = [] ∧ t.use_entries = 0 ∧
    t.stat.find_num = 0 ∧ t.stat.add_num = 0 ∧ t.stat.del_num = 0 ∧
    t.stat.reuse_num = 0 ∧ t.stat.fail_total = 0 ∧ t.stat.fail_nospace = 0 := by
  obtain ⟨_, h2, _, _, e⟩ := create_some h
  subst e
  unfold UINT32_MAX at h2
  refine ⟨?_, ?_, rfl, rfl, rfl, rfl, rfl, rfl, rfl, rfl⟩
  · show (List.replicate _ zero_pkt).length = create_nb_entries bucket_num bucket_entries % 2 ^ 32
    rw [List.length_replicate, Nat.mod_eq_of_lt (by omega)]
  · intro p hp
    have hp2 : p ∈ List.replicate (create_nb_entries bucket_num bucket_entries) zero_pkt := hp
    have e := List.eq_of_mem_replicate hp2
    subst e
    exact ⟨rfl, rfl, rfl, rfl⟩

theorem create_starts_empty_witness :
    (created_tbl 2 4 8 100).pkt.length = (created_tbl 2 4 8 100).nb_entries ∧
    (∀ p ∈ (created_tbl 2 4 8 100).pkt,
      p = zero_pkt ∧ p.key.key_len = 0 ∧ p.start = 0 ∧ p.frags = []) ∧
    (created_tbl 2 4 8 100).lru = [] ∧ (created_tbl 2 4 8 100).use_entries = 0 ∧
    (created_tbl 2 4 8 100).stat.find_num = 0 ∧ (created_tbl 2 4 8 100).stat.add_num = 0 ∧
    (created_tbl 2 4 8 100).stat.del_num = 0 ∧ (created_tbl 2 4 8 100).stat.reuse_num = 0 ∧
    (created_tbl 2 4 8 100).stat.fail_total = 0 ∧
    (created_tbl 2 4 8 100).stat.fail_nospace = 0 :=
  create_starts_empty env_ok 2 4 8 100 0 _ create_two_four

/-- C6, as the code has it: a table returned by `rte_ip_frag_table_create`
stores in `nb_buckets` the argument `bucket_num` unchanged, a value between
`1` and `2 ^ 31`; what is a power of two is its round-up
`rte_align32pow2 nb_buckets`, and so is the number `nb_entries /
bucket_entries` of bucket-sized slot runs. -/
theorem create_nb_buckets (env : alloc_env)
    (bucket_num bucket_entries max_entries max_cycles : Nat) (socket_id : Int)
    (t : rte_ip_frag_tbl) (hbn : bucket_num < 2 ^ 32) (hbe : bucket_entries < 2 ^ 32)
    (h : (rte_ip_frag_table_create env bucket_num bucket_entries max_entries max_cycles
      socket_id).tbl = some t) :
    t.nb_buckets = bucket_num ∧ 0 < t.nb_buckets ∧ t.nb_buckets ≤ 2 ^ 31 ∧
    (∃ k, rte_align32pow2 t.nb_buckets = 2 ^ k) ∧
    (∃ k, t.nb_entries / t.bucket_entries = 2 ^ k) := by
  obtain ⟨e, hpos, hle, _, a, b, hab, ha, hb, hnb⟩ := create_layout hbn hbe h
  subst e
  refine ⟨rfl, hpos, hle, ⟨a, ha⟩, ⟨a + 1, ?_⟩⟩
  show create_nb_entries bucket_num bucket_entries % 2 ^ 32 / bucket_entries = 2 ^ (a + 1)
  have hlt : 2 ^ (a + b + 1) < 2 ^ 32 := Nat.pow_lt_pow_right (by decide) (by omega)
  rw [hnb, Nat.mod_eq_of_lt hlt, hb]
  have e : (2 : Nat) ^ (a + b + 1) = 2 ^ b * 2 ^ (a + 1) := by
    rw [← pow_add]; congr 1; omega
  rw [e, Nat.mul_div_cancel_left _ (Nat.pow_pos (by decide))]

theorem create_nb_buckets_witness :
    (created_tbl 3 4 8 100).nb_buckets = 3 ∧ 0 < (created_tbl 3 4 8 100).nb_buckets ∧
    (created_tbl 3 4 8 100).nb_buckets ≤ 2 ^ 31 ∧
    (∃ k, rte_align32pow2 (created_tbl 3 4 8 100).nb_buckets = 2 ^ k) ∧
    (∃ k, (created_tbl 3 4 8 100).nb_entries / (created_tbl 3 4 8 100).bucket_entries = 2 ^ k) :=
  create_nb_buckets env_ok 3 4 8 100 0 _ (by norm_num) (by norm_num) create_three_four

/-- C6 as stated fails: `create(3, 4, 8, 100)` succeeds and the table's
`nb_buckets` is 3, which is not a power of two. -/
theorem create_nb_buckets_not_power_of_two :
    ∃ t, (rte_ip_frag_table_create env_ok 3 4 8 100 0).tbl = some t ∧
      ¬ ∃ k, t.nb_buckets = 2 ^ k :=
  ⟨created_tbl 3 4 8 100, create_three_four, not_pow2_three⟩

/-- C7, as the code has it: in a table returned by
`rte_ip_frag_table_create` the slot count is the rounded-up bucket count
times the bucket capacity times the two hash functions,
`nb_entries = rte_align32pow2 nb_buckets * bucket_entries * IP_FRAG_HASH_FNUM`,
which is `round_up_pow2 nb_buckets * bucket_entries * 2`. -/
theorem create_nb_entries_layout (env : alloc_env)
    (bucket_num bucket_entries max_entries max_cycles : Nat) (socket_id : Int)
    (t : rte_ip_frag_tbl) (hbn : bucket_num < 2 ^ 32) (hbe : bucket_entries < 2 ^ 32)
    (h : (rte_ip_frag_table_create env bucket_num bucket_entries max_entries max_cycles
      socket_id).tbl = some t) :
    t.nb_entries = rte_align32pow2 t.nb_buckets * t.bucket_entries * IP_FRAG_HASH_FNUM ∧
    t.nb_entries = round_up_pow2 t.nb_buckets * t.bucket_entries * 2 := by
  obtain ⟨e, hpos, hle, _, a, b, hab, _, _, hnb⟩ := create_layout hbn hbe h
  subst e
  have hlt : 2 ^ (a + b + 1) < 2 ^ 32 := Nat.pow_lt_pow_right (by decide) (by omega)
  have h1 : (created_tbl bucket_num bucket_entries max_entries max_cycles).nb_entries =
      rte_align32pow2 bucket_num * bucket_entries * IP_FRAG_HASH_FNUM := by
    show create_nb_entries bucket_num bucket_entries % 2 ^ 32 = _
    rw [← (create_nb_entries_eq hbn hbe).1, hnb, Nat.mod_eq_of_lt hlt]
  refine ⟨h1, ?_⟩
  rw [h1]
  show rte_align32pow2 bucket_num * bucket_entries * IP_FRAG_HASH_FNUM =
    round_up_pow2 bucket_num * bucket_entries * 2
  rw [rte_align32pow2_round_up hpos hle]
  rfl

theorem create_nb_entries_layout_witness :
    (created_tbl 2 4 8 100).nb_entries =
      rte_align32pow2 (created_tbl 2 4 8 100).nb_buckets *
        (created_tbl 2 4 8 100).bucket_entries * IP_FRAG_HASH_FNUM ∧
    (created_tbl 2 4 8 100).nb_entries =
      round_up_pow2 (created_tbl 2 4 8 100).nb_buckets *
        (created_tbl 2 4 8 100).bucket_entries * 2 :=
  create_nb_entries_layout env_ok 2 4 8 100 0 _ (by norm_num) (by norm_num) create_two_four

/-- C7 as stated fails: `create(2, 4, 8, 100)` returns a table with
`nb_entries = 16`, while `nb_buckets * bucket_entries = 2 * 4 = 8`. -/
theorem create_nb_entries_not_buckets_times_capacity :
    ∃ t, (rte_ip_frag_table_create env_ok 2 4 8 100 0).tbl = some t ∧
      t.nb_entries = 16 ∧ t.nb_buckets * t.bucket_entries = 8 ∧
      t.nb_entries ≠ t.nb_buckets * t.bucket_entries :=
  ⟨created_tbl 2 4 8 100, create_two_four, by decide, by decide, by decide⟩

/-- C8: in a table returned by `rte_ip_frag_table_create`, `nb_entries` is
a power of two, `entry_mask = (nb_entries - 1) & ~(bucket_entries - 1)`, and
for every hash value `hash` the masked index `hash & entry_mask` is a multiple
of `bucket_entries` with `index + bucket_entries <= nb_entries`: the slot run
of the bucket lies inside the slot array, whose length is `nb_entries`. -/
theorem create_mask_in_bounds (env : alloc_env)
    (bucket_num bucket_entries max_entries max_cycles : Nat) (socket_id : Int)
    (t : rte_ip_frag_tbl) (hbn : bucket_num < 2 ^ 32) (hbe : bucket_entries < 2 ^ 32)
    (h : (rte_ip_frag_table_create env bucket_num bucket_entries max_entries max_cycles
      socket_id).tbl = some t) :
    (∃ k, t.nb_entries = 2 ^ k) ∧
    t.entry_mask = sub32 t.nb_entries 1 &&& not32 (sub32 t.bucket_entries 1) ∧
    t.pkt.length = t.nb_entries ∧
    ∀ hash : Nat, t.bucket_entries ∣ (hash &&& t.entry_mask) ∧
      (hash &&& t.entry_mask) + t.bucket_entries ≤ t.nb_entries := by
  obtain ⟨e, _, _, _, a, b, hab, _, hb, hnb⟩ := create_layout hbn hbe h
  subst e
  have hlt : 2 ^ (a + b + 1) < 2 ^ 32 := Nat.pow_lt_pow_right (by decide) (by omega)
  have hp : 0 < 2 ^ (a + b + 1) := Nat.pow_pos (by decide)
  have hpb : 0 < 2 ^ b := Nat.pow_pos (by decide)
  have hn : (created_tbl bucket_num bucket_entries max_entries max_cycles).nb_entries =
      2 ^ (a + b + 1) := by
    show create_nb_entries bucket_num bucket_entries % 2 ^ 32 = _
    rw [hnb, Nat.mod_eq_of_lt hlt]
  have hm : (created_tbl bucket_num bucket_entries max_entries max_cycles).entry_mask =
      (2 ^ (a + b + 1) - 1) &&& not32 (2 ^ b - 1) := by
    show sub32 (create_nb_entries bucket_num bucket_entries % 2 ^ 32) 1 &&&
      not32 (sub32 bucket_entries 1) = _
    rw [hnb, Nat.mod_eq_of_lt hlt, sub32_one (by omega) hlt, hb,
      sub32_one (by omega) (by rw [← hb]; exact hbe)]
  refine ⟨⟨a + b + 1, hn⟩, rfl, ?_, ?_⟩
  · rw [hn]
    show (List.replicate _ zero_pkt).length = _
    rw [List.length_replicate, hnb]
  · intro hash
    rw [hn, hm]
    show bucket_entries ∣ _ ∧ _ + bucket_entries ≤ _
    rw [hb]
    exact entry_mask_bucket (by omega) (by omega) hash

theorem create_mask_in_bounds_witness :
    (∃ k, (created_tbl 2 4 8 100).nb_entries = 2 ^ k) ∧
    (created_tbl 2 4 8 100).entry_mask =
      sub32 (created_tbl 2 4 8 100).nb_entries 1 &&&
        not32 (sub32 (created_tbl 2 4 8 100).bucket_entries 1) ∧
    (created_tbl 2 4 8 100).pkt.length = (created_tbl 2 4 8 100).nb_entries ∧
    ∀ hash : Nat, (created_tbl 2 4 8 100).bucket_entries ∣
        (hash &&& (created_tbl 2 4 8 100).entry_mask) ∧
      (hash &&& (created_tbl 2 4 8 100).entry_mask) + (created_tbl 2 4 8 100).bucket_entries ≤
        (created_tbl 2 4 8 100).nb_entries :=
  create_mask_in_bounds env_ok 2 4 8 100 0 _ (by norm_num) (by norm_num) create_two_four

/-! ## rte_ip_frag_table_iterate: what one call touches -/

/-- What `ip_frag_tbl_del` leaves alone: the layout fields of the table,
every slot other than the one deleted, and the LRU membership of every
other slot. -/
theorem ip_frag_tbl_del_frame (t : rte_ip_frag_tbl) (d : rte_ip_frag_death_row) (i : Nat) :
    (ip_frag_tbl_del t d i).1.bucket_entries = t.bucket_entries ∧
    (ip_frag_tbl_del t d i).1.nb_entries = t.nb_entries ∧
    (ip_frag_tbl_del t d i).1.nb_buckets = t.nb_buckets ∧
    (ip_frag_tbl_del t d i).1.entry_mask = t.entry_mask ∧
    (ip_frag_tbl_del t d i).1.max_entries = t.max_entries ∧
    (ip_frag_tbl_del t d i).1.max_cycles = t.max_cycles ∧
    ∀ idx, idx ≠ i → (ip_frag_tbl_del t d i).1.pkt[idx]? = t.pkt[idx]? ∧
      (idx ∈ (ip_frag_tbl_del t d i).1.lru ↔ idx ∈ t.lru) := by
  unfold ip_frag_tbl_del
  simp only
  refine ⟨trivial, trivial, trivial, trivial, trivial, trivial, ?_⟩
  intro idx hne
  exact ⟨List.getElem?_set_ne (Ne.symm hne), List.mem_erase_of_ne hne⟩

theorem iterate_body_frame (base cur_tsc : Nat) (s : sweep_state) (i : Nat) :
    (iterate_body base cur_tsc s i).examined = s.examined ++ [base + i] ∧
    (iterate_body base cur_tsc s i).tbl.bucket_entries = s.tbl.bucket_entries ∧
    (iterate_body base cur_tsc s i).tbl.nb_entries = s.tbl.nb_entries ∧
    (iterate_body base cur_tsc s i).tbl.nb_buckets = s.tbl.nb_buckets ∧
    (iterate_body base cur_tsc s i).tbl.entry_mask = s.tbl.entry_mask ∧
    (iterate_body base cur_tsc s i).tbl.max_entries = s.tbl.max_entries ∧
    (iterate_body base cur_tsc s i).tbl.max_cycles = s.tbl.max_cycles ∧
    (∀ idx, idx ≠ base + i →
      (iterate_body base cur_tsc s i).tbl.pkt[idx]? = s.tbl.pkt[idx]? ∧
      (idx ∈ (iterate_body base cur_tsc s i).tbl.lru ↔ idx ∈ s.tbl.lru)) ∧
    (∀ idx ∈ (iterate_body base cur_tsc s i).deleted, idx ∈ s.deleted ∨ idx = base + i) := by
  unfold iterate_body
  simp only
  split
  · obtain ⟨h1, h2, h3, h4, h5, h6, h7⟩ := ip_frag_tbl_del_frame s.tbl s.dr (base + i)
    refine ⟨rfl, h1, h2, h3, h4, h5, h6, h7, ?_⟩
    intro idx hidx
    simp only [List.mem_append, List.mem_singleton] at hidx
    exact hidx
  · refine ⟨rfl, rfl, rfl, rfl, rfl, rfl, rfl, fun _ _ => ⟨rfl, Iff.rfl⟩, ?_⟩
    intro idx hidx
    exact Or.inl hidx

theorem iterate_loop_frame (base cur_tsc : Nat) (l : List Nat) (s : sweep_state) :
    (l.foldl (iterate_body base cur_tsc) s).examined =
      s.examined ++ l.map (fun i => base + i) ∧
    (l.foldl (iterate_body base cur_tsc) s).tbl.bucket_entries = s.tbl.bucket_entries ∧
    (l.foldl (iterate_body base cur_tsc) s).tbl.nb_entries = s.tbl.nb_entries ∧
    (l.foldl (iterate_body base cur_tsc) s).tbl.nb_buckets = s.tbl.nb_buckets ∧
    (l.foldl (iterate_body base cur_tsc) s).tbl.entry_mask = s.tbl.entry_mask ∧
    (l.foldl (iterate_body base cur_tsc) s).tbl.max_entries = s.tbl.max_entries ∧
    (l.foldl (iterate_body base cur_tsc) s).tbl.max_cycles = s.tbl.max_cycles ∧
    (∀ idx, (∀ i ∈ l, idx ≠ base + i) →
      (l.foldl (iterate_body base cur_tsc) s).tbl.pkt[idx]? = s.tbl.pkt[idx]? ∧
      (idx ∈ (l.foldl (iterate_body base cur_tsc) s).tbl.lru ↔ idx ∈ s.tbl.lru)) ∧
    (∀ idx ∈ (l.foldl (iterate_body base cur_tsc) s).deleted,
      idx ∈ s.deleted ∨ ∃ i ∈ l, idx = base + i) := by
  induction l generalizing s with
  | nil =>
    refine ⟨by simp, rfl, rfl, rfl, rfl, rfl, rfl, fun _ _ => ⟨rfl, Iff.rfl⟩, ?_⟩
    intro idx hidx
    exact Or.inl hidx
  | cons a l ih =>
    obtain ⟨b1, b2, b3, b4, b5, b6, b7, b8, b9⟩ := iterate_body_frame base cur_tsc s a
    obtain ⟨i1, i2, i3, i4, i5, i6, i7, i8, i9⟩ := ih (iterate_body base cur_tsc s a)
    simp only [List.foldl_cons]
    refine ⟨?_, i2.trans b2, i3.trans b3, i4.trans b4, i5.trans b5, i6.trans b6,
      i7.trans b7, ?_, ?_⟩
    · rw [i1, b1]; simp
    · intro idx hidx
      have hl : ∀ i ∈ l, idx ≠ base + i := fun i hi => hidx i (List.mem_cons_of_mem _ hi)
      have ha : idx ≠ base + a := hidx a (List.mem_cons_self _ _)
      obtain ⟨p1, p2⟩ := i8 idx hl
      obtain ⟨q1, q2⟩ := b8 idx ha
      exact ⟨p1.trans q1, p2.trans q2⟩
    · intro idx hidx
      rcases i9 idx hidx with h | ⟨i, hi, e⟩
      · rcases b9 idx h with h | h
        · exact Or.inl h
        · exact Or.inr ⟨a, List.mem_cons_self _ _, h⟩
      · exact Or.inr ⟨i, List.mem_cons_of_mem _ hi, e⟩

/-- The result of `rte_ip_frag_table_iterate` on a cursor that passes the
range check. -/
theorem iterate_accept (t : rte_ip_frag_tbl) (d : rte_ip_frag_death_row) (c cur_tsc : Nat)
    (h : (c * t.bucket_entries) % 2 ^ 32 < t.nb_entries) :
    rte_ip_frag_table_iterate (some t) (some d) (some c) cur_tsc =
      let s := (List.range t.bucket_entries).foldl
        (iterate_body ((c * t.bucket_entries) % 2 ^ 32) cur_tsc)
        { tbl := t, dr := d, examined := [], deleted := [] }
      { ret := 0, tbl := some s.tbl, dr := some s.dr,
        next := some (if (((c + 1) % 2 ^ 32) * s.tbl.bucket_entries) % 2 ^ 32 = s.tbl.nb_entries
          then 0 else (c + 1) % 2 ^ 32),
        examined := s.examined, deleted := s.deleted } := by
  unfold rte_ip_frag_table_iterate
  simp only
  rw [if_neg (by omega)]

/-! ## Claims about rte_ip_frag_table_iterate -/

/-- C9: for a cursor `c` with `c * bucket_entries < nb_entries`, one call of
`rte_ip_frag_table_iterate` reads the slots `c * bucket_entries`,
`c * bucket_entries + 1`, ..., one after the other, `bucket_entries` of them,
each once, and no slot outside `[c * bucket_entries, (c + 1) *
bucket_entries)`; it deletes only slots of that run; every slot outside the
run keeps its content (key, time stamp, fragments) and its place on or off
the LRU list. -/
theorem iterate_touches_one_bucket (t : rte_ip_frag_tbl) (d : rte_ip_frag_death_row)
    (c cur_tsc : Nat) (hnb : t.nb_entries < 2 ^ 32)
    (hc : c * t.bucket_entries < t.nb_entries) :
    (rte_ip_frag_table_iterate (some t) (some d) (some c) cur_tsc).examined =
      (List.range t.bucket_entries).map (fun i => c * t.bucket_entries + i) ∧
    (∀ idx, idx ∈ (rte_ip_frag_table_iterate (some t) (some d) (some c) cur_tsc).examined ↔
      c * t.bucket_entries ≤ idx ∧ idx < (c + 1) * t.bucket_entries) ∧
    (rte_ip_frag_table_iterate (some t) (some d) (some c) cur_tsc).examined.length =
      t.bucket_entries ∧
    (rte_ip_frag_table_iterate (some t) (some d) (some c) cur_tsc).examined.Nodup ∧
    (∀ idx ∈ (rte_ip_frag_table_iterate (some t) (some d) (some c) cur_tsc).deleted,
      c * t.bucket_entries ≤ idx ∧ idx < (c + 1) * t.bucket_entries) ∧
    ∃ t1, (rte_ip_frag_table_iterate (some t) (some d) (some c) cur_tsc).tbl = some t1 ∧
      ∀ idx, ¬ (c * t.bucket_entries ≤ idx ∧ idx < (c + 1) * t.bucket_entries) →
        t1.pkt[idx]? = t.pkt[idx]? ∧ (idx ∈ t1.lru ↔ idx ∈ t.lru) := by
  have hwrap : (c * t.bucket_entries) % 2 ^ 32 = c * t.bucket_entries :=
    Nat.mod_eq_of_lt (lt_trans hc hnb)
  have hacc := iterate_accept t d c cur_tsc (by rw [hwrap]; exact hc)
  rw [hwrap] at hacc
  obtain ⟨f1, _, _, _, _, _, _, f8, f9⟩ := iterate_loop_frame (c * t.bucket_entries) cur_tsc
    (List.range t.bucket_entries) { tbl := t, dr := d, examined := [], deleted := [] }
  have hex : (rte_ip_frag_table_iterate (some t) (some d) (some c) cur_tsc).examined =
      (List.range t.bucket_entries).map (fun i => c * t.bucket_entries + i) := by
    rw [hacc]
    simpa using f1
  have hmem : ∀ idx, idx ∈ (List.range t.bucket_entries).map
      (fun i => c * t.bucket_entries + i) ↔
      c * t.bucket_entries ≤ idx ∧ idx < (c + 1) * t.bucket_entries := by
    intro idx
    rw [List.mem_map, Nat.add_mul, Nat.one_mul]
    constructor
    · rintro ⟨i, hi, rfl⟩
      rw [List.mem_range] at hi
      omega
    · rintro ⟨h1, h2⟩
      exact ⟨idx - c * t.bucket_entries, List.mem_range.mpr (by omega), by omega⟩
  refine ⟨hex, ?_, ?_, ?_, ?_, ?_⟩
  · intro idx
    rw [hex]; exact hmem idx
  · rw [hex, List.length_map, List.length_range]
  · rw [hex]
    exact (List.nodup_range _).map (fun a b hab => by simpa using hab)
  · intro idx hidx
    rw [hacc] at hidx
    rcases f9 idx hidx with h | ⟨i, hi, e⟩
    · simp at h
    · exact (hmem idx).mp (List.mem_map.mpr ⟨i, hi, e.symm⟩)
  · rw [hacc]
    refine ⟨_, rfl, ?_⟩
    intro idx hout
    apply f8 idx
    intro i hi e
    exact hout ((hmem idx).mp (List.mem_map.mpr ⟨i, hi, e.symm⟩))

theorem iterate_touches_one_bucket_witness :
    (rte_ip_frag_table_iterate (some demo_tbl) (some demo_dr) (some 1) 200).examined =
      [4, 5, 6, 7] ∧
    ∃ t1, (rte_ip_frag_table_iterate (some demo_tbl) (some demo_dr) (some 1) 200).tbl = some t1 ∧
      t1.pkt[9]? = demo_tbl.pkt[9]? ∧ (9 ∈ t1.lru ↔ 9 ∈ demo_tbl.lru) :=
  ⟨(iterate_touches_one_bucket demo_tbl demo_dr 1 200 (by decide) (by decide)).1,
   (iterate_touches_one_bucket demo_tbl demo_dr 1 200 (by decide) (by decide)).2.2.2.2.2.imp
     (fun _ h => ⟨h.1, h.2 9 (by decide)⟩)⟩

/-- C10: let `t` have the layout (`bucket_entries`, `nb_entries`) of a table
returned by `rte_ip_frag_table_create`, and let `c` be a valid cursor,
`c < nb_entries / bucket_entries`. Then `rte_ip_frag_table_iterate` returns
`0` and leaves the cursor at `c + 1`, or at `0` when `c` was the last bucket:
at `(c + 1) mod (nb_entries / bucket_entries)`, again a valid cursor. -/
theorem iterate_advances_cursor (env : alloc_env)
    (bucket_num bucket_entries max_entries max_cycles : Nat) (socket_id : Int)
    (t0 t : rte_ip_frag_tbl) (d : rte_ip_frag_death_row) (c cur_tsc : Nat)
    (hbn : bucket_num < 2 ^ 32) (hbe : bucket_entries < 2 ^ 32)
    (hcreate : (rte_ip_frag_table_create env bucket_num bucket_entries max_entries max_cycles
      socket_id).tbl = some t0)
    (hlay_be : t.bucket_entries = t0.bucket_entries) (hlay_nb : t.nb_entries = t0.nb_entries)
    (hc : c < t.nb_entries / t.bucket_entries) :
    (rte_ip_frag_table_iterate (some t) (some d) (some c) cur_tsc).ret = 0 ∧
    (rte_ip_frag_table_iterate (some t) (some d) (some c) cur_tsc).next =
      some (if c + 1 = t.nb_entries / t.bucket_entries then 0 else c + 1) ∧
    (rte_ip_frag_table_iterate (some t) (some d) (some c) cur_tsc).next =
      some ((c + 1) % (t.nb_entries / t.bucket_entries)) ∧
    (c + 1) % (t.nb_entries / t.bucket_entries) < t.nb_entries / t.bucket_entries := by
  obtain ⟨e, _, _, _, a, b, hab, _, hb, hnb⟩ := create_layout hbn hbe hcreate
  subst e
  have hlt : 2 ^ (a + b + 1) < 2 ^ 32 := Nat.pow_lt_pow_right (by decide) (by omega)
  have hpb : 0 < 2 ^ b := Nat.pow_pos (by decide)
  have hsplit : (2 : Nat) ^ (a + b + 1) = 2 ^ (a + 1) * 2 ^ b := by
    rw [← pow_add]; congr 1; omega
  have hbe2 : t.bucket_entries = 2 ^ b := by rw [hlay_be]; exact hb
  have hnb2 : t.nb_entries = 2 ^ (a + 1) * 2 ^ b := by
    rw [hlay_nb]
    show create_nb_entries bucket_num bucket_entries % 2 ^ 32 = _
    rw [hnb, Nat.mod_eq_of_lt hlt, hsplit]
  have hN : t.nb_entries / t.bucket_entries = 2 ^ (a + 1) := by
    rw [hnb2, hbe2, Nat.mul_div_cancel _ hpb]
  rw [hN] at hc ⊢
  have hnblt : t.nb_entries < 2 ^ 32 := by rw [hnb2, ← hsplit]; exact hlt
  have hcb : c * t.bucket_entries < t.nb_entries := by
    rw [hnb2, hbe2]
    exact Nat.mul_lt_mul_of_pos_right hc hpb
  have hc1b : (c + 1) * t.bucket_entries ≤ t.nb_entries := by
    rw [hnb2, hbe2]
    exact Nat.mul_le_mul_right _ hc
  have hc1 : (c + 1) % 2 ^ 32 = c + 1 := by
    apply Nat.mod_eq_of_lt
    have hpa : 2 ^ (a + 1) ≤ 2 ^ 31 := Nat.pow_le_pow_right (by decide) (by omega)
    have : (2 : Nat) ^ 31 < 2 ^ 32 := by norm_num
    omega
  have hacc := iterate_accept t d c cur_tsc
    (by rw [Nat.mod_eq_of_lt (lt_trans hcb hnblt)]; exact hcb)
  obtain ⟨_, f2, f3, _⟩ := iterate_loop_frame ((c * t.bucket_entries) % 2 ^ 32) cur_tsc
    (List.range t.bucket_entries) { tbl := t, dr := d, examined := [], deleted := [] }
  have hnext : (rte_ip_frag_table_iterate (some t) (some d) (some c) cur_tsc).next =
      some (if c + 1 = 2 ^ (a + 1) then 0 else c + 1) := by
    rw [hacc]
    simp only [f2, f3, hc1]
    rw [Nat.mod_eq_of_lt (lt_of_le_of_lt hc1b hnblt)]
    congr 1
    by_cases hlast : c + 1 = 2 ^ (a + 1)
    · rw [if_pos hlast, if_pos (by rw [hlast, hnb2, hbe2])]
    · rw [if_neg hlast, if_neg]
      intro heq
      rw [hnb2, hbe2] at heq
      exact hlast (Nat.eq_of_mul_eq_mul_right hpb heq)
  have hmod : (c + 1) % 2 ^ (a + 1) = if c + 1 = 2 ^ (a + 1) then 0 else c + 1 := by
    by_cases hlast : c + 1 = 2 ^ (a + 1)
    · rw [if_pos hlast, hlast, Nat.mod_self]
    · rw [if_neg hlast, Nat.mod_eq_of_lt (by omega)]
  refine ⟨?_, hnext, ?_, Nat.mod_lt _ (Nat.pow_pos (by decide))⟩
  · rw [hacc]
  · rw [hnext, hmod]

theorem iterate_advances_cursor_witness :
    ((rte_ip_frag_table_iterate (some demo_tbl) (some demo_dr) (some 1) 200).ret = 0 ∧
      (rte_ip_frag_table_iterate (some demo_tbl) (some demo_dr) (some 1) 200).next = some 2) ∧
    ((rte_ip_frag_table_iterate (some demo_tbl) (some demo_dr) (some 3) 200).ret = 0 ∧
      (rte_ip_frag_table_iterate (some demo_tbl) (some demo_dr) (some 3) 200).next = some 0) :=
  ⟨⟨(iterate_advances_cursor env_ok 2 4 8 100 0 _ demo_tbl demo_dr 1 200 (by norm_num)
        (by norm_num) create_two_four rfl rfl (by decide)).1,
     (iterate_advances_cursor env_ok 2 4 8 100 0 _ demo_tbl demo_dr 1 200 (by norm_num)
        (by norm_num) create_two_four rfl rfl (by decide)).2.1⟩,
   ⟨(iterate_advances_cursor env_ok 2 4 8 100 0 _ demo_tbl demo_dr 3 200 (by norm_num)
        (by norm_num) create_two_four rfl rfl (by decide)).1,
     (iterate_advances_cursor env_ok 2 4 8 100 0 _ demo_tbl demo_dr 3 200 (by norm_num)
        (by norm_num) create_two_four rfl rfl (by decide)).2.1⟩⟩

/-! ## rte_ip_frag_free_death_row: the calls made -/

theorem sub32_of_le {a b : Nat} (hba : b ≤ a) (ha : a < 2 ^ 32) : sub32 a b = a - b := by
  unfold sub32
  rw [Nat.mod_eq_of_lt ha, Nat.mod_eq_of_lt (lt_of_le_of_lt hba ha), if_pos hba]

theorem flatMap_congr_mem {α β : Type} {f g : α → List β} (l : List α)
    (h : ∀ x ∈ l, f x = g x) : l.flatMap f = l.flatMap g := by
  induction l with
  | nil => simp
  | cons a l ih =>
    rw [List.flatMap_cons, List.flatMap_cons, h a (List.mem_cons_self _ _),
      ih (fun x hx => h x (List.mem_cons_of_mem _ hx))]

/-- A counting loop that starts at or below its stop value leaves with the
counter at the stop value, after one pass for each value in between. -/
theorem loop_until_spec (body : Nat → List mbuf_event) (fuel i stop : Nat)
    (ev : List mbuf_event) (hle : i ≤ stop) (hstop : stop < 2 ^ 32) (hfuel : stop - i < fuel) :
    loop_until body fuel i stop ev =
      some (stop, ev ++ (List.range' i (stop - i)).flatMap body) := by
  induction fuel generalizing i ev with
  | zero => omega
  | succ fuel ih =>
    unfold loop_until
    by_cases heq : i = stop
    · subst heq
      simp
    · rw [if_neg heq]
      have hlt : i < stop := lt_of_le_of_ne hle heq
      have hmod : (i + 1) % 2 ^ 32 = i + 1 := Nat.mod_eq_of_lt (by omega)
      rw [hmod, ih (i + 1) (ev ++ body i) hlt (by omega)]
      have hlen : stop - i = (stop - (i + 1)) + 1 := by omega
      rw [hlen, List.range'_succ, List.flatMap_cons, List.append_assoc]

/-- The calls `rte_ip_frag_free_death_row` makes, loop by loop, with
`k = min prefetch cnt`: `k` prefetches, then `cnt - k` passes that prefetch
`row[i + k]` and free `row[i]`, then the last `k` frees. -/
theorem drain_events (dr : rte_ip_frag_death_row) (prefetch : Nat) (hcnt : dr.cnt < 2 ^ 32) :
    rte_ip_frag_free_death_row dr prefetch = some
      { dr := { dr with cnt := 0 },
        events :=
          (List.range' 0 (min prefetch dr.cnt)).flatMap
            (fun i => [mbuf_event.prefetch i (dr.row.getD i 0)]) ++
          (List.range' 0 (dr.cnt - min prefetch dr.cnt)).flatMap
            (fun i => [mbuf_event.prefetch (i + min prefetch dr.cnt)
                (dr.row.getD (i + min prefetch dr.cnt) 0),
              mbuf_event.free i (dr.row.getD i 0)]) ++
          (List.range' (dr.cnt - min prefetch dr.cnt) (min prefetch dr.cnt)).flatMap
            (fun i => [mbuf_event.free i (dr.row.getD i 0)]) } := by
  have hk : min prefetch dr.cnt ≤ dr.cnt := Nat.min_le_right _ _
  have hfuel : ∀ m, m ≤ dr.cnt → m < LOOP_FUEL := by
    intro m hm
    unfold LOOP_FUEL
    omega
  unfold rte_ip_frag_free_death_row
  simp only
  rw [loop_until_spec _ LOOP_FUEL 0 (min prefetch dr.cnt) [] (Nat.zero_le _) (by omega)
    (hfuel _ (by omega))]
  simp only
  rw [sub32_of_le hk hcnt]
  rw [loop_until_spec _ LOOP_FUEL 0 (dr.cnt - min prefetch dr.cnt) _ (Nat.zero_le _) (by omega)
    (hfuel _ (by omega))]
  simp only
  rw [loop_until_spec _ LOOP_FUEL (dr.cnt - min prefetch dr.cnt) dr.cnt _ (Nat.sub_le _ _) hcnt
    (hfuel _ (by omega))]
  simp only [Nat.sub_zero, List.nil_append]
  have hlast : dr.cnt - (dr.cnt - min prefetch dr.cnt) = min prefetch dr.cnt := by omega
  rw [hlast]
  have hmid : (List.range' 0 (dr.cnt - min prefetch dr.cnt)).flatMap
      (fun i => [mbuf_event.prefetch ((i + min prefetch dr.cnt) % 2 ^ 32)
          (dr.row.getD ((i + min prefetch dr.cnt) % 2 ^ 32) 0),
        mbuf_event.free i (dr.row.getD i 0)]) =
      (List.range' 0 (dr.cnt - min prefetch dr.cnt)).flatMap
      (fun i => [mbuf_event.prefetch (i + min prefetch dr.cnt)
          (dr.row.getD (i + min prefetch dr.cnt) 0),
        mbuf_event.free i (dr.row.getD i 0)]) := by
    apply flatMap_congr_mem
    intro i hi
    rw [List.mem_range'_1] at hi
    have : (i + min prefetch dr.cnt) % 2 ^ 32 = i + min prefetch dr.cnt :=
      Nat.mod_eq_of_lt (by omega)
    simp only [this]
  rw [hmid]

theorem freed_handles_append (a b : List mbuf_event) :
    freed_handles (a ++ b) = freed_handles a ++ freed_handles b := by
  unfold freed_handles
  rw [List.filterMap_append]

theorem freed_handles_prefetches (l : List Nat) (p q : Nat → Nat) :
    freed_handles (l.flatMap (fun i => [mbuf_event.prefetch (p i) (q i)])) = [] := by
  induction l with
  | nil => rfl
  | cons a l ih =>
    rw [List.flatMap_cons, freed_handles_append, ih]
    rfl

theorem freed_handles_pairs (l : List Nat) (p q row : Nat → Nat) :
    freed_handles (l.flatMap
      (fun i => [mbuf_event.prefetch (p i) (q i), mbuf_event.free i (row i)])) =
      l.map (fun i => (i, row i)) := by
  induction l with
  | nil => rfl
  | cons a l ih =>
    rw [List.flatMap_cons, freed_handles_append, ih]
    rfl

theorem freed_handles_frees (l : List Nat) (row : Nat → Nat) :
    freed_handles (l.flatMap (fun i => [mbuf_event.free i (row i)])) =
      l.map (fun i => (i, row i)) := by
  induction l with
  | nil => rfl
  | cons a l ih =>
    rw [List.flatMap_cons, freed_handles_append, ih]
    rfl

/-- C14: for a death row holding `cnt = n` handles and any value of
`prefetch`, `rte_ip_frag_free_death_row` returns (its three loops
terminate), and the calls of `rte_pktmbuf_free` it makes are exactly
`row[0]`, `row[1]`, ..., `row[n - 1]`, in this order, each once; no handle
is read from an index `n` or above. -/
theorem drain_frees_each_once (dr : rte_ip_frag_death_row) (prefetch : Nat)
    (hcnt : dr.cnt < 2 ^ 32) :
    ∃ r, rte_ip_frag_free_death_row dr prefetch = some r ∧
      freed_handles r.events = (List.range dr.cnt).map (fun i => (i, dr.row.getD i 0)) ∧
      ∀ e ∈ r.events, e.index < dr.cnt := by
  have hk : min prefetch dr.cnt ≤ dr.cnt := Nat.min_le_right _ _
  refine ⟨_, drain_events dr prefetch hcnt, ?_, ?_⟩
  · simp only
    rw [freed_handles_append, freed_handles_append,
      freed_handles_prefetches _ (fun i => i) (fun i => dr.row.getD i 0),
      freed_handles_pairs _ (fun i => i + min prefetch dr.cnt)
        (fun i => dr.row.getD (i + min prefetch dr.cnt) 0) (fun i => dr.row.getD i 0),
      freed_handles_frees _ (fun i => dr.row.getD i 0), List.nil_append, ← List.map_append]
    congr 1
    have h := List.range'_append_1 0 (dr.cnt - min prefetch dr.cnt) (min prefetch dr.cnt)
    rw [Nat.zero_add] at h
    rw [h, List.range_eq_range']
    congr 1
    omega
  · intro e he
    simp only [List.mem_append, List.mem_flatMap, List.mem_range'_1, List.mem_cons,
      List.mem_singleton, List.not_mem_nil, or_false] at he
    rcases he with (⟨i, hi, rfl⟩ | ⟨i, hi, rfl | rfl⟩) | ⟨i, hi, rfl⟩
    · show i < dr.cnt
      omega
    · show i + min prefetch dr.cnt < dr.cnt
      omega
    · show i < dr.cnt
      omega
    · show i < dr.cnt
      omega

theorem drain_frees_each_once_witness :
    ∃ r, rte_ip_frag_free_death_row demo_dr3 2 = some r ∧
      freed_handles r.events = [(0, 77), (1, 78), (2, 79)] ∧
      ∀ e ∈ r.events, e.index < 3 :=
  drain_frees_each_once demo_dr3 2 (by decide)

/-- C15: a call of `rte_ip_frag_free_death_row` leaves `cnt = 0`, and a
second call right after it, with any value of `prefetch`, frees nothing,
prefetches nothing and returns the death row as it found it. -/
theorem drain_twice (dr : rte_ip_frag_death_row) (prefetch prefetch2 : Nat)
    (hcnt : dr.cnt < 2 ^ 32) :
    ∃ r, rte_ip_frag_free_death_row dr prefetch = some r ∧ r.dr.cnt = 0 ∧
      rte_ip_frag_free_death_row r.dr prefetch2 = some { dr := r.dr, events := [] } := by
  refine ⟨_, drain_events dr prefetch hcnt, rfl, ?_⟩
  rw [drain_events _ prefetch2 (by show 0 < 2 ^ 32; norm_num)]
  simp

theorem drain_twice_witness :
    ∃ r, rte_ip_frag_free_death_row demo_dr3 2 = some r ∧ r.dr.cnt = 0 ∧
      rte_ip_frag_free_death_row r.dr 7 = some { dr := r.dr, events := [] } :=
  drain_twice demo_dr3 2 7 (by decide)

/-! ## Claims about rte_ip_frag_table_statistics_dump -/

theorem sub64_add (a b : Nat) (hab : b ≤ a) (ha : a < 2 ^ 64) : a = b + sub64 a b := by
  unfold sub64
  rw [Nat.mod_eq_of_lt ha, Nat.mod_eq_of_lt (lt_of_le_of_lt hab ha), if_pos hab]
  omega

theorem sub64_add_mod (a b : Nat) : (b + sub64 a b) % 2 ^ 64 = a % 2 ^ 64 := by
  unfold sub64
  have ha : a % 2 ^ 64 < 2 ^ 64 := Nat.mod_lt _ (by norm_num)
  have hb : b % 2 ^ 64 < 2 ^ 64 := Nat.mod_lt _ (by norm_num)
  have hbd := Nat.div_add_mod b (2 ^ 64)
  split
  · rename_i h
    have e : b + (a % 2 ^ 64 - b % 2 ^ 64) = a % 2 ^ 64 + 2 ^ 64 * (b / 2 ^ 64) := by omega
    rw [e, Nat.add_mul_mod_self_left, Nat.mod_mod]
  · rename_i h
    have e : b + (2 ^ 64 - (b % 2 ^ 64 - a % 2 ^ 64)) =
        a % 2 ^ 64 + 2 ^ 64 * (b / 2 ^ 64 + 1) := by
      rw [Nat.mul_add]
      omega
    rw [e, Nat.add_mul_mod_self_left, Nat.mod_mod]

/-- C16: the last three lines `rte_ip_frag_table_statistics_dump` writes are
the total add failures `fail_total`, the no-space failures `fail_nospace`
and the collision failures, computed as `fail_total - fail_nospace` in
64-bit unsigned arithmetic. So total = no-space + collisions holds modulo
`2 ^ 64` for every table, and over the natural numbers whenever
`fail_nospace <= fail_total`. -/
theorem dump_failures_add_up (f : List (String × Nat)) (tbl : rte_ip_frag_tbl) :
    ∃ head total nospace collisions,
      (rte_ip_frag_table_statistics_dump f tbl).1 =
        f ++ head ++ [("total add failures", total), ("add no-space failures", nospace),
          ("add hash-collisions failures", collisions)] ∧
      head.length = 6 ∧
      total = tbl.stat.fail_total ∧ nospace = tbl.stat.fail_nospace ∧
      collisions = sub64 total nospace ∧
      (nospace + collisions) % 2 ^ 64 = total % 2 ^ 64 ∧
      (nospace ≤ total → total < 2 ^ 64 → total = nospace + collisions) := by
  refine ⟨[("max entries", tbl.max_entries), ("entries in use", tbl.use_entries),
      ("finds/inserts", tbl.stat.find_num), ("entries added", tbl.stat.add_num),
      ("entries deleted by timeout", tbl.stat.del_num),
      ("entries reused by timeout", tbl.stat.reuse_num)],
    tbl.stat.fail_total, tbl.stat.fail_nospace,
    sub64 tbl.stat.fail_total tbl.stat.fail_nospace, ?_, rfl, rfl, rfl, rfl,
    sub64_add_mod _ _, fun h1 h2 => sub64_add _ _ h1 h2⟩
  unfold rte_ip_frag_table_statistics_dump
  simp

/-- C17: `rte_ip_frag_table_statistics_dump` leaves the table as it is, and
appends to the file, in this order, `max_entries`, `use_entries`,
`find_num`, `add_num`, `del_num`, `reuse_num`, `fail_total`, `fail_nospace`
and the collision count; two tables that agree on these fields yield the
same lines. -/
theorem dump_read_only (f : List (String × Nat)) (tbl : rte_ip_frag_tbl) :
    (rte_ip_frag_table_statistics_dump f tbl).2 = tbl ∧
    ((rte_ip_frag_table_statistics_dump f tbl).1.drop f.length).map Prod.snd =
      [tbl.max_entries, tbl.use_entries, tbl.stat.find_num, tbl.stat.add_num,
        tbl.stat.del_num, tbl.stat.reuse_num, tbl.stat.fail_total, tbl.stat.fail_nospace,
        sub64 tbl.stat.fail_total tbl.stat.fail_nospace] ∧
    ((rte_ip_frag_table_statistics_dump f tbl).1.take f.length = f) ∧
    ∀ tbl2 : rte_ip_frag_tbl, tbl2.max_entries = tbl.max_entries →
      tbl2.use_entries = tbl.use_entries → tbl2.stat.find_num = tbl.stat.find_num →
      tbl2.stat.add_num = tbl.stat.add_num → tbl2.stat.del_num = tbl.stat.del_num →
      tbl2.stat.reuse_num = tbl.stat.reuse_num → tbl2.stat.fail_total = tbl.stat.fail_total →
      tbl2.stat.fail_nospace = tbl.stat.fail_nospace →
      (rte_ip_frag_table_statistics_dump f tbl2).1 =
        (rte_ip_frag_table_statistics_dump f tbl).1 := by
  refine ⟨rfl, ?_, ?_, ?_⟩
  · unfold rte_ip_frag_table_statistics_dump
    simp
  · unfold rte_ip_frag_table_statistics_dump
    simp
  · intro tbl2 h1 h2 h3 h4 h5 h6 h7 h8
    unfold rte_ip_frag_table_statistics_dump
    simp only [h1, h2, h3, h4, h5, h6, h7, h8]

theorem dump_failures_add_up_witness :
    ∃ head total nospace collisions,
      (rte_ip_frag_table_statistics_dump []
        { demo_tbl with stat := { zero_stat with fail_total := 5, fail_nospace := 2 } }).1 =
        [] ++ head ++ [("total add failures", total), ("add no-space failures", nospace),
          ("add hash-collisions failures", collisions)] ∧
      head.length = 6 ∧ total = 5 ∧ nospace = 2 ∧ collisions = sub64 total nospace ∧
      (nospace + collisions) % 2 ^ 64 = total % 2 ^ 64 ∧
      (nospace ≤ total → total < 2 ^ 64 → total = nospace + collisions) :=
  dump_failures_add_up []
    { demo_tbl with stat := { zero_stat with fail_total := 5, fail_nospace := 2 } }

theorem dump_read_only_witness :
    (rte_ip_frag_table_statistics_dump [] demo_tbl).2 = demo_tbl ∧
    (rte_ip_frag_table_statistics_dump [] demo_tbl).1.map Prod.snd =
      [8, 2, 3, 2, 0, 0, 0, 0, 0] ∧
    (rte_ip_frag_table_statistics_dump [] { demo_tbl with lru := [], max_cycles := 7 }).1 =
      (rte_ip_frag_table_statistics_dump [] demo_tbl).1 :=
  ⟨(dump_read_only [] demo_tbl).1, (dump_read_only [] demo_tbl).2.1,
   (dump_read_only [] demo_tbl).2.2.2 { demo_tbl with lru := [], max_cycles := 7 }
     rfl rfl rfl rfl rfl rfl rfl rfl⟩

/-! ## rte_ip_frag_table_iterate: which slots are deleted -/

theorem getD_set_ne {α : Type} (l : List α) (i j : Nat) (a d : α) (h : i ≠ j) :
    (l.set i a).getD j d = l.getD j d := by
  rw [List.getD_eq_getElem?_getD, List.getD_eq_getElem?_getD, List.getElem?_set_ne h]

/-- The delete operation keeps the time stamp of every slot, the deleted
one included. -/
theorem ip_frag_tbl_del_start (t : rte_ip_frag_tbl) (d : rte_ip_frag_death_row)
    (j idx : Nat) :
    ((ip_frag_tbl_del t d j).1.pkt.getD idx zero_pkt).start =
      (t.pkt.getD idx zero_pkt).start := by
  unfold ip_frag_tbl_del
  simp only
  by_cases h : j = idx
  · subst h
    by_cases hlen : j < t.pkt.length
    · rw [List.getD_eq_getElem?_getD, List.getElem?_set_self hlen]
      rfl
    · rw [List.set_eq_of_length_le (Nat.le_of_not_lt hlen)]
  · rw [getD_set_ne _ _ _ _ _ h]

theorem slot_expired_del (t : rte_ip_frag_tbl) (d : rte_ip_frag_death_row)
    (j cur_tsc idx : Nat) :
    slot_expired (ip_frag_tbl_del t d j).1 cur_tsc idx = slot_expired t cur_tsc idx := by
  unfold slot_expired
  rw [ip_frag_tbl_del_start, (ip_frag_tbl_del_frame t d j).2.2.2.2.2.1]

theorem iterate_body_expired (base cur_tsc : Nat) (s : sweep_state) (i : Nat)
    (h : slot_expired s.tbl cur_tsc (base + i) = true) :
    (iterate_body base cur_tsc s i).deleted = s.deleted ++ [base + i] ∧
    (iterate_body base cur_tsc s i).tbl = (ip_frag_tbl_del s.tbl s.dr (base + i)).1 ∧
    (iterate_body base cur_tsc s i).dr = (ip_frag_tbl_del s.tbl s.dr (base + i)).2 := by
  unfold slot_expired at h
  rw [decide_eq_true_eq] at h
  unfold iterate_body
  simp only
  rw [if_pos h]
  exact ⟨rfl, rfl, rfl⟩

theorem iterate_body_fresh (base cur_tsc : Nat) (s : sweep_state) (i : Nat)
    (h : slot_expired s.tbl cur_tsc (base + i) = false) :
    (iterate_body base cur_tsc s i).deleted = s.deleted ∧
    (iterate_body base cur_tsc s i).tbl = s.tbl ∧
    (iterate_body base cur_tsc s i).dr = s.dr := by
  unfold slot_expired at h
  rw [decide_eq_false_iff_not] at h
  unfold iterate_body
  simp only
  rw [if_neg h]
  exact ⟨rfl, rfl, rfl⟩

theorem slot_expired_del_all (slots : List Nat) (t : rte_ip_frag_tbl)
    (d : rte_ip_frag_death_row) (cur_tsc idx : Nat) :
    slot_expired (del_all t d slots).1 cur_tsc idx = slot_expired t cur_tsc idx := by
  induction slots generalizing t d with
  | nil => rfl
  | cons a l ih =>
    show slot_expired (del_all (ip_frag_tbl_del t d a).1 (ip_frag_tbl_del t d a).2 l).1
      cur_tsc idx = _
    rw [ih, slot_expired_del]

/-- The loop of `rte_ip_frag_table_iterate` hands to the delete operation
exactly the slots that pass the test of line 112, in loop order, and its
effect on the table and the death row is that of these deletions. -/
theorem iterate_loop_deleted (base cur_tsc : Nat) (l : List Nat) (s : sweep_state) :
    (l.foldl (iterate_body base cur_tsc) s).deleted =
      s.deleted ++ (l.filter (fun i => slot_expired s.tbl cur_tsc (base + i))).map
        (fun i => base + i) ∧
    ((l.foldl (iterate_body base cur_tsc) s).tbl, (l.foldl (iterate_body base cur_tsc) s).dr) =
      del_all s.tbl s.dr ((l.filter (fun i => slot_expired s.tbl cur_tsc (base + i))).map
        (fun i => base + i)) := by
  induction l generalizing s with
  | nil => exact ⟨by simp, rfl⟩
  | cons a l ih =>
    rw [List.foldl_cons]
    obtain ⟨ih1, ih2⟩ := ih (iterate_body base cur_tsc s a)
    cases hexp : slot_expired s.tbl cur_tsc (base + a) with
    | true =>
      obtain ⟨b1, b2, b3⟩ := iterate_body_expired base cur_tsc s a hexp
      have hf : (fun i => slot_expired (iterate_body base cur_tsc s a).tbl cur_tsc (base + i)) =
          (fun i => slot_expired s.tbl cur_tsc (base + i)) := by
        funext i
        rw [b2, slot_expired_del]
      rw [hf] at ih1 ih2
      rw [List.filter_cons, hexp, if_pos rfl, List.map_cons]
      refine ⟨?_, ?_⟩
      · rw [ih1, b1, List.append_assoc]; rfl
      · rw [ih2, b2, b3]; rfl
    | false =>
      obtain ⟨b1, b2, b3⟩ := iterate_body_fresh base cur_tsc s a hexp
      rw [b2] at ih1 ih2
      rw [List.filter_cons, hexp, if_neg (by decide)]
      refine ⟨?_, ?_⟩
      · rw [ih1, b1]
      · rw [ih2, b3]

/-- C12: let slot `c * bucket_entries + i` of the swept bucket have creation
time `start`, with `start <= now` and `start + max_cycles < 2 ^ 64`. Then
`rte_ip_frag_table_iterate` passes the slot to `ip_frag_tbl_del` exactly
when `now - start > max_cycles`; a slot whose age equals `max_cycles` is
kept. -/
theorem iterate_eviction_criterion (t : rte_ip_frag_tbl) (d : rte_ip_frag_death_row)
    (c cur_tsc i : Nat) (hnb : t.nb_entries < 2 ^ 32)
    (hc : c * t.bucket_entries < t.nb_entries) (hi : i < t.bucket_entries)
    (hstart : (t.pkt.getD (c * t.bucket_entries + i) zero_pkt).start ≤ cur_tsc)
    (hsum : (t.pkt.getD (c * t.bucket_entries + i) zero_pkt).start + t.max_cycles < 2 ^ 64) :
    (c * t.bucket_entries + i ∈
        (rte_ip_frag_table_iterate (some t) (some d) (some c) cur_tsc).deleted ↔
      cur_tsc - (t.pkt.getD (c * t.bucket_entries + i) zero_pkt).start > t.max_cycles) ∧
    (cur_tsc - (t.pkt.getD (c * t.bucket_entries + i) zero_pkt).start = t.max_cycles →
      c * t.bucket_entries + i ∉
        (rte_ip_frag_table_iterate (some t) (some d) (some c) cur_tsc).deleted) := by
  have hwrap : (c * t.bucket_entries) % 2 ^ 32 = c * t.bucket_entries :=
    Nat.mod_eq_of_lt (lt_trans hc hnb)
  have hacc := iterate_accept t d c cur_tsc (by rw [hwrap]; exact hc)
  rw [hwrap] at hacc
  obtain ⟨hdel, _⟩ := iterate_loop_deleted (c * t.bucket_entries) cur_tsc
    (List.range t.bucket_entries) { tbl := t, dr := d, examined := [], deleted := [] }
  have hmem : c * t.bucket_entries + i ∈
      (rte_ip_frag_table_iterate (some t) (some d) (some c) cur_tsc).deleted ↔
      slot_expired t cur_tsc (c * t.bucket_entries + i) = true := by
    rw [hacc]
    simp only [hdel, List.nil_append, List.mem_map, List.mem_filter, List.mem_range]
    constructor
    · rintro ⟨j, ⟨_, hj⟩, e⟩
      have : j = i := by omega
      subst this
      exact hj
    · intro h
      exact ⟨i, ⟨hi, h⟩, rfl⟩
  have hexp : slot_expired t cur_tsc (c * t.bucket_entries + i) = true ↔
      cur_tsc - (t.pkt.getD (c * t.bucket_entries + i) zero_pkt).start > t.max_cycles := by
    unfold slot_expired
    rw [decide_eq_true_eq, Nat.mod_eq_of_lt (by omega)]
    omega
  refine ⟨hmem.trans hexp, ?_⟩
  intro hage hin
  have := (hmem.trans hexp).mp hin
  omega

theorem iterate_eviction_criterion_witness :
    (5 ∈ (rte_ip_frag_table_iterate (some demo_tbl) (some demo_dr) (some 1) 111).deleted ↔
      111 - 10 > 100) ∧
    (110 - 10 = 100 →
      5 ∉ (rte_ip_frag_table_iterate (some demo_tbl) (some demo_dr) (some 1) 110).deleted) :=
  ⟨(iterate_eviction_criterion demo_tbl demo_dr 1 111 1 (by decide) (by decide) (by decide)
      (by decide) (by decide)).1,
   (iterate_eviction_criterion demo_tbl demo_dr 1 110 1 (by decide) (by decide) (by decide)
      (by decide) (by decide)).2⟩

/-- C13 fails on the code: with `max_cycles = 2 ^ 64 - 1` the sum
`max_cycles + start` wraps. The live entry of slot 5, created at time 10,
has age 10 at time 20, within its budget, and the sweep deletes it. -/
theorem iterate_evicts_within_budget :
    (demo_tbl_max_budget.pkt.getD 5 zero_pkt).start = 10 ∧
    (demo_tbl_max_budget.pkt.getD 5 zero_pkt).key.key_len = 1 ∧
    demo_tbl_max_budget.max_cycles = 2 ^ 64 - 1 ∧
    10 ≤ 20 ∧ 20 - 10 ≤ demo_tbl_max_budget.max_cycles ∧
    5 ∈ (rte_ip_frag_table_iterate (some demo_tbl_max_budget) (some demo_dr)
      (some 1) 20).deleted := by
  decide

/-! ## Successive calls of rte_ip_frag_table_iterate -/

/-- One call on a table of `N` slot runs (`nb_entries = N * bucket_entries`)
with a cursor below `N`. -/
theorem iterate_valid (t : rte_ip_frag_tbl) (d : rte_ip_frag_death_row) (c cur_tsc N : Nat)
    (hbe : 0 < t.bucket_entries) (hN : t.nb_entries = N * t.bucket_entries)
    (hnb : t.nb_entries < 2 ^ 32) (hc : c < N) :
    (rte_ip_frag_table_iterate (some t) (some d) (some c) cur_tsc).ret = 0 ∧
    (rte_ip_frag_table_iterate (some t) (some d) (some c) cur_tsc).next =
      some (if c + 1 = N then 0 else c + 1) ∧
    (rte_ip_frag_table_iterate (some t) (some d) (some c) cur_tsc).examined =
      List.range' (c * t.bucket_entries) t.bucket_entries ∧
    ∃ t1 d1, (rte_ip_frag_table_iterate (some t) (some d) (some c) cur_tsc).tbl = some t1 ∧
      (rte_ip_frag_table_iterate (some t) (some d) (some c) cur_tsc).dr = some d1 ∧
      t1.bucket_entries = t.bucket_entries ∧ t1.nb_entries = t.nb_entries := by
  have hcb : c * t.bucket_entries < t.nb_entries := by
    rw [hN]; exact Nat.mul_lt_mul_of_pos_right hc hbe
  have hc1b : (c + 1) * t.bucket_entries ≤ t.nb_entries := by
    rw [hN]; exact Nat.mul_le_mul_right _ hc
  have hwrap : (c * t.bucket_entries) % 2 ^ 32 = c * t.bucket_entries :=
    Nat.mod_eq_of_lt (lt_trans hcb hnb)
  have hc1 : (c + 1) % 2 ^ 32 = c + 1 := by
    apply Nat.mod_eq_of_lt
    have : c + 1 ≤ (c + 1) * t.bucket_entries := Nat.le_mul_of_pos_right _ hbe
    omega
  have hacc := iterate_accept t d c cur_tsc (by rw [hwrap]; exact hcb)
  rw [hwrap] at hacc
  obtain ⟨f1, f2, f3, _⟩ := iterate_loop_frame (c * t.bucket_entries) cur_tsc
    (List.range t.bucket_entries) { tbl := t, dr := d, examined := [], deleted := [] }
  rw [hacc]
  refine ⟨rfl, ?_, ?_, _, _, rfl, rfl, f2, f3⟩
  · simp only [f2, f3, hc1]
    rw [Nat.mod_eq_of_lt (lt_of_le_of_lt hc1b hnb)]
    congr 1
    by_cases hlast : c + 1 = N
    · rw [if_pos hlast, if_pos (by rw [hlast, hN])]
    · rw [if_neg hlast, if_neg]
      intro heq
      rw [hN] at heq
      exact hlast (Nat.eq_of_mul_eq_mul_right hbe heq)
  · simp only [f1, List.nil_append]
    rw [List.range'_eq_map_range]

/-- One step of the caller's loop, under the same conditions. -/
theorem sweep_call_valid (s : sweep_run) (cur_tsc N : Nat)
    (hbe : 0 < s.tbl.bucket_entries) (hN : s.tbl.nb_entries = N * s.tbl.bucket_entries)
    (hnb : s.tbl.nb_entries < 2 ^ 32) (hc : s.next < N) :
    (sweep_call s cur_tsc).next = (if s.next + 1 = N then 0 else s.next + 1) ∧
    (sweep_call s cur_tsc).rets = s.rets ++ [0] ∧
    (sweep_call s cur_tsc).cursors = s.cursors ++ [s.next] ∧
    (sweep_call s cur_tsc).examined =
      s.examined ++ List.range' (s.next * s.tbl.bucket_entries) s.tbl.bucket_entries ∧
    (sweep_call s cur_tsc).tbl.bucket_entries = s.tbl.bucket_entries ∧
    (sweep_call s cur_tsc).tbl.nb_entries = s.tbl.nb_entries := by
  obtain ⟨h1, h2, h3, t1, d1, h4, _, h6, h7⟩ :=
    iterate_valid s.tbl s.dr s.next cur_tsc N hbe hN hnb hc
  unfold sweep_call
  simp only [h1, h2, h3, h4, Option.getD_some]
  exact ⟨trivial, trivial, trivial, trivial, h6, h7⟩

/-- A run of `k` calls that starts at cursor `c` and does not pass the last
slot run (`c + k <= N`): every call returns 0, the cursors used are `c`,
`c + 1`, ..., the slots read are those of the `k` runs from run `c` on, in
order, and the cursor ends at `(c + k) mod N`. -/
theorem sweep_fold_valid (tscs : List Nat) (s : sweep_run) (N : Nat)
    (hbe : 0 < s.tbl.bucket_entries) (hN : s.tbl.nb_entries = N * s.tbl.bucket_entries)
    (hnb : s.tbl.nb_entries < 2 ^ 32) (hc : s.next < N) (hk : s.next + tscs.length ≤ N) :
    (tscs.foldl sweep_call s).next = (s.next + tscs.length) % N ∧
    (tscs.foldl sweep_call s).rets = s.rets ++ List.replicate tscs.length 0 ∧
    (tscs.foldl sweep_call s).cursors = s.cursors ++ List.range' s.next tscs.length ∧
    (tscs.foldl sweep_call s).examined =
      s.examined ++ List.range' (s.next * s.tbl.bucket_entries)
        (tscs.length * s.tbl.bucket_entries) ∧
    (tscs.foldl sweep_call s).tbl.bucket_entries = s.tbl.bucket_entries ∧
    (tscs.foldl sweep_call s).tbl.nb_entries = s.tbl.nb_entries := by
  induction tscs generalizing s with
  | nil =>
    simp only [List.foldl_nil, List.length_nil, Nat.add_zero, Nat.zero_mul, List.replicate_zero,
      List.range'_zero, List.append_nil]
    exact ⟨(Nat.mod_eq_of_lt hc).symm, trivial, trivial, trivial, trivial, trivial⟩
  | cons x rest ih =>
    obtain ⟨c1, c2, c3, c4, c5, c6⟩ := sweep_call_valid s x N hbe hN hnb hc
    rw [List.length_cons] at hk
    rw [List.foldl_cons, List.length_cons]
    by_cases hlast : s.next + 1 = N
    · have hrest : rest.length = 0 := by omega
      have hnil : rest = [] := List.length_eq_zero.mp hrest
      subst hnil
      rw [if_pos hlast] at c1
      simp only [List.foldl_nil, List.length_nil, Nat.zero_add, Nat.one_mul]
      refine ⟨?_, c2, ?_, c4, c5, c6⟩
      · rw [c1, hlast, Nat.mod_self]
      · rw [c3]; rfl
    · rw [if_neg hlast] at c1
      obtain ⟨i1, i2, i3, i4, i5, i6⟩ := ih (sweep_call s x) (by rw [c5]; exact hbe)
        (by rw [c5, c6]; exact hN) (by rw [c6]; exact hnb) (by rw [c1]; omega)
        (by rw [c1]; omega)
      refine ⟨?_, ?_, ?_, ?_, i5.trans c5, i6.trans c6⟩
      · rw [i1, c1]; congr 1; omega
      · rw [i2, c2, List.append_assoc]; congr 1
      · rw [i3, c3, c1, List.append_assoc]; congr 1
      · rw [i4, c4, c5, c1, List.append_assoc]
        congr 1
        have e : (s.next + 1) * s.tbl.bucket_entries =
            s.next * s.tbl.bucket_entries + s.tbl.bucket_entries := by ring
        rw [e, List.range'_append_1]
        congr 1
        ring

/-- C11, as the code has it: a table returned by `rte_ip_frag_table_create`
for `bucket_num` buckets has `N = nb_entries / bucket_entries` slot runs,
which is twice `bucket_num` rounded up to a power of two. Starting from
cursor 0, `N` successive calls of `rte_ip_frag_table_iterate` all return 0,
use the cursors `0, 1, ..., N - 1`, read every slot of the table once, in
index order, and leave the cursor at 0. -/
theorem sweep_full_cycle (env : alloc_env)
    (bucket_num bucket_entries max_entries max_cycles : Nat) (socket_id : Int)
    (t0 t : rte_ip_frag_tbl) (d : rte_ip_frag_death_row) (tscs : List Nat)
    (hbn : bucket_num < 2 ^ 32) (hbe : bucket_entries < 2 ^ 32)
    (hcreate : (rte_ip_frag_table_create env bucket_num bucket_entries max_entries max_cycles
      socket_id).tbl = some t0)
    (hlay_be : t.bucket_entries = t0.bucket_entries) (hlay_nb : t.nb_entries = t0.nb_entries)
    (hlen : tscs.length = t.nb_entries / t.bucket_entries) :
    t.nb_entries / t.bucket_entries = 2 * round_up_pow2 bucket_num ∧
    (sweep_calls t d 0 tscs).rets = List.replicate (t.nb_entries / t.bucket_entries) 0 ∧
    (sweep_calls t d 0 tscs).cursors = List.range (t.nb_entries / t.bucket_entries) ∧
    (sweep_calls t d 0 tscs).examined = List.range t.nb_entries ∧
    (sweep_calls t d 0 tscs).next = 0 := by
  obtain ⟨e, hpos, hle, _, a, b, hab, ha, hb, hnb⟩ := create_layout hbn hbe hcreate
  subst e
  have hlt : 2 ^ (a + b + 1) < 2 ^ 32 := Nat.pow_lt_pow_right (by decide) (by omega)
  have hpb : 0 < 2 ^ b := Nat.pow_pos (by decide)
  have hpa : 0 < 2 ^ (a + 1) := Nat.pow_pos (by decide)
  have hsplit : (2 : Nat) ^ (a + b + 1) = 2 ^ (a + 1) * 2 ^ b := by
    rw [← pow_add]; congr 1; omega
  have hbe2 : t.bucket_entries = 2 ^ b := by rw [hlay_be]; exact hb
  have hnb2 : t.nb_entries = 2 ^ (a + 1) * 2 ^ b := by
    rw [hlay_nb]
    show create_nb_entries bucket_num bucket_entries % 2 ^ 32 = _
    rw [hnb, Nat.mod_eq_of_lt hlt, hsplit]
  have hN : t.nb_entries / t.bucket_entries = 2 ^ (a + 1) := by
    rw [hnb2, hbe2, Nat.mul_div_cancel _ hpb]
  have hnblt : t.nb_entries < 2 ^ 32 := by rw [hnb2, ← hsplit]; exact hlt
  rw [hN] at hlen ⊢
  obtain ⟨s1, s2, s3, s4, _, _⟩ := sweep_fold_valid tscs
    { tbl := t, dr := d, next := 0, rets := [], cursors := [], examined := [] } (2 ^ (a + 1))
    (by rw [hbe2]; exact hpb) (by rw [hnb2, hbe2]) hnblt hpa (by simp only [Nat.zero_add]; omega)
  unfold sweep_calls
  simp only [Nat.zero_add, Nat.zero_mul, List.nil_append, hlen] at s1 s2 s3 s4
  refine ⟨?_, s2, ?_, ?_, ?_⟩
  · rw [← rte_align32pow2_round_up hpos hle, ha, pow_succ]
    ring
  · rw [s3, List.range_eq_range']
  · rw [s4, List.range_eq_range', hnb2, hbe2]
  · rw [s1, Nat.mod_self]

theorem sweep_full_cycle_witness :
    demo_tbl.nb_entries / demo_tbl.bucket_entries = 2 * round_up_pow2 2 ∧
    (sweep_calls demo_tbl demo_dr 0 [50, 60, 70, 80]).rets = [0, 0, 0, 0] ∧
    (sweep_calls demo_tbl demo_dr 0 [50, 60, 70, 80]).cursors = [0, 1, 2, 3] ∧
    (sweep_calls demo_tbl demo_dr 0 [50, 60, 70, 80]).examined = List.range 16 ∧
    (sweep_calls demo_tbl demo_dr 0 [50, 60, 70, 80]).next = 0 :=
  sweep_full_cycle env_ok 2 4 8 100 0 _ demo_tbl demo_dr [50, 60, 70, 80] (by norm_num)
    (by norm_num) create_two_four rfl rfl (by decide)

/-- C11 as stated fails: the table of `create(2, 4, 8, 100)` has
`bucket_count = 2`, and two calls from cursor 0 use the cursors 0 and 1,
leave the cursor at 2 and have not read slot 8. -/
theorem sweep_bucket_count_calls_fall_short :
    ∃ t, (rte_ip_frag_table_create env_ok 2 4 8 100 0).tbl = some t ∧
      (sweep_calls t demo_dr 0 [0, 0]).cursors = [0, 1] ∧
      (sweep_calls t demo_dr 0 [0, 0]).next = 2 ∧
      8 ∉ (sweep_calls t demo_dr 0 [0, 0]).examined :=
  ⟨created_tbl 2 4 8 100, create_two_four, by decide, by decide, by decide⟩

/-- C20: `rte_ip_frag_table_iterate`, whatever it is passed along with the
table and whatever it returns, and `rte_ip_frag_table_statistics_dump` leave
`nb_entries`, `nb_buckets`, `bucket_entries`, `entry_mask`, `max_entries`
and `max_cycles` of the table as they were. -/
theorem layout_immutable (t : rte_ip_frag_tbl) (d : Option rte_ip_frag_death_row)
    (next : Option Nat) (cur_tsc : Nat) (f : List (String × Nat)) :
    (∃ t1, (rte_ip_frag_table_iterate (some t) d next cur_tsc).tbl = some t1 ∧
      same_layout t1 t) ∧
    same_layout (rte_ip_frag_table_statistics_dump f t).2 t := by
  have hrefl : same_layout t t := ⟨rfl, rfl, rfl, rfl, rfl, rfl⟩
  refine ⟨?_, hrefl⟩
  cases d with
  | none => exact ⟨t, rfl, hrefl⟩
  | some d =>
    cases next with
    | none => exact ⟨t, rfl, hrefl⟩
    | some c =>
      by_cases hchk : (c * t.bucket_entries) % 2 ^ 32 < t.nb_entries
      · rw [iterate_accept t d c cur_tsc hchk]
        obtain ⟨_, f2, f3, f4, f5, f6, f7, _⟩ :=
          iterate_loop_frame ((c * t.bucket_entries) % 2 ^ 32) cur_tsc
            (List.range t.bucket_entries) { tbl := t, dr := d, examined := [], deleted := [] }
        exact ⟨_, rfl, f3, f4, f2, f5, f6, f7⟩
      · refine ⟨t, ?_, hrefl⟩
        unfold rte_ip_frag_table_iterate
        simp only
        rw [if_pos (by omega)]

/-! ## rte_ip_frag_table_destroy: the calls made -/

theorem released_slots_append (a b : List destroy_event) :
    released_slots (a ++ b) = released_slots a ++ released_slots b := by
  unfold released_slots
  rw [List.filterMap_append]

/-- The loop of `rte_ip_frag_table_destroy` writes slots only: the LRU
list, the counters and the layout stay as they are. -/
theorem destroy_fold_frame (l : List Nat) (s : destroy_result) :
    (l.foldl destroy_body s).tbl.lru = s.tbl.lru ∧
    (l.foldl destroy_body s).tbl.stat = s.tbl.stat ∧
    (l.foldl destroy_body s).tbl.use_entries = s.tbl.use_entries ∧
    same_layout (l.foldl destroy_body s).tbl s.tbl := by
  induction l generalizing s with
  | nil => exact ⟨rfl, rfl, rfl, rfl, rfl, rfl, rfl, rfl, rfl⟩
  | cons a l ih =>
    obtain ⟨h1, h2, h3, h4, h5, h6, h7, h8, h9⟩ := ih (destroy_body s a)
    rw [List.foldl_cons]
    exact ⟨h1, h2, h3, h4, h5, h6, h7, h8, h9⟩

/-- The loop of `rte_ip_frag_table_destroy` calls `ip_frag_free_immediate`
once for each slot of the list it walks, in order, and nothing else. -/
theorem destroy_fold_slots (l : List Nat) (s : destroy_result) :
    ∃ evs, (l.foldl destroy_body s).events = s.events ++ evs ∧ released_slots evs = l ∧
      ∀ e ∈ evs, e ≠ destroy_event.rte_free_tbl := by
  induction l generalizing s with
  | nil => exact ⟨[], by simp, rfl, by simp⟩
  | cons a l ih =>
    obtain ⟨evs, h1, h2, h3⟩ := ih (destroy_body s a)
    refine ⟨destroy_event.free_immediate a
      (ip_frag_free_immediate (s.tbl.pkt.getD a zero_pkt)).2 :: evs, ?_, ?_, ?_⟩
    · rw [List.foldl_cons, h1]
      show s.events ++ [_] ++ evs = _
      rw [List.append_assoc]; rfl
    · show a :: released_slots evs = a :: l
      rw [h2]
    · intro e he
      rcases List.mem_cons.mp he with rfl | he
      · intro h; cases h
      · exact h3 e he

/-- When no slot occurs twice in the list walked, each call of
`ip_frag_free_immediate` releases the handles the slot held on entry. -/
theorem destroy_fold_events (l : List Nat) (s : destroy_result) (hnd : l.Nodup) :
    (l.foldl destroy_body s).events = s.events ++ l.map (fun idx =>
      destroy_event.free_immediate idx
        ((s.tbl.pkt.getD idx zero_pkt).frags.map (fun f => f.mb))) := by
  induction l generalizing s with
  | nil => simp
  | cons a l ih =>
    rw [List.nodup_cons] at hnd
    rw [List.foldl_cons, ih (destroy_body s a) hnd.2, List.map_cons]
    show s.events ++ [_] ++ _ = _
    rw [List.append_assoc]
    congr 1
    show _ :: _ = _ :: _
    congr 1
    apply List.map_congr_left
    intro idx hidx
    have hne : a ≠ idx := fun h => hnd.1 (h ▸ hidx)
    show destroy_event.free_immediate idx
      ((((s.tbl.pkt.set a _).getD idx zero_pkt)).frags.map (fun f => f.mb)) = _
    rw [getD_set_ne _ _ _ _ _ hne]

/-- C18: `rte_ip_frag_table_destroy` applies `ip_frag_free_immediate` once
to each slot on the LRU list, in list order, and to no other slot, and then
hands the table to `rte_free`, once, as its last call. When the LRU list
names no slot twice, each of these calls releases the handles its slot held.
For a table with an empty LRU list the only call is `rte_free` and no buffer
is released. -/
theorem destroy_releases_lru_entries (t : rte_ip_frag_tbl) :
    released_slots (rte_ip_frag_table_destroy t).events = t.lru ∧
    (∃ evs, (rte_ip_frag_table_destroy t).events = evs ++ [destroy_event.rte_free_tbl] ∧
      ∀ e ∈ evs, e ≠ destroy_event.rte_free_tbl) ∧
    (t.lru.Nodup → (rte_ip_frag_table_destroy t).events =
      t.lru.map (fun idx => destroy_event.free_immediate idx
        ((t.pkt.getD idx zero_pkt).frags.map (fun f => f.mb))) ++
      [destroy_event.rte_free_tbl]) ∧
    (t.lru = [] → (rte_ip_frag_table_destroy t).events = [destroy_event.rte_free_tbl] ∧
      released_handles (rte_ip_frag_table_destroy t).events = []) := by
  obtain ⟨evs, h1, h2, h3⟩ := destroy_fold_slots t.lru { tbl := t, events := [] }
  have hev : (rte_ip_frag_table_destroy t).events = evs ++ [destroy_event.rte_free_tbl] := by
    unfold rte_ip_frag_table_destroy
    simp only [h1, List.nil_append]
  refine ⟨?_, ⟨evs, hev, h3⟩, ?_, ?_⟩
  · rw [hev, released_slots_append, h2]
    show t.lru ++ [] = t.lru
    rw [List.append_nil]
  · intro hnd
    unfold rte_ip_frag_table_destroy
    simp only [destroy_fold_events t.lru { tbl := t, events := [] } hnd, List.nil_append]
  · intro hnil
    have : (rte_ip_frag_table_destroy t).events = [destroy_event.rte_free_tbl] := by
      unfold rte_ip_frag_table_destroy
      rw [hnil]
      rfl
    rw [this]
    exact ⟨rfl, rfl⟩

theorem destroy_releases_lru_entries_witness :
    released_slots (rte_ip_frag_table_destroy demo_tbl).events = [5, 9] ∧
    (rte_ip_frag_table_destroy demo_tbl).events =
      [destroy_event.free_immediate 5 [77], destroy_event.free_immediate 9 [78, 79],
        destroy_event.rte_free_tbl] ∧
    (rte_ip_frag_table_destroy (created_tbl 2 4 8 100)).events = [destroy_event.rte_free_tbl] ∧
    released_handles (rte_ip_frag_table_destroy (created_tbl 2 4 8 100)).events = [] :=
  ⟨(destroy_releases_lru_entries demo_tbl).1,
   (destroy_releases_lru_entries demo_tbl).2.2.1 (by decide),
   (destroy_releases_lru_entries (created_tbl 2 4 8 100)).2.2.2 rfl⟩

/-- C19, as the code has it. Sweep: the effect of
`rte_ip_frag_table_iterate` on the table and the death row is that of
`ip_frag_tbl_del` applied to the slots it evicts, in order.
`ip_frag_tbl_del` takes the slot off the LRU list, adds one to the delete
counter, appends the handles of the slot to the death row and leaves the
slot without key and without fragments. Destroy does not use it:
`rte_ip_frag_table_destroy` calls `ip_frag_free_immediate` on each slot of
the LRU list and leaves the LRU list, the counters and the count of live
entries as they are. -/
theorem destruction_paths (t : rte_ip_frag_tbl) (d : rte_ip_frag_death_row)
    (c cur_tsc : Nat) :
    (∃ t1 d1, (rte_ip_frag_table_iterate (some t) (some d) (some c) cur_tsc).tbl = some t1 ∧
      (rte_ip_frag_table_iterate (some t) (some d) (some c) cur_tsc).dr = some d1 ∧
      (t1, d1) = del_all t d
        (rte_ip_frag_table_iterate (some t) (some d) (some c) cur_tsc).deleted) ∧
    (∀ idx, (ip_frag_tbl_del t d idx).1.lru = t.lru.erase idx ∧
      (t.lru.Nodup → idx ∉ (ip_frag_tbl_del t d idx).1.lru) ∧
      (ip_frag_tbl_del t d idx).1.stat.del_num = (t.stat.del_num + 1) % 2 ^ 64 ∧
      (ip_frag_tbl_del t d idx).2.row =
        d.row.take d.cnt ++ (t.pkt.getD idx zero_pkt).frags.map (fun f => f.mb) ++
          d.row.drop (d.cnt + (t.pkt.getD idx zero_pkt).frags.length) ∧
      (ip_frag_tbl_del t d idx).2.cnt =
        (d.cnt + (t.pkt.getD idx zero_pkt).frags.length) % 2 ^ 32 ∧
      (idx < t.pkt.length →
        ((ip_frag_tbl_del t d idx).1.pkt.getD idx zero_pkt).frags = [] ∧
        ((ip_frag_tbl_del t d idx).1.pkt.getD idx zero_pkt).key.key_len = 0)) ∧
    ((rte_ip_frag_table_destroy t).tbl.lru = t.lru ∧
      (rte_ip_frag_table_destroy t).tbl.stat = t.stat ∧
      (rte_ip_frag_table_destroy t).tbl.use_entries = t.use_entries ∧
      released_slots (rte_ip_frag_table_destroy t).events = t.lru) := by
  refine ⟨?_, ?_, ?_⟩
  · by_cases hchk : (c * t.bucket_entries) % 2 ^ 32 < t.nb_entries
    · rw [iterate_accept t d c cur_tsc hchk]
      obtain ⟨h1, h2⟩ := iterate_loop_deleted ((c * t.bucket_entries) % 2 ^ 32) cur_tsc
        (List.range t.bucket_entries) { tbl := t, dr := d, examined := [], deleted := [] }
      refine ⟨_, _, rfl, rfl, ?_⟩
      simp only [h1, List.nil_append]
      exact h2
    · refine ⟨t, d, ?_, ?_, ?_⟩
      · unfold rte_ip_frag_table_iterate
        simp only
        rw [if_pos (by omega)]
      · unfold rte_ip_frag_table_iterate
        simp only
        rw [if_pos (by omega)]
      · unfold rte_ip_frag_table_iterate
        simp only
        rw [if_pos (by omega)]
        rfl
  · intro idx
    refine ⟨rfl, fun hnd => ?_, rfl, ?_, ?_, ?_⟩
    · show idx ∉ t.lru.erase idx
      exact hnd.not_mem_erase
    · unfold ip_frag_tbl_del ip_frag_free
      simp only [List.length_map]
    · unfold ip_frag_tbl_del ip_frag_free
      simp only [List.length_map]
    · intro hlen
      unfold ip_frag_tbl_del ip_frag_free
      simp only
      rw [List.getD_eq_getElem?_getD, List.getElem?_set_self hlen]
      exact ⟨rfl, rfl⟩
  · obtain ⟨h1, h2, h3, _⟩ := destroy_fold_frame t.lru { tbl := t, events := [] }
    obtain ⟨evs, e1, e2, _⟩ := destroy_fold_slots t.lru { tbl := t, events := [] }
    refine ⟨h1, h2, h3, ?_⟩
    unfold rte_ip_frag_table_destroy
    simp only [e1, List.nil_append]
    rw [released_slots_append, e2]
    show t.lru ++ [] = t.lru
    rw [List.append_nil]

/-- C19 as stated fails for destroy: on the table `demo_tbl`, whose live
entries sit in slots 5 and 9, `rte_ip_frag_table_destroy` releases the
buffers 77, 78 and 79 on the spot and leaves the delete counter at 0 and both
slots on the LRU list, where two calls of `ip_frag_tbl_del` would have left
the counter at 2, the LRU list empty and three handles on the death row. -/
theorem destroy_bypasses_delete :
    (rte_ip_frag_table_destroy demo_tbl).events =
      [destroy_event.free_immediate 5 [77], destroy_event.free_immediate 9 [78, 79],
        destroy_event.rte_free_tbl] ∧
    (rte_ip_frag_table_destroy demo_tbl).tbl.stat.del_num = 0 ∧
    (rte_ip_frag_table_destroy demo_tbl).tbl.lru = [5, 9] ∧
    (del_all demo_tbl demo_dr [5, 9]).1.stat.del_num = 2 ∧
    (del_all demo_tbl demo_dr [5, 9]).1.lru = [] ∧
    (del_all demo_tbl demo_dr [5, 9]).2.cnt = 3 := by
  decide

/-! ## Claims about the argument checks of rte_ip_frag_table_iterate -/

/-- C26: when the table, the death row or the cursor reference is `NULL`,
`rte_ip_frag_table_iterate` returns `-EINVAL`, reads no slot, deletes
nothing and leaves all three arguments, the cursor included, as they
were. -/
theorem iterate_null_argument (tbl : Option rte_ip_frag_tbl)
    (dr : Option rte_ip_frag_death_row) (next : Option Nat) (cur_tsc : Nat)
    (h : tbl = none ∨ dr = none ∨ next = none) :
    rte_ip_frag_table_iterate tbl dr next cur_tsc =
      { ret := -EINVAL, tbl := tbl, dr := dr, next := next, examined := [], deleted := [] } := by
  cases tbl with
  | none => rfl
  | some t =>
    cases dr with
    | none => rfl
    | some d =>
      cases next with
      | none => rfl
      | some c =>
        rcases h with h | h | h <;> cases h

theorem iterate_null_argument_witness :
    rte_ip_frag_table_iterate (some demo_tbl) none (some 1) 200 =
      { ret := -22, tbl := some demo_tbl, dr := none, next := some 1,
        examined := [], deleted := [] } :=
  iterate_null_argument (some demo_tbl) none (some 1) 200 (Or.inr (Or.inl rfl))

/-- C25 fails on the code: the table of `create(2, 4, 8, 100)` has 4 slot
runs, and the cursor `2 ^ 30` is out of range, but `2 ^ 30 * 4` is `0` in
32-bit arithmetic, so the range check passes: the call returns 0, reads
slots 0 to 3 and moves the cursor to `2 ^ 30 + 1`. -/
theorem iterate_accepts_wrapped_cursor :
    ∃ t, (rte_ip_frag_table_create env_ok 2 4 8 100 0).tbl = some t ∧
      t.nb_entries / t.bucket_entries = 4 ∧ 4 ≤ 2 ^ 30 ∧ 2 ^ 30 < 2 ^ 32 ∧
      (rte_ip_frag_table_iterate (some t) (some demo_dr) (some (2 ^ 30)) 50).ret = 0 ∧
      (rte_ip_frag_table_iterate (some t) (some demo_dr) (some (2 ^ 30)) 50).next =
        some (2 ^ 30 + 1) ∧
      (rte_ip_frag_table_iterate (some t) (some demo_dr) (some (2 ^ 30)) 50).examined =
        [0, 1, 2, 3] :=
  ⟨created_tbl 2 4 8 100, create_two_four, by decide, by decide, by decide, by decide,
    by decide, by decide⟩

/-- C24 fails on the code: in the table of `create(2, 4, 8, 100)` every
slot is empty and both counters are 0. A sweep of bucket 0 at time 200, past
`max_cycles = 100`, hands all four empty slots to `ip_frag_tbl_del`: the
delete counter becomes 4 and `use_entries` wraps to `2 ^ 32 - 4`. -/
theorem iterate_deletes_empty_slots :
    ∃ t t1, (rte_ip_frag_table_create env_ok 2 4 8 100 0).tbl = some t ∧
      (∀ p ∈ t.pkt, p = zero_pkt) ∧ t.lru = [] ∧ t.use_entries = 0 ∧ t.stat.del_num = 0 ∧
      (rte_ip_frag_table_iterate (some t) (some demo_dr) (some 0) 200).tbl = some t1 ∧
      (rte_ip_frag_table_iterate (some t) (some demo_dr) (some 0) 200).deleted =
        [0, 1, 2, 3] ∧
      t1.use_entries = 2 ^ 32 - 4 ∧ t1.stat.del_num = 4 :=
  ⟨created_tbl 2 4 8 100,
    ((rte_ip_frag_table_iterate (some (created_tbl 2 4 8 100)) (some demo_dr)
      (some 0) 200).tbl.getD (created_tbl 2 4 8 100)),
    create_two_four, by decide, by decide, by decide, by decide, by decide, by decide,
    by decide, by decide⟩

/-! ## A sweep that wraps around the end of the table -/

/-- A cursor outside the table whose 32-bit product with `bucket_entries`
does not wrap is rejected, and nothing is changed. -/
theorem iterate_rejects_unwrapped_cursor (t : rte_ip_frag_tbl) (d : rte_ip_frag_death_row)
    (c cur_tsc : Nat) (hout : t.nb_entries ≤ c * t.bucket_entries)
    (hwrap : c * t.bucket_entries < 2 ^ 32) :
    rte_ip_frag_table_iterate (some t) (some d) (some c) cur_tsc =
      { ret := -EINVAL, tbl := some t, dr := some d, next := some c,
        examined := [], deleted := [] } := by
  unfold rte_ip_frag_table_iterate
  simp only
  rw [if_pos (by rw [Nat.mod_eq_of_lt hwrap]; exact hout)]

theorem nodup_range'_wrap (c a b m : Nat) (hb : b ≤ c) :
    (List.range' (c * m) (a * m) ++ List.range' 0 (b * m)).Nodup := by
  apply List.Nodup.append (List.nodup_range' _ _) (List.nodup_range' _ _)
  intro x h1 h2
  rw [List.mem_range'_1] at h1 h2
  have : b * m ≤ c * m := Nat.mul_le_mul_right _ hb
  omega

/-- A run of `k <= N` calls from a valid cursor `c`: the cursors used are
`c, ..., N - 1` followed, once the end of the table is passed, by
`0, 1, ...`; the slots read are those of these slot runs, in this order. -/
theorem sweep_fold_wrap (tscs : List Nat) (s : sweep_run) (N : Nat)
    (hbe : 0 < s.tbl.bucket_entries) (hN : s.tbl.nb_entries = N * s.tbl.bucket_entries)
    (hnb : s.tbl.nb_entries < 2 ^ 32) (hc : s.next < N) (hk : tscs.length ≤ N) :
    (tscs.foldl sweep_call s).next = (s.next + tscs.length) % N ∧
    (tscs.foldl sweep_call s).rets = s.rets ++ List.replicate tscs.length 0 ∧
    (tscs.foldl sweep_call s).cursors =
      s.cursors ++ (List.range' s.next (min tscs.length (N - s.next)) ++
        List.range' 0 (tscs.length - (N - s.next))) ∧
    (tscs.foldl sweep_call s).examined =
      s.examined ++ (List.range' (s.next * s.tbl.bucket_entries)
          (min tscs.length (N - s.next) * s.tbl.bucket_entries) ++
        List.range' 0 ((tscs.length - (N - s.next)) * s.tbl.bucket_entries)) := by
  by_cases hfit : s.next + tscs.length ≤ N
  · obtain ⟨h1, h2, h3, h4, _, _⟩ := sweep_fold_valid tscs s N hbe hN hnb hc hfit
    have hmin : min tscs.length (N - s.next) = tscs.length := Nat.min_eq_left (by omega)
    have hz : tscs.length - (N - s.next) = 0 := by omega
    rw [hmin, hz, Nat.zero_mul, List.range'_zero, List.append_nil, List.append_nil]
    exact ⟨h1, h2, h3, h4⟩
  · have hsplit : tscs = tscs.take (N - s.next) ++ tscs.drop (N - s.next) :=
      (List.take_append_drop _ _).symm
    have hl1 : (tscs.take (N - s.next)).length = N - s.next := by
      rw [List.length_take]; exact Nat.min_eq_left (by omega)
    have hl2 : (tscs.drop (N - s.next)).length = tscs.length - (N - s.next) :=
      List.length_drop _ _
    obtain ⟨a1, a2, a3, a4, a5, a6⟩ := sweep_fold_valid (tscs.take (N - s.next)) s N hbe hN hnb
      hc (by rw [hl1]; omega)
    rw [hl1] at a1 a2 a3 a4
    have hzero : ((tscs.take (N - s.next)).foldl sweep_call s).next = 0 := by
      rw [a1]
      have : s.next + (N - s.next) = N := by omega
      rw [this, Nat.mod_self]
    obtain ⟨b1, b2, b3, b4, _, _⟩ := sweep_fold_valid (tscs.drop (N - s.next))
      ((tscs.take (N - s.next)).foldl sweep_call s) N (by rw [a5]; exact hbe)
      (by rw [a5, a6]; exact hN) (by rw [a6]; exact hnb) (by rw [hzero]; omega)
      (by rw [hzero, hl2]; omega)
    rw [hl2] at b1 b2 b3 b4
    rw [hzero] at b1 b3 b4
    have hmin : min tscs.length (N - s.next) = N - s.next := Nat.min_eq_right (by omega)
    rw [hmin]
    have hfold : tscs.foldl sweep_call s =
        (tscs.drop (N - s.next)).foldl sweep_call
          ((tscs.take (N - s.next)).foldl sweep_call s) := by
      rw [← List.foldl_append, List.take_append_drop]
    rw [hfold]
    refine ⟨?_, ?_, ?_, ?_⟩
    · rw [b1, Nat.zero_add]
      have e : s.next + tscs.length = (tscs.length - (N - s.next)) + N := by omega
      rw [e, Nat.add_mod_right]
    · rw [b2, a2, List.append_assoc, ← List.replicate_add]
      congr 2
      omega
    · rw [b3, a3, List.append_assoc]
    · rw [b4, a4, a5, Nat.zero_mul, List.append_assoc]

/-- C22: let `t` have the layout of a table returned by
`rte_ip_frag_table_create`, with `N = nb_entries / bucket_entries` slot
runs, and let `c < N`. Successive calls of `rte_ip_frag_table_iterate`
starting at cursor `c`, at most `N` of them, all return 0 and never use a
cursor twice nor read a slot twice. After exactly `N` calls every bucket has
been swept once, every slot of the table has been read exactly once, and the
cursor is `c` again. -/
theorem sweep_cycle_from_any_cursor (env : alloc_env)
    (bucket_num bucket_entries max_entries max_cycles : Nat) (socket_id : Int)
    (t0 t : rte_ip_frag_tbl) (d : rte_ip_frag_death_row) (c : Nat) (tscs : List Nat)
    (hbn : bucket_num < 2 ^ 32) (hbe : bucket_entries < 2 ^ 32)
    (hcreate : (rte_ip_frag_table_create env bucket_num bucket_entries max_entries max_cycles
      socket_id).tbl = some t0)
    (hlay_be : t.bucket_entries = t0.bucket_entries) (hlay_nb : t.nb_entries = t0.nb_entries)
    (hc : c < t.nb_entries / t.bucket_entries)
    (hlen : tscs.length ≤ t.nb_entries / t.bucket_entries) :
    (sweep_calls t d c tscs).rets = List.replicate tscs.length 0 ∧
    (sweep_calls t d c tscs).cursors.Nodup ∧
    (sweep_calls t d c tscs).examined.Nodup ∧
    (tscs.length = t.nb_entries / t.bucket_entries →
      (sweep_calls t d c tscs).next = c ∧
      (sweep_calls t d c tscs).cursors.Perm (List.range (t.nb_entries / t.bucket_entries)) ∧
      (sweep_calls t d c tscs).examined.Perm (List.range t.nb_entries)) := by
  obtain ⟨e, _, _, _, a, b, hab, _, hb, hnb⟩ := create_layout hbn hbe hcreate
  subst e
  have hlt : 2 ^ (a + b + 1) < 2 ^ 32 := Nat.pow_lt_pow_right (by decide) (by omega)
  have hpb : 0 < 2 ^ b := Nat.pow_pos (by decide)
  have hsplit : (2 : Nat) ^ (a + b + 1) = 2 ^ (a + 1) * 2 ^ b := by
    rw [← pow_add]; congr 1; omega
  have hbe2 : t.bucket_entries = 2 ^ b := by rw [hlay_be]; exact hb
  have hnb2 : t.nb_entries = 2 ^ (a + 1) * 2 ^ b := by
    rw [hlay_nb]
    show create_nb_entries bucket_num bucket_entries % 2 ^ 32 = _
    rw [hnb, Nat.mod_eq_of_lt hlt, hsplit]
  have hN : t.nb_entries / t.bucket_entries = 2 ^ (a + 1) := by
    rw [hnb2, hbe2, Nat.mul_div_cancel _ hpb]
  have hnblt : t.nb_entries < 2 ^ 32 := by rw [hnb2, ← hsplit]; exact hlt
  rw [hN] at hc hlen ⊢
  obtain ⟨s1, s2, s3, s4⟩ := sweep_fold_wrap tscs
    { tbl := t, dr := d, next := c, rets := [], cursors := [], examined := [] } (2 ^ (a + 1))
    (by rw [hbe2]; exact hpb) (by rw [hnb2, hbe2]) hnblt hc hlen
  unfold sweep_calls
  simp only [List.nil_append] at s1 s2 s3 s4
  refine ⟨s2, ?_, ?_, ?_⟩
  · rw [s3]
    have := nodup_range'_wrap c (min tscs.length (2 ^ (a + 1) - c))
      (tscs.length - (2 ^ (a + 1) - c)) 1 (by omega)
    simpa using this
  · rw [s4]
    exact nodup_range'_wrap c _ _ _ (by omega)
  · intro hfull
    have hmin : min tscs.length (2 ^ (a + 1) - c) = 2 ^ (a + 1) - c :=
      Nat.min_eq_right (by omega)
    have hrest : tscs.length - (2 ^ (a + 1) - c) = c := by omega
    rw [hmin, hrest] at s3 s4
    refine ⟨?_, ?_, ?_⟩
    · rw [s1, hfull, Nat.add_mod_right, Nat.mod_eq_of_lt hc]
    · rw [s3]
      have hcat : List.range' 0 c ++ List.range' c (2 ^ (a + 1) - c) =
          List.range (2 ^ (a + 1)) := by
        have h := List.range'_append_1 0 c (2 ^ (a + 1) - c)
        rw [Nat.zero_add] at h
        rw [h, List.range_eq_range']
        congr 1
        omega
      rw [← hcat]
      exact List.perm_append_comm
    · rw [s4]
      have hcat : List.range' 0 (c * t.bucket_entries) ++
          List.range' (c * t.bucket_entries) ((2 ^ (a + 1) - c) * t.bucket_entries) =
          List.range t.nb_entries := by
        have h := List.range'_append_1 0 (c * t.bucket_entries)
          ((2 ^ (a + 1) - c) * t.bucket_entries)
        rw [Nat.zero_add] at h
        rw [h, List.range_eq_range', hnb2, hbe2]
        congr 1
        rw [← Nat.add_mul]
        congr 1
        omega
      rw [← hcat]
      exact List.perm_append_comm

theorem sweep_cycle_from_any_cursor_witness :
    (sweep_calls demo_tbl demo_dr 2 [50, 60, 70, 80]).rets = [0, 0, 0, 0] ∧
    (sweep_calls demo_tbl demo_dr 2 [50, 60, 70, 80]).cursors.Nodup ∧
    (sweep_calls demo_tbl demo_dr 2 [50, 60, 70, 80]).examined.Nodup ∧
    ([50, 60, 70, 80].length = demo_tbl.nb_entries / demo_tbl.bucket_entries →
      (sweep_calls demo_tbl demo_dr 2 [50, 60, 70, 80]).next = 2 ∧
      (sweep_calls demo_tbl demo_dr 2 [50, 60, 70, 80]).cursors.Perm (List.range 4) ∧
      (sweep_calls demo_tbl demo_dr 2 [50, 60, 70, 80]).examined.Perm (List.range 16)) :=
  sweep_cycle_from_any_cursor env_ok 2 4 8 100 0 _ demo_tbl demo_dr 2 [50, 60, 70, 80]
    (by norm_num) (by norm_num) create_two_four rfl rfl (by decide) (by decide)

/-! ## rte_ip_frag_free_death_row: order of prefetch and free -/

theorem prefetched_handles_append (a b : List mbuf_event) :
    prefetched_handles (a ++ b) = prefetched_handles a ++ prefetched_handles b := by
  unfold prefetched_handles
  rw [List.filterMap_append]

theorem prefetched_handles_prefetches (l : List Nat) (row : Nat → Nat) :
    prefetched_handles (l.flatMap (fun i => [mbuf_event.prefetch i (row i)])) =
      l.map (fun i => (i, row i)) := by
  induction l with
  | nil => rfl
  | cons a l ih =>
    rw [List.flatMap_cons, prefetched_handles_append, ih]
    rfl

theorem prefetched_handles_pairs (l : List Nat) (k : Nat) (row : Nat → Nat) :
    prefetched_handles (l.flatMap
      (fun i => [mbuf_event.prefetch (i + k) (row (i + k)), mbuf_event.free i (row i)])) =
      (l.map (fun i => k + i)).map (fun i => (i, row i)) := by
  induction l with
  | nil => rfl
  | cons a l ih =>
    rw [List.flatMap_cons, prefetched_handles_append, ih, List.map_cons, List.map_cons,
      Nat.add_comm k a]
    rfl

theorem prefetched_handles_frees (l : List Nat) (row : Nat → Nat) :
    prefetched_handles (l.flatMap (fun i => [mbuf_event.free i (row i)])) = [] := by
  induction l with
  | nil => rfl
  | cons a l ih =>
    rw [List.flatMap_cons, prefetched_handles_append, ih]
    rfl

theorem range'_split (s n x : Nat) (h1 : s ≤ x) (h2 : x < s + n) :
    List.range' s n = List.range' s (x - s) ++ x :: List.range' (x + 1) (s + n - x - 1) := by
  have h := List.range'_append_1 s (x - s) (s + n - x)
  have e1 : s + (x - s) = x := by omega
  have e2 : s + n - x + (x - s) = n := by omega
  have e3 : s + n - x = (s + n - x - 1) + 1 := by omega
  rw [e1, e2] at h
  rw [← h, e3, List.range'_succ]
  congr 3

/-- The pass of the middle loop for counter `j`, set apart from the passes
before and after it. -/
theorem middle_loop_split (j m k : Nat) (row : Nat → Nat) (hj : j < m) :
    (List.range' 0 m).flatMap
      (fun i => [mbuf_event.prefetch (i + k) (row (i + k)), mbuf_event.free i (row i)]) =
    (List.range' 0 j).flatMap
      (fun i => [mbuf_event.prefetch (i + k) (row (i + k)), mbuf_event.free i (row i)]) ++
    [mbuf_event.prefetch (j + k) (row (j + k)), mbuf_event.free j (row j)] ++
    (List.range' (j + 1) (m - j - 1)).flatMap
      (fun i => [mbuf_event.prefetch (i + k) (row (i + k)), mbuf_event.free i (row i)]) := by
  have h := range'_split 0 m j (Nat.zero_le _) (by omega)
  rw [Nat.sub_zero, Nat.zero_add] at h
  rw [h, List.flatMap_append, List.flatMap_cons, List.append_assoc]

/-- C23: for a death row with `cnt = n` and any value of `prefetch`, the
call prefetches `row[0], ..., row[n - 1]`, each once; for each `i < n` the
prefetch of `row[i]` comes before the free of `row[i]`; and with
`k = min prefetch n`, for each `i < n - k` the prefetch of `row[i + k]` is
the call made right before the free of `row[i]`. -/
theorem drain_prefetch_before_free (dr : rte_ip_frag_death_row) (prefetch : Nat)
    (hcnt : dr.cnt < 2 ^ 32) :
    ∃ r, rte_ip_frag_free_death_row dr prefetch = some r ∧
      prefetched_handles r.events = (List.range dr.cnt).map (fun i => (i, dr.row.getD i 0)) ∧
      (∀ i, i < dr.cnt → ∃ l1 l2, r.events = l1 ++ l2 ∧
        mbuf_event.prefetch i (dr.row.getD i 0) ∈ l1 ∧
        mbuf_event.free i (dr.row.getD i 0) ∈ l2) ∧
      (∀ i, i + min prefetch dr.cnt < dr.cnt → ∃ l1 l2, r.events =
        l1 ++ [mbuf_event.prefetch (i + min prefetch dr.cnt)
            (dr.row.getD (i + min prefetch dr.cnt) 0),
          mbuf_event.free i (dr.row.getD i 0)] ++ l2) := by
  have hk : min prefetch dr.cnt ≤ dr.cnt := Nat.min_le_right _ _
  refine ⟨_, drain_events dr prefetch hcnt, ?_, ?_, ?_⟩
  · simp only
    rw [prefetched_handles_append, prefetched_handles_append,
      prefetched_handles_prefetches _ (fun i => dr.row.getD i 0),
      prefetched_handles_pairs _ (min prefetch dr.cnt) (fun i => dr.row.getD i 0),
      prefetched_handles_frees _ (fun i => dr.row.getD i 0), List.append_nil,
      List.map_add_range', ← List.map_append]
    congr 1
    have h := List.range'_append_1 0 (min prefetch dr.cnt) (dr.cnt - min prefetch dr.cnt)
    rw [Nat.zero_add] at h
    rw [Nat.add_zero, h, List.range_eq_range']
    congr 1
    omega
  · intro i hi
    simp only
    by_cases hik : i < min prefetch dr.cnt
    · refine ⟨_, _, List.append_assoc _ _ _, ?_, ?_⟩
      · rw [List.mem_flatMap]
        exact ⟨i, List.mem_range'_1.mpr ⟨Nat.zero_le _, by omega⟩, List.mem_singleton.mpr rfl⟩
      · rw [List.mem_append]
        by_cases him : i < dr.cnt - min prefetch dr.cnt
        · left
          rw [List.mem_flatMap]
          exact ⟨i, List.mem_range'_1.mpr ⟨Nat.zero_le _, by omega⟩,
            List.mem_cons_of_mem _ (List.mem_singleton.mpr rfl)⟩
        · right
          rw [List.mem_flatMap]
          exact ⟨i, List.mem_range'_1.mpr ⟨by omega, by omega⟩, List.mem_singleton.mpr rfl⟩
    · obtain ⟨j, rfl⟩ : ∃ j, i = j + min prefetch dr.cnt :=
        ⟨i - min prefetch dr.cnt, by omega⟩
      rw [middle_loop_split j (dr.cnt - min prefetch dr.cnt) (min prefetch dr.cnt)
        (fun i => dr.row.getD i 0) (by omega)]
      refine ⟨(List.range' 0 (min prefetch dr.cnt)).flatMap
            (fun i => [mbuf_event.prefetch i (dr.row.getD i 0)]) ++
          (List.range' 0 j).flatMap (fun i =>
            [mbuf_event.prefetch (i + min prefetch dr.cnt)
                (dr.row.getD (i + min prefetch dr.cnt) 0),
              mbuf_event.free i (dr.row.getD i 0)]) ++
          [mbuf_event.prefetch (j + min prefetch dr.cnt)
            (dr.row.getD (j + min prefetch dr.cnt) 0)],
        mbuf_event.free j (dr.row.getD j 0) ::
          ((List.range' (j + 1) (dr.cnt - min prefetch dr.cnt - j - 1)).flatMap (fun i =>
            [mbuf_event.prefetch (i + min prefetch dr.cnt)
                (dr.row.getD (i + min prefetch dr.cnt) 0),
              mbuf_event.free i (dr.row.getD i 0)]) ++
          (List.range' (dr.cnt - min prefetch dr.cnt) (min prefetch dr.cnt)).flatMap
            (fun i => [mbuf_event.free i (dr.row.getD i 0)])), ?_, ?_, ?_⟩
      · simp only [List.append_assoc, List.cons_append, List.nil_append]
      · exact List.mem_append_right _ (List.mem_singleton.mpr rfl)
      · by_cases hk0 : min prefetch dr.cnt = 0
        · rw [hk0, Nat.add_zero]
          exact List.mem_cons_self _ _
        · apply List.mem_cons_of_mem
          rw [List.mem_append]
          by_cases him : j + min prefetch dr.cnt < dr.cnt - min prefetch dr.cnt
          · left
            rw [List.mem_flatMap]
            exact ⟨j + min prefetch dr.cnt, List.mem_range'_1.mpr ⟨by omega, by omega⟩,
              List.mem_cons_of_mem _ (List.mem_singleton.mpr rfl)⟩
          · right
            rw [List.mem_flatMap]
            exact ⟨j + min prefetch dr.cnt, List.mem_range'_1.mpr ⟨by omega, by omega⟩,
              List.mem_singleton.mpr rfl⟩
  · intro i hi
    simp only
    rw [middle_loop_split i (dr.cnt - min prefetch dr.cnt) (min prefetch dr.cnt)
      (fun i => dr.row.getD i 0) (by omega)]
    refine ⟨(List.range' 0 (min prefetch dr.cnt)).flatMap
          (fun i => [mbuf_event.prefetch i (dr.row.getD i 0)]) ++
        (List.range' 0 i).flatMap (fun i =>
          [mbuf_event.prefetch (i + min prefetch dr.cnt)
              (dr.row.getD (i + min prefetch dr.cnt) 0),
            mbuf_event.free i (dr.row.getD i 0)]),
      (List.range' (i + 1) (dr.cnt - min prefetch dr.cnt - i - 1)).flatMap (fun i =>
          [mbuf_event.prefetch (i + min prefetch dr.cnt)
              (dr.row.getD (i + min prefetch dr.cnt) 0),
            mbuf_event.free i (dr.row.getD i 0)]) ++
        (List.range' (dr.cnt - min prefetch dr.cnt) (min prefetch dr.cnt)).flatMap
          (fun i => [mbuf_event.free i (dr.row.getD i 0)]), ?_⟩
    simp only [List.append_assoc]

theorem drain_prefetch_before_free_witness :
    ∃ r, rte_ip_frag_free_death_row demo_dr3 2 = some r ∧
      prefetched_handles r.events = [(0, 77), (1, 78), (2, 79)] ∧
      (∃ l1 l2, r.events = l1 ++ l2 ∧ mbuf_event.prefetch 2 79 ∈ l1 ∧
        mbuf_event.free 2 79 ∈ l2) ∧
      (∃ l1 l2, r.events = l1 ++ [mbuf_event.prefetch 2 79, mbuf_event.free 0 77] ++ l2) :=
  (drain_prefetch_before_free demo_dr3 2 (by decide)).imp
    (fun _ h => ⟨h.1, h.2.1, h.2.2.1 2 (by decide), h.2.2.2 0 (by decide)⟩)

/-! ## One live entry per key -/

theorem getD_of_getElem? {t : rte_ip_frag_tbl} {j : Nat} {q : ip_frag_pkt}
    (h : t.pkt[j]? = some q) : t.pkt.getD j zero_pkt = q := by
  rw [List.getD_eq_getElem?_getD, h]
  rfl

/-- The two invariants pass to a table with the same bucket addressing
whose live entries are all live entries of the first, slot by slot. -/
theorem inv_of_live_sub (hash : ip_frag_key → Nat) (t t1 : rte_ip_frag_tbl)
    (hmask : t1.entry_mask = t.entry_mask) (hbe : t1.bucket_entries = t.bucket_entries)
    (hsub : ∀ (i : Nat) (p : ip_frag_pkt), t1.pkt[i]? = some p → slot_live p = true →
      t.pkt[i]? = some p)
    (h : keys_unique t ∧ in_own_bucket hash t) :
    keys_unique t1 ∧ in_own_bucket hash t1 := by
  refine ⟨?_, ?_⟩
  · intro i j p q hp hq lp lq hk
    exact h.1 i j p q (hsub i p hp lp) (hsub j q hq lq) lp lq hk
  · intro i p hp lp
    rw [hmask, hbe]
    exact h.2 i p (hsub i p hp lp) lp

theorem inv_del (hash : ip_frag_key → Nat) (t : rte_ip_frag_tbl) (d : rte_ip_frag_death_row)
    (idx : Nat) (h : keys_unique t ∧ in_own_bucket hash t) :
    keys_unique (ip_frag_tbl_del t d idx).1 ∧ in_own_bucket hash (ip_frag_tbl_del t d idx).1 := by
  refine inv_of_live_sub hash t _ rfl rfl ?_ h
  intro i p hp lp
  unfold ip_frag_tbl_del at hp
  simp only at hp
  rw [List.getElem?_set] at hp
  by_cases hi : idx = i
  · rw [if_pos hi] at hp
    by_cases hlen : idx < t.pkt.length
    · rw [if_pos hlen] at hp
      have e := Option.some.inj hp
      rw [← e] at lp
      exact absurd lp (by simp [slot_live])
    · rw [if_neg hlen] at hp
      exact absurd hp (by simp)
  · rw [if_neg hi] at hp
    exact hp

theorem inv_del_all (hash : ip_frag_key → Nat) (slots : List Nat) (t : rte_ip_frag_tbl)
    (d : rte_ip_frag_death_row) (h : keys_unique t ∧ in_own_bucket hash t) :
    keys_unique (del_all t d slots).1 ∧ in_own_bucket hash (del_all t d slots).1 := by
  induction slots generalizing t d with
  | nil => exact h
  | cons a l ih =>
    exact ih (ip_frag_tbl_del t d a).1 (ip_frag_tbl_del t d a).2 (inv_del hash t d a h)

/-- Whatever the cursor, the table and the death row after a call of
`rte_ip_frag_table_iterate` are those obtained by deleting the evicted
slots in turn. -/
theorem iterate_eq_del_all (t : rte_ip_frag_tbl) (d : rte_ip_frag_death_row)
    (c cur_tsc : Nat) :
    ((rte_ip_frag_table_iterate (some t) (some d) (some c) cur_tsc).tbl.getD t,
      (rte_ip_frag_table_iterate (some t) (some d) (some c) cur_tsc).dr.getD d) =
    del_all t d (rte_ip_frag_table_iterate (some t) (some d) (some c) cur_tsc).deleted := by
  by_cases hchk : (c * t.bucket_entries) % 2 ^ 32 < t.nb_entries
  · rw [iterate_accept t d c cur_tsc hchk]
    obtain ⟨h1, h2⟩ := iterate_loop_deleted ((c * t.bucket_entries) % 2 ^ 32) cur_tsc
      (List.range t.bucket_entries) { tbl := t, dr := d, examined := [], deleted := [] }
    simp only [h1, List.nil_append, Option.getD_some]
    exact h2
  · unfold rte_ip_frag_table_iterate
    simp only
    rw [if_pos (by omega)]
    rfl

/-- A new entry for `key` written into a slot of the bucket of `key`, when
no live entry of that bucket holds `key`, keeps the two invariants. -/
theorem inv_set_new (hash : ip_frag_key → Nat) (t t1 : rte_ip_frag_tbl)
    (key : ip_frag_key) (now i : Nat)
    (hmask : t1.entry_mask = t.entry_mask) (hbe : t1.bucket_entries = t.bucket_entries)
    (hpkt : t1.pkt = t.pkt.set i (new_entry key now))
    (hrun : (hash key &&& t.entry_mask) ≤ i ∧ i < (hash key &&& t.entry_mask) + t.bucket_entries)
    (hnone : ∀ x ∈ List.range' (hash key &&& t.entry_mask) t.bucket_entries,
      ¬ ((slot_live (t.pkt.getD x zero_pkt) &&
        decide ((t.pkt.getD x zero_pkt).key = key)) = true))
    (h : keys_unique t ∧ in_own_bucket hash t) :
    keys_unique t1 ∧ in_own_bucket hash t1 := by
  have hslot : ∀ (j : Nat) (p : ip_frag_pkt), t1.pkt[j]? = some p →
      (j = i ∧ p = new_entry key now) ∨ (j ≠ i ∧ t.pkt[j]? = some p) := by
    intro j p hp
    rw [hpkt, List.getElem?_set] at hp
    by_cases hj : i = j
    · rw [if_pos hj] at hp
      by_cases hlen : i < t.pkt.length
      · rw [if_pos hlen] at hp
        exact Or.inl ⟨hj.symm, (Option.some.inj hp).symm⟩
      · rw [if_neg hlen] at hp
        exact absurd hp (by simp)
    · rw [if_neg hj] at hp
      exact Or.inr ⟨fun e => hj e.symm, hp⟩
  have hfresh : ∀ (j : Nat) (q : ip_frag_pkt), t.pkt[j]? = some q → slot_live q = true →
      q.key ≠ key := by
    intro j q hq lq hk
    have hb := h.2 j q hq lq
    rw [hk] at hb
    have hx := hnone j (List.mem_range'_1.mpr hb)
    rw [getD_of_getElem? hq, lq, hk] at hx
    simp at hx
  refine ⟨?_, ?_⟩
  · intro a b p q hp hq lp lq hk
    rcases hslot a p hp with ⟨ha, ep⟩ | ⟨ha, hp0⟩
    · rcases hslot b q hq with ⟨hb, _⟩ | ⟨_, hq0⟩
      · rw [ha, hb]
      · exfalso
        apply hfresh b q hq0 lq
        rw [← hk, ep]
        rfl
    · rcases hslot b q hq with ⟨_, eq⟩ | ⟨_, hq0⟩
      · exfalso
        apply hfresh a p hp0 lp
        rw [hk, eq]
        rfl
      · exact h.1 a b p q hp0 hq0 lp lq hk
  · intro a p hp lp
    rw [hmask, hbe]
    rcases hslot a p hp with ⟨ha, ep⟩ | ⟨_, hp0⟩
    · rw [ha, ep]
      exact hrun
    · exact h.2 a p hp0 lp

theorem inv_find_fail (hash : ip_frag_key → Nat) (t : rte_ip_frag_tbl)
    (d : rte_ip_frag_death_row) (h : keys_unique t ∧ in_own_bucket hash t) :
    keys_unique (find_fail t d).tbl ∧ in_own_bucket hash (find_fail t d).tbl := by
  unfold find_fail
  split
  · exact inv_of_live_sub hash t _ rfl rfl (fun _ _ hp _ => hp) h
  · exact inv_of_live_sub hash t _ rfl rfl (fun _ _ hp _ => hp) h

theorem inv_find_or_create (hash : ip_frag_key → Nat) (t : rte_ip_frag_tbl)
    (d : rte_ip_frag_death_row) (key : ip_frag_key) (now : Nat)
    (h : keys_unique t ∧ in_own_bucket hash t) :
    keys_unique (find_or_create hash t d key now).tbl ∧
    in_own_bucket hash (find_or_create hash t d key now).tbl := by
  unfold find_or_create
  simp only
  split
  · exact inv_of_live_sub hash t _ rfl rfl (fun _ _ hp _ => hp) h
  · rename_i hnomatch
    rw [List.find?_eq_none] at hnomatch
    split
    · rename_i i hempty
      have hi := List.mem_range'_1.mp (List.mem_of_find?_eq_some hempty)
      exact inv_set_new hash t _ key now i rfl rfl rfl hi hnomatch h
    · split
      · rename_i j hlru
        have hj := List.find?_some hlru
        rw [decide_eq_true_eq] at hj
        split
        · exact inv_set_new hash t _ key now j rfl rfl rfl (List.mem_range'_1.mp hj) hnomatch h
        · exact inv_find_fail hash t d h
      · exact inv_find_fail hash t d h

theorem inv_apply_op (hash : ip_frag_key → Nat) (s : rte_ip_frag_tbl × rte_ip_frag_death_row)
    (op : table_op) (h : keys_unique s.1 ∧ in_own_bucket hash s.1) :
    keys_unique (apply_op hash s op).1 ∧ in_own_bucket hash (apply_op hash s op).1 := by
  cases op with
  | find_or_create key now => exact inv_find_or_create hash s.1 s.2 key now h
  | delete idx => exact inv_del hash s.1 s.2 idx h
  | sweep cursor now =>
    have e := iterate_eq_del_all s.1 s.2 cursor now
    have h2 := inv_del_all hash
      (rte_ip_frag_table_iterate (some s.1) (some s.2) (some cursor) now).deleted s.1 s.2 h
    rw [← e] at h2
    exact h2

theorem inv_run_ops (hash : ip_frag_key → Nat) (ops : List table_op)
    (s : rte_ip_frag_tbl × rte_ip_frag_death_row)
    (h : keys_unique s.1 ∧ in_own_bucket hash s.1) :
    keys_unique (ops.foldl (apply_op hash) s).1 ∧
    in_own_bucket hash (ops.foldl (apply_op hash) s).1 := by
  induction ops generalizing s with
  | nil => exact h
  | cons op ops ih => exact ih (apply_op hash s op) (inv_apply_op hash s op h)

/-- C21: start from a table returned by `rte_ip_frag_table_create` and
apply any sequence of find-or-create, delete and sweep operations, with any
hash function, keys, times, slots and cursors. In the table reached, two
slots that hold live entries with the same key are the same slot: there is
at most one live entry per key. -/
theorem one_live_entry_per_key (hash : ip_frag_key → Nat) (env : alloc_env)
    (bucket_num bucket_entries max_entries max_cycles : Nat) (socket_id : Int)
    (t0 : rte_ip_frag_tbl) (d : rte_ip_frag_death_row) (ops : List table_op)
    (hcreate : (rte_ip_frag_table_create env bucket_num bucket_entries max_entries max_cycles
      socket_id).tbl = some t0) :
    ∀ (i j : Nat) (p q : ip_frag_pkt), (run_ops hash t0 d ops).1.pkt[i]? = some p →
      (run_ops hash t0 d ops).1.pkt[j]? = some q → p.key.key_len ≠ 0 → q.key.key_len ≠ 0 →
      p.key = q.key → i = j := by
  obtain ⟨_, _, _, _, e⟩ := create_some hcreate
  have hempty : ∀ (i : Nat) (p : ip_frag_pkt), t0.pkt[i]? = some p → slot_live p = true →
      False := by
    intro i p hp lp
    have hmem : p ∈ t0.pkt := List.getElem?_mem hp
    rw [e] at hmem
    have hz := List.eq_of_mem_replicate hmem
    rw [hz] at lp
    exact absurd lp (by decide)
  have hinv : keys_unique t0 ∧ in_own_bucket hash t0 :=
    ⟨fun i _ p _ hp _ lp _ _ => (hempty i p hp lp).elim,
     fun i p hp lp => (hempty i p hp lp).elim⟩
  have hfin := (inv_run_ops hash ops (t0, d) hinv).1
  intro i j p q hp hq lp lq hk
  exact hfin i j p q hp hq (by simpa [slot_live] using lp) (by simpa [slot_live] using lq) hk

theorem one_live_entry_per_key_witness :
    ((run_ops demo_hash (created_tbl 2 4 8 100) demo_dr
      [table_op.find_or_create (demo_key 1) 10, table_op.find_or_create (demo_key 5) 20,
        table_op.find_or_create (demo_key 1) 30, table_op.sweep 1 125,
        table_op.find_or_create (demo_key 1) 130, table_op.delete 5,
        table_op.find_or_create (demo_key 5) 140]).1.pkt.map
      (fun p => (p.key.id, p.key.key_len))).take 6 =
      [(0, 0), (0, 0), (0, 0), (0, 0), (1, 1), (5, 1)] ∧
    ∀ (i j : Nat) (p q : ip_frag_pkt),
      (run_ops demo_hash (created_tbl 2 4 8 100) demo_dr
        [table_op.find_or_create (demo_key 1) 10, table_op.find_or_create (demo_key 5) 20,
          table_op.find_or_create (demo_key 1) 30, table_op.sweep 1 125,
          table_op.find_or_create (demo_key 1) 130, table_op.delete 5,
          table_op.find_or_create (demo_key 5) 140]).1.pkt[i]? = some p →
      (run_ops demo_hash (created_tbl 2 4 8 100) demo_dr
        [table_op.find_or_create (demo_key 1) 10, table_op.find_or_create (demo_key 5) 20,
          table_op.find_or_create (demo_key 1) 30, table_op.sweep 1 125,
          table_op.find_or_create (demo_key 1) 130, table_op.delete 5,
          table_op.find_or_create (demo_key 5) 140]).1.pkt[j]? = some q →
      p.key.key_len ≠ 0 → q.key.key_len ≠ 0 → p.key = q.key → i = j :=
  ⟨by decide, one_live_entry_per_key demo_hash env_ok 2 4 8 100 0 _ demo_dr _ create_two_four⟩

end IpFrag

/-! # Theorems about the txgbe driver -/

namespace Txgbe

set_option maxRecDepth 200000

/-! ## txgbe_vlan_filter_set -/

theorem vid_idx_lt (vlan_id : Nat) : (vlan_id >>> 5) &&& 0x7F < 128 := by
  have h : (vlan_id >>> 5) &&& 0x7F ≤ 0x7F := Nat.and_le_right
  omega

theorem vid_bit_lt (vlan_id : Nat) : vlan_id &&& 0x1F < 32 := by
  have h : vlan_id &&& 0x1F ≤ 0x1F := Nat.and_le_right
  omega

theorem testBit_set_bit (w k b : Nat) :
    (w ||| 2 ^ k).testBit b = (w.testBit b || decide (k = b)) := by
  rw [Nat.testBit_lor, Nat.testBit_two_pow]

theorem testBit_clear_bit (w k b : Nat) (hk : k < 32) (hw : w < 2 ^ 32) :
    (w &&& not32 (2 ^ k)).testBit b = (w.testBit b && !decide (k = b)) := by
  have hlt : 2 ^ k < 2 ^ 32 := Nat.pow_lt_pow_right (by decide) hk
  unfold not32
  rw [Nat.testBit_land, Nat.mod_eq_of_lt hlt, Nat.testBit_two_pow_sub_succ hlt,
    Nat.testBit_two_pow]
  by_cases hb : b < 32
  · simp [hb]
  · have hz : w.testBit b = false :=
      Nat.testBit_lt_two_pow (lt_of_lt_of_le hw (Nat.pow_le_pow_right (by decide) (by omega)))
    simp [hz]

/-- The call, spelled out for a table whose word `vid_idx` is `w0`. -/
theorem vlan_filter_set_eq (s : vlan_state) (vlan_id : Nat) (on_ : Int) (w0 : Nat)
    (hget : s.vlantbl[(vlan_id >>> 5) &&& 0x7F]? = some w0) (hw0 : w0 < 2 ^ 32) :
    txgbe_vlan_filter_set s vlan_id on_ =
      (0, { vlantbl := s.vlantbl.set ((vlan_id >>> 5) &&& 0x7F)
              (if on_ ≠ 0 then w0 ||| 2 ^ (vlan_id &&& 0x1F)
                else w0 &&& not32 (2 ^ (vlan_id &&& 0x1F))),
            shadow_vfta := s.shadow_vfta.set ((vlan_id >>> 5) &&& 0x7F)
              (if on_ ≠ 0 then w0 ||| 2 ^ (vlan_id &&& 0x1F)
                else w0 &&& not32 (2 ^ (vlan_id &&& 0x1F))) }) := by
  have hidx : ((vlan_id >>> 5) &&& 0x7F) % 2 ^ 32 = (vlan_id >>> 5) &&& 0x7F :=
    Nat.mod_eq_of_lt (lt_trans (vid_idx_lt vlan_id) (by norm_num))
  have hbit : (1 <<< (vlan_id &&& 0x1F)) % 2 ^ 32 = 2 ^ (vlan_id &&& 0x1F) := by
    rw [Nat.one_shiftLeft]
    exact Nat.mod_eq_of_lt (Nat.pow_lt_pow_right (by decide) (vid_bit_lt vlan_id))
  have hrd : s.vlantbl.getD ((vlan_id >>> 5) &&& 0x7F) 0 % 2 ^ 32 = w0 := by
    rw [List.getD_eq_getElem?_getD, hget]
    exact Nat.mod_eq_of_lt hw0
  unfold txgbe_vlan_filter_set
  simp only [hidx, hbit, hrd]

/-- C30: on a VLAN table of 128 32-bit words, `txgbe_vlan_filter_set`
returns 0 and rewrites word `(vlan_id >> 5) & 0x7F` of the hardware table
and of the shadow copy with the old hardware word in which bit
`vlan_id & 31` is set when `on` is non-zero and cleared when it is zero,
every other bit kept; every other word of both tables is kept; and setting
then clearing a bit that was clear restores the hardware table. -/
theorem vlan_filter_set_one_bit (s : vlan_state) (vlan_id : Nat) (on_ : Int)
    (hlen : s.vlantbl.length = 128) (hsh : s.shadow_vfta.length = 128)
    (hw : ∀ w ∈ s.vlantbl, w < 2 ^ 32) :
    (txgbe_vlan_filter_set s vlan_id on_).1 = 0 ∧
    (∀ j : Nat, j ≠ (vlan_id >>> 5) &&& 0x7F →
      (txgbe_vlan_filter_set s vlan_id on_).2.vlantbl[j]? = s.vlantbl[j]? ∧
      (txgbe_vlan_filter_set s vlan_id on_).2.shadow_vfta[j]? = s.shadow_vfta[j]?) ∧
    (∃ w0 w1, s.vlantbl[(vlan_id >>> 5) &&& 0x7F]? = some w0 ∧
      (txgbe_vlan_filter_set s vlan_id on_).2.vlantbl[(vlan_id >>> 5) &&& 0x7F]? = some w1 ∧
      (txgbe_vlan_filter_set s vlan_id on_).2.shadow_vfta[(vlan_id >>> 5) &&& 0x7F]? =
        some w1 ∧
      w1.testBit (vlan_id &&& 0x1F) = decide (on_ ≠ 0) ∧
      (∀ b, b ≠ vlan_id &&& 0x1F → w1.testBit b = w0.testBit b) ∧
      (w0.testBit (vlan_id &&& 0x1F) = false →
        (txgbe_vlan_filter_set (txgbe_vlan_filter_set s vlan_id 1).2 vlan_id 0).2.vlantbl =
          s.vlantbl)) := by
  have hidx := vid_idx_lt vlan_id
  have hk := vid_bit_lt vlan_id
  cases hget : s.vlantbl[(vlan_id >>> 5) &&& 0x7F]? with
  | none =>
    rw [List.getElem?_eq_none_iff] at hget
    omega
  | some w0 =>
    have hw0 : w0 < 2 ^ 32 := hw w0 (List.getElem?_mem hget)
    rw [vlan_filter_set_eq s vlan_id on_ w0 hget hw0]
    refine ⟨rfl, ?_, w0, (if on_ ≠ 0 then w0 ||| 2 ^ (vlan_id &&& 0x1F)
      else w0 &&& not32 (2 ^ (vlan_id &&& 0x1F))), rfl, ?_, ?_, ?_, ?_, ?_⟩
    · intro j hj
      exact ⟨List.getElem?_set_ne (Ne.symm hj), List.getElem?_set_ne (Ne.symm hj)⟩
    · exact List.getElem?_set_self (by rw [hlen]; exact hidx)
    · exact List.getElem?_set_self (by rw [hsh]; exact hidx)
    · by_cases hon : on_ ≠ 0
      · rw [if_pos hon, testBit_set_bit]
        simp [hon]
      · rw [if_neg hon, testBit_clear_bit _ _ _ hk hw0]
        simp [hon]
    · intro b hb
      by_cases hon : on_ ≠ 0
      · rw [if_pos hon, testBit_set_bit]
        simp [Ne.symm hb]
      · rw [if_neg hon, testBit_clear_bit _ _ _ hk hw0]
        simp [Ne.symm hb]
    · intro hclear
      have hw1 : w0 ||| 2 ^ (vlan_id &&& 0x1F) < 2 ^ 32 :=
        Nat.or_lt_two_pow hw0 (Nat.pow_lt_pow_right (by decide) hk)
      have hstep := vlan_filter_set_eq s vlan_id 1 w0 hget hw0
      rw [if_pos (by decide)] at hstep
      rw [hstep]
      have hget1 : (s.vlantbl.set ((vlan_id >>> 5) &&& 0x7F)
          (w0 ||| 2 ^ (vlan_id &&& 0x1F)))[(vlan_id >>> 5) &&& 0x7F]? =
          some (w0 ||| 2 ^ (vlan_id &&& 0x1F)) :=
        List.getElem?_set_self (by rw [hlen]; exact hidx)
      rw [vlan_filter_set_eq _ vlan_id 0 _ hget1 hw1, if_neg (by decide)]
      simp only [List.set_set]
      have hback : (w0 ||| 2 ^ (vlan_id &&& 0x1F)) &&& not32 (2 ^ (vlan_id &&& 0x1F)) = w0 := by
        apply Nat.eq_of_testBit_eq
        intro b
        rw [testBit_clear_bit _ _ _ hk hw1, testBit_set_bit]
        by_cases hb : (vlan_id &&& 0x1F) = b
        · subst hb
          simp [hclear]
        · simp [hb]
      rw [hback]
      apply List.ext_getElem?
      intro n
      rw [List.getElem?_set]
      by_cases hn : (vlan_id >>> 5) &&& 0x7F = n
      · rw [if_pos hn, if_pos (by rw [hlen]; exact hidx), ← hn, hget]
      · rw [if_neg hn]

theorem demo_vlan_words : ∀ w ∈ demo_vlan.vlantbl, w < 2 ^ 32 := by
  intro w hmem
  rcases List.mem_or_eq_of_mem_set hmem with h | h
  · rw [List.eq_of_mem_replicate h]
    norm_num
  · rw [h]
    norm_num

theorem demo_vlan_length : demo_vlan.vlantbl.length = 128 ∧ demo_vlan.shadow_vfta.length = 128 := by
  constructor
  · show ((List.replicate 128 0).set 3 5).length = 128
    rw [List.length_set, List.length_replicate]
  · show ((List.replicate 128 0).set 3 5).length = 128
    rw [List.length_set, List.length_replicate]

theorem vlan_filter_set_one_bit_witness :
    (txgbe_vlan_filter_set demo_vlan 100 1).1 = 0 ∧
    (∃ w0 w1, demo_vlan.vlantbl[3]? = some w0 ∧
      (txgbe_vlan_filter_set demo_vlan 100 1).2.vlantbl[3]? = some w1 ∧
      (txgbe_vlan_filter_set demo_vlan 100 1).2.shadow_vfta[3]? = some w1 ∧
      w1.testBit 4 = true ∧
      (∀ b, b ≠ 4 → w1.testBit b = w0.testBit b) ∧
      (w0.testBit 4 = false →
        (txgbe_vlan_filter_set (txgbe_vlan_filter_set demo_vlan 100 1).2 100 0).2.vlantbl =
          demo_vlan.vlantbl)) :=
  ⟨(vlan_filter_set_one_bit demo_vlan 100 1 demo_vlan_length.1 demo_vlan_length.2
      demo_vlan_words).1,
   (vlan_filter_set_one_bit demo_vlan 100 1 demo_vlan_length.1 demo_vlan_length.2
      demo_vlan_words).2.2⟩

/-! ## The stat index check of txgbe_dev_queue_stats_mapping_set -/

/-- With a non-zero field mask, `!QMAP_FIELD_RESERVED_BITS_MASK` is 0, so
the test of line 302 never fires: on a raptor MAC the call returns `-EIO`
only when the queue has no mapping register. -/
theorem stat_idx_check_never_fires (k : qmap_consts) (sm : txgbe_stat_mappings)
    (queue_id stat_idx is_rx : Nat) (hmask : k.QMAP_FIELD_RESERVED_BITS_MASK ≠ 0)
    (hn : (queue_id / k.NB_QMAP_FIELDS_PER_QSM_REG) % 2 ^ 8 < k.TXGBE_NB_STAT_MAPPING) :
    (txgbe_dev_queue_stats_mapping_set k txgbe_mac_raptor sm queue_id stat_idx is_rx).1 = 0 := by
  have hl : lnot k.QMAP_FIELD_RESERVED_BITS_MASK = 0 := by
    unfold lnot
    rw [if_neg hmask]
  unfold txgbe_dev_queue_stats_mapping_set
  simp only [hl, Nat.and_zero, ne_eq, not_true_eq_false, if_false]
  rw [if_neg (by omega)]

/-- C28 fails on the code: on a raptor MAC, with RX queue 0 mapped to
counter 5, the call for `stat_idx = 0x10`, whose bit 4 lies outside the mask
`0x0f`, returns 0 and rewrites the mapping of the queue to 0. -/
theorem stats_mapping_accepts_out_of_mask_index :
    0x10 &&& not32 txgbe_qmap.QMAP_FIELD_RESERVED_BITS_MASK ≠ 0 ∧
    demo_mappings.rqsm.getD 0 0 = 5 ∧
    (txgbe_dev_queue_stats_mapping_set txgbe_qmap txgbe_mac_raptor demo_mappings
      0 0x10 1).1 = 0 ∧
    (txgbe_dev_queue_stats_mapping_set txgbe_qmap txgbe_mac_raptor demo_mappings
      0 0x10 1).2.rqsm.getD 0 0 = 0 ∧
    (txgbe_dev_queue_stats_mapping_set txgbe_qmap txgbe_mac_raptor demo_mappings
      0 0x10 1).2 ≠ demo_mappings := by
  decide

/-! ## The count of unicast hash table entries -/

/-- C29 fails on the code: from the initial state,
`txgbe_uc_all_hash_table_set` with `on = 1` on a PF MAC sets all 4096 bits
of the shadow table and leaves `uta_in_use` at 0; clearing one address with
`txgbe_uc_hash_table_set` afterwards makes the 16-bit count wrap to 65535,
with 4095 bits set. -/
theorem uc_all_hash_table_set_skips_count :
    uta_init.uta_in_use = 0 ∧ uta_bits_set uta_init = 0 ∧
    (txgbe_uc_all_hash_table_set demo_psrctl txgbe_mac_raptor 0 uta_init 1).1 = 0 ∧
    (txgbe_uc_all_hash_table_set demo_psrctl txgbe_mac_raptor 0 uta_init 1).2.uta_in_use = 0 ∧
    uta_bits_set (txgbe_uc_all_hash_table_set demo_psrctl txgbe_mac_raptor 0 uta_init 1).2
      = 4096 ∧
    (txgbe_uc_hash_table_set demo_psrctl txgbe_mac_raptor 0
      (txgbe_uc_all_hash_table_set demo_psrctl txgbe_mac_raptor 0 uta_init 1).2
      [0, 0, 0, 0, 0x12, 0x34] 0).2.uta_in_use = 65535 ∧
    uta_bits_set (txgbe_uc_hash_table_set demo_psrctl txgbe_mac_raptor 0
      (txgbe_uc_all_hash_table_set demo_psrctl txgbe_mac_raptor 0 uta_init 1).2
      [0, 0, 0, 0, 0x12, 0x34] 0).2 = 4095 := by
  decide

/-! ## The total of the stored VF rates -/

/-- C27 fails on the code. On a 10000 Mb/s link with no rate stored, the
call for VF 0, rate 8192 and queue mask `0xFF` returns 0: the 16-bit sum
`8 * 8192` is 0. The stored rates then add up to 65536. Without any
wrap-around, two calls for VF 1, rate 6000, with the masks `0x1` and `0x2`
both return 0, since the second does not count the rate stored for queue 0,
and the stored rates add up to 12000. -/
theorem vf_rate_total_exceeds_link_speed :
    (txgbe_set_vf_rate_limit demo_rate_env (some demo_vfinfo) 0 8192 0xFF).ret = 0 ∧
    (txgbe_set_vf_rate_limit demo_rate_env (some demo_vfinfo) 0 8192 0xFF).vfinfo.map
      stored_total = some 65536 ∧
    demo_rate_env.dev_link_speed = 10000 ∧
    (txgbe_set_vf_rate_limit demo_rate_env (some demo_vfinfo) 1 6000 0x1).ret = 0 ∧
    (txgbe_set_vf_rate_limit demo_rate_env
      (txgbe_set_vf_rate_limit demo_rate_env (some demo_vfinfo) 1 6000 0x1).vfinfo
      1 6000 0x2).ret = 0 ∧
    (txgbe_set_vf_rate_limit demo_rate_env
      (txgbe_set_vf_rate_limit demo_rate_env (some demo_vfinfo) 1 6000 0x1).vfinfo
      1 6000 0x2).vfinfo.map stored_total = some 12000 := by
  decide

end Txgbe
